import Mathlib

/-! # A verification development for the multi-pass Huffman compressor (`main.go`)

The Go program is embedded shallowly:

* `byte` values are naturals (`Byte`), `int`/`int64`/`int8` values are integers that are
  wrapped explicitly where Go wraps them;
* a `*HuffmanNode` is a `HuffmanNode`, whose constructor `nil` is the nil pointer;
* a Go `string` over the characters `0` and `1` is a `List Char`;
* a function that can return an `error` or stop with a run-time panic returns
  `Except Failure _`;
* the behaviours Go leaves open (map iteration order, the order `sort.Slice` gives to equal
  keys, the allocation limit of `make`) are the fields of `Runtime`;
* `encoding/gob` is a pair of functions `Gob`.
-/

namespace Compress

/-! ## Data model -/

/-- A Go `byte`. -/
abbrev Byte := Nat

/-- Ways in which a call can fail: the first three are `error` values handed back to the
caller, the next three are run-time panics, the last one is the step budget of a modelled
unbounded `for` loop running out. -/
inductive Failure where
  | eof
  | unexpectedEOF
  | gobError
  | indexOutOfRange
  | nilDereference
  | makesliceLen
  | outOfFuel
deriving DecidableEq, Repr

/-- The failure is an `error` value returned to the caller. -/
def Failure.isError : Failure → Bool
  | .eof => true
  | .unexpectedEOF => true
  | .gobError => true
  | _ => false

/-- The failure is a run-time panic. -/
def Failure.isPanic : Failure → Bool
  | .indexOutOfRange => true
  | .nilDereference => true
  | .makesliceLen => true
  | _ => false

/-- The type `*HuffmanNode` (lines 15-20): `nil`, or a pointer to a struct with the four
fields `Value`, `Frequency`, `LeftChild`, `RightChild`. -/
inductive HuffmanNode where
  | nil
  | node (Value : Byte) (Frequency : Int) (LeftChild RightChild : HuffmanNode)
deriving DecidableEq, Repr

/-- The struct `FileHeader` (lines 22-26). -/
structure FileHeader where
  TreeSize : Int
  DataSize : Int
  CompressAmount : Int
deriving DecidableEq, Repr

/-- Two's complement wrap of an integer into `int64`. -/
def wrapInt64 (x : Int) : Int := (x + 2 ^ 63) % 2 ^ 64 - 2 ^ 63

/-- Two's complement wrap of an integer into `int8`. -/
def wrapInt8 (x : Int) : Int := (x + 128) % 256 - 128

/-- The field `Frequency` of a node in the builder's working list (never `nil` there). -/
def HuffmanNode.freq : HuffmanNode → Int
  | .nil => 0
  | .node _ f _ _ => f

/-- The test `node.LeftChild == nil && node.RightChild == nil` on a non-nil node. -/
def HuffmanNode.isLeaf : HuffmanNode → Bool
  | .node _ _ .nil .nil => true
  | _ => false

/-- What the Go language and library leave open: the order in which `range` visits a map,
the permutation `sort.Slice` returns (any one that is sorted by `less`), and the largest
length `make` accepts (`maxAlloc`, at most `2 ^ 48` bytes on every platform Go supports). -/
structure Runtime where
  maxAlloc : Nat
  maxAlloc_le : maxAlloc ≤ 2 ^ 48
  mapRange : List (Byte × Int) → List (Byte × Int)
  mapRange_perm : ∀ m, (mapRange m).Perm m
  sortSlice : List HuffmanNode → List HuffmanNode
  sortSlice_perm : ∀ l, (sortSlice l).Perm l
  sortSlice_sorted : ∀ l, (sortSlice l).Pairwise (fun a b => a.freq ≤ b.freq)

/-- The two `encoding/gob` calls of lines 114-129 on a `*HuffmanNode`. -/
structure Gob where
  encode : HuffmanNode → Except Failure (List Byte)
  decode : List Byte → Except Failure HuffmanNode

/-! ## Bit packing (lines 32-57) -/

/-- The call `strconv.Atoi(string(char))` with its error dropped: the digit, or 0. -/
def atoiChar (c : Char) : Nat := if c.isDigit then c.toNat - 48 else 0

/-- The number of bytes of a string, `len(input)`. -/
def byteLen (input : List Char) : Nat := (input.map Char.utf8Size).sum

/-- The variables of the loop of `StringToByteArray`. -/
structure PackState where
  byteArray : List Byte
  currentByte : Nat
  bitCount : Nat
deriving DecidableEq, Repr

/-- The loop `for i, char := range input` of lines 38-49; `i` is the byte offset of `char`. -/
def packLoop : List Char → Nat → PackState → Except Failure PackState
  | [], _, st => .ok st
  | char :: rest, i, st =>
    let bit := atoiChar char
    let currentByte := ((st.currentByte * 2) % 256) ||| (bit % 256)
    let bitCount := st.bitCount + 1
    if bitCount = 8 then
      if i / 8 < st.byteArray.length then
        packLoop rest (i + char.utf8Size) ⟨st.byteArray.set (i / 8) currentByte, 0, 0⟩
      else .error .indexOutOfRange
    else packLoop rest (i + char.utf8Size) ⟨st.byteArray, currentByte, bitCount⟩

/-- The function `StringToByteArray` (lines 32-57). -/
def StringToByteArray (input : List Char) : Except Failure (List Byte) :=
  match packLoop input 0 ⟨List.replicate (byteLen input / 8) 0, 0, 0⟩ with
  | .error e => .error e
  | .ok st =>
    if st.bitCount > 0 then
      .ok (st.byteArray ++ [(st.currentByte * 2 ^ (8 - st.bitCount)) % 256])
    else .ok st.byteArray

/-! ## Code table (lines 178-197) and packing (lines 95-112) -/

/-- A Go `map[byte]string`, as an association list with distinct keys. -/
abbrev CodeMap := List (Byte × List Char)

/-- The assignment `codes[k] = code`. -/
def CodeMap.put : CodeMap → Byte → List Char → CodeMap
  | [], k, code => [(k, code)]
  | (k', c') :: m, k, code =>
    if k' = k then (k', code) :: m else (k', c') :: CodeMap.put m k code

/-- The lookup `codes[k]` with presence flag. -/
def CodeMap.get? : CodeMap → Byte → Option (List Char)
  | [], _ => none
  | (k', c') :: m, k => if k' = k then some c' else CodeMap.get? m k

/-- The expression `codes[k]`: the empty string when `k` is absent. -/
def CodeMap.get (m : CodeMap) (k : Byte) : List Char := (m.get? k).getD []

/-- The function `buildHuffmanCodes` (lines 184-197); the map is threaded through. -/
def buildHuffmanCodes : HuffmanNode → List Char → CodeMap → Except Failure CodeMap
  | .nil, _, _ => .error .nilDereference
  | .node v _ l r, code, codes =>
    let afterLeft :=
      if l ≠ .nil then buildHuffmanCodes l (code ++ ['0']) codes else .ok codes
    match afterLeft with
    | .error e => .error e
    | .ok codes1 =>
      let afterRight :=
        if r ≠ .nil then buildHuffmanCodes r (code ++ ['1']) codes1 else .ok codes1
      match afterRight with
      | .error e => .error e
      | .ok codes2 =>
        if l = .nil ∧ r = .nil then .ok (codes2.put v code) else .ok codes2

/-- The function `generateHuffmanCodes` (lines 178-182). -/
def generateHuffmanCodes (root : HuffmanNode) : Except Failure CodeMap :=
  buildHuffmanCodes root [] []

/-- The string built by the loop of `compressData` (lines 102-108). -/
def codeString (data : List Byte) (codes : CodeMap) : List Char :=
  data.flatMap (fun b => codes.get b)

/-- The function `compressData` (lines 101-112). -/
def compressData (data : List Byte) (codes : CodeMap) : Except Failure (List Byte) :=
  StringToByteArray (codeString data codes)

/-- The method `Encode` (lines 95-99). -/
def Encode (root : HuffmanNode) (data : List Byte) : Except Failure (List Byte) :=
  match generateHuffmanCodes root with
  | .error e => .error e
  | .ok codes => compressData data codes

/-! ## Tree construction (lines 131-176) -/

/-- The statement `frequencies[b]++` on a `map[byte]int`. -/
def incrFreq : List (Byte × Int) → Byte → List (Byte × Int)
  | [], b => [(b, 1)]
  | (k, n) :: m, b => if k = b then (k, wrapInt64 (n + 1)) :: m else (k, n) :: incrFreq m b

/-- The frequency map built by lines 132-135. -/
def countFrequencies (data : List Byte) : List (Byte × Int) :=
  data.foldl incrFreq []

/-- The loop `for len(nodes) > 1` of lines 152-172. Each round shortens the list by one, so
`fuel = len(nodes)` rounds are never used up. -/
def mergeLoop (rt : Runtime) : Nat → List HuffmanNode → Except Failure (List HuffmanNode)
  | 0, nodes => if nodes.length > 1 then .error .outOfFuel else .ok nodes
  | fuel + 1, nodes =>
    if nodes.length > 1 then
      match rt.sortSlice nodes with
      | left :: right :: rest =>
        let parent := HuffmanNode.node 0 (wrapInt64 (left.freq + right.freq)) left right
        mergeLoop rt fuel (rest ++ [parent])
      | _ => .error .indexOutOfRange
    else .ok nodes

/-- The function `buildHuffmanTree` (lines 140-176). -/
def buildHuffmanTree (rt : Runtime) (frequencies : List (Byte × Int)) :
    Except Failure HuffmanNode :=
  let nodes := (rt.mapRange frequencies).map (fun e => HuffmanNode.node e.1 e.2 .nil .nil)
  match mergeLoop rt nodes.length nodes with
  | .error e => .error e
  | .ok [] => .error .indexOutOfRange
  | .ok (root :: _) => .ok root

/-- The method `BuildTree` (lines 131-138). -/
def BuildTree (rt : Runtime) (data : List Byte) : Except Failure HuffmanNode :=
  buildHuffmanTree rt (countFrequencies data)

/-! ## Frames and the pass controller (lines 199-245) -/

/-- The eight bytes `binary.Write` emits for an `int64` in little-endian order. -/
def putInt64LE (x : Int) : List Byte :=
  (List.range 8).map (fun k => ((x % 2 ^ 64).toNat / 256 ^ k) % 256)

/-- The byte `binary.Write` emits for an `int8`. -/
def putInt8 (x : Int) : List Byte := [(x % 256).toNat]

/-- The 17 bytes `binary.Write` emits for a `FileHeader`. -/
def putHeader (h : FileHeader) : List Byte :=
  putInt64LE h.TreeSize ++ putInt64LE h.DataSize ++ putInt8 h.CompressAmount

/-- Lines 200-232: the frame one pass assembles in `binBuffer`. -/
def assembleFrame (rt : Runtime) (gob : Gob) (data : List Byte) (i : Int) :
    Except Failure (List Byte) :=
  match BuildTree rt data with
  | .error e => .error e
  | .ok root =>
    match Encode root data with
    | .error e => .error e
    | .ok compressed =>
      match gob.encode root with
      | .error e => .error e
      | .ok treeData =>
        let header : FileHeader :=
          { TreeSize := wrapInt64 treeData.length
            DataSize := wrapInt64 data.length
            CompressAmount := i }
        .ok (putHeader header ++ treeData ++ compressed)

/-- The function `EncodeLoop` (lines 199-245). The result carries the returned buffer and
the final value of `*i`. -/
def EncodeLoop (rt : Runtime) (gob : Gob) (data : List Byte) (i : Int) :
    Except Failure (List Byte × Int) :=
  match assembleFrame rt gob data i with
  | .error e => .error e
  | .ok binBuffer =>
    if binBuffer.length < data.length then
      EncodeLoop rt gob binBuffer (wrapInt8 (i + 1))
    else .ok (binBuffer, i)
termination_by data.length

/-- Lines 253-254 of `EncodeAndLargeFile`: the bytes written for the file content `data`. -/
def EncodeAndLargeFile (rt : Runtime) (gob : Gob) (data : List Byte) :
    Except Failure (List Byte) :=
  match EncodeLoop rt gob data 0 with
  | .error e => .error e
  | .ok r => .ok r.1

/-! ## Decoding (lines 286-352) -/

/-- The variables of the loops of `decodeData`. -/
structure DecodeState where
  node : HuffmanNode
  j : Int
  decoded : List Byte
deriving DecidableEq, Repr

/-- The inner loop `for i := 7; i >= 0; i--` of lines 332-349 on the byte `b`, with `n`
bits still to visit (the next one is bit `n - 1`). A `break` returns the state at once. -/
def decodeByte (root : HuffmanNode) (size : Int) (b : Byte) :
    Nat → DecodeState → Except Failure DecodeState
  | 0, st => .ok st
  | i + 1, st =>
    let bit := (b / 2 ^ i) % 2
    match st.node with
    | .nil => .error .nilDereference
    | .node _ _ l r =>
      let node := if bit = 0 then l else r
      match node with
      | .nil => .error .nilDereference
      | .node v _ l2 r2 =>
        if l2 = .nil ∧ r2 = .nil then
          let j := wrapInt64 (st.j + 1)
          let decoded := st.decoded ++ [v]
          if j = size then .ok ⟨root, j, decoded⟩
          else decodeByte root size b i ⟨root, j, decoded⟩
        else decodeByte root size b i ⟨node, st.j, st.decoded⟩

/-- The outer loop `for _, b := range data` of lines 331-350. -/
def decodeBytes (root : HuffmanNode) (size : Int) :
    List Byte → DecodeState → Except Failure DecodeState
  | [], st => .ok st
  | b :: rest, st =>
    match decodeByte root size b 8 st with
    | .error e => .error e
    | .ok st1 => decodeBytes root size rest st1

/-- The function `decodeData` (lines 326-352). -/
def decodeData (data : List Byte) (root : HuffmanNode) (size : Int) :
    Except Failure (List Byte) :=
  match decodeBytes root size data ⟨root, 0, []⟩ with
  | .error e => .error e
  | .ok st => .ok st.decoded

/-- The `io.ReadFull` inside `binary.Read` on a `bytes.Buffer`: `n` bytes and the rest. -/
def readFull (buf : List Byte) (n : Nat) : Except Failure (List Byte × List Byte) :=
  if n = 0 then .ok ([], buf)
  else if buf.length = 0 then .error .eof
  else if buf.length < n then .error .unexpectedEOF
  else .ok (buf.take n, buf.drop n)

/-- The `int64` that `binary.Read` builds from eight little-endian bytes. -/
def getInt64LE (bs : List Byte) : Int :=
  wrapInt64 (((List.range 8).map (fun k => bs.getD k 0 * 256 ^ k)).sum : Nat)

/-- The `int8` that `binary.Read` builds from one byte. -/
def getInt8 (bs : List Byte) : Int := wrapInt8 (bs.getD 0 0 : Nat)

/-- The `FileHeader` that `binary.Read` builds from 17 bytes. -/
def getHeader (bs : List Byte) : FileHeader :=
  { TreeSize := getInt64LE (bs.take 8)
    DataSize := getInt64LE ((bs.drop 8).take 8)
    CompressAmount := getInt8 (bs.drop 16) }

/-- The call `make([]byte, n)`: the length of the new slice, or the panic
`makeslice: len out of range`. -/
def makeSlice (rt : Runtime) (n : Int) : Except Failure Nat :=
  if n < 0 ∨ (rt.maxAlloc : Int) < n then .error .makesliceLen else .ok n.toNat

/-- Lines 293-305 of `DecodeLargeFile`: with the header read, allocate and read the tree
bytes, deserialize the tree and unpack what is left of `binBuffer`. -/
def decodeFrame (rt : Runtime) (gob : Gob) (header : FileHeader) (afterHeader : List Byte) :
    Except Failure (List Byte) :=
  match makeSlice rt header.TreeSize with
  | .error e => .error e
  | .ok treeLen =>
    match readFull afterHeader treeLen with
    | .error e => .error e
    | .ok r =>
      match gob.decode r.1 with
      | .error e => .error e
      | .ok root => decodeData r.2 root header.DataSize

/-- One round of the loop of `DecodeLargeFile` (lines 287-311): the header that was read
and the new content of `binBuffer`. -/
def decodeRound (rt : Runtime) (gob : Gob) (binBuffer : List Byte) :
    Except Failure (FileHeader × List Byte) :=
  (readFull binBuffer 17).bind fun r =>
    (decodeFrame rt gob (getHeader r.1) r.2).bind fun decoded =>
      .ok (getHeader r.1, decoded)

/-- The loop `for { ... }` of `DecodeLargeFile` (lines 286-316) with a budget of `fuel`
rounds, started on the content of the input file; the result is what line 318 writes. -/
def DecodeLargeFile (rt : Runtime) (gob : Gob) : Nat → List Byte → Except Failure (List Byte)
  | 0, _ => .error .outOfFuel
  | fuel + 1, binBuffer =>
    match decodeRound rt gob binBuffer with
    | .error e => .error e
    | .ok (header, decoded) =>
      if header.CompressAmount = 0 then .ok decoded
      else DecodeLargeFile rt gob fuel decoded

/-! ## Auxiliary definitions for the proofs -/

/-- A string made only of the characters `0` and `1`. -/
def IsBits (s : List Char) : Prop := ∀ c ∈ s, c = '0' ∨ c = '1'

/-- The value `currentByte` reaches from `acc` after the characters `cs`. -/
def accBits (acc : Nat) (cs : List Char) : Nat :=
  cs.foldl (fun a c => ((a * 2) % 256) ||| (atoiChar c % 256)) acc

/-- The byte written for a group of at most eight characters. -/
def chunkByte (c : List Char) : Byte :=
  if c.length = 8 then accBits 0 c else (accBits 0 c * 2 ^ (8 - c.length)) % 256

/-- Closed form of the packing: one byte per group of eight characters, the last group
shifted to the left. -/
def packSpec (s : List Char) : List Byte :=
  if h : s = [] then [] else chunkByte (s.take 8) :: packSpec (s.drop 8)
termination_by s.length
decreasing_by
  have hpos := List.length_pos.mpr h
  simp only [List.length_drop]
  omega

/-- What `StringToByteArray` returns from the final loop state. -/
def packFinish (st : PackState) : List Byte :=
  if st.bitCount > 0 then st.byteArray ++ [(st.currentByte * 2 ^ (8 - st.bitCount)) % 256]
  else st.byteArray

/-- The bits `n - 1`, ..., `0` of `b`, in the order the inner loop of `decodeData` reads them. -/
def bitsOf (b : Byte) : Nat → List Nat
  | 0 => []
  | i + 1 => (b / 2 ^ i) % 2 :: bitsOf b i

/-- All strings of `n` characters `0` or `1`. -/
def bitStrings : Nat → List (List Char)
  | 0 => [[]]
  | n + 1 => (bitStrings n).flatMap (fun s => ['0' :: s, '1' :: s])

/-- The inner loop of `decodeData` on an explicit list of bits. -/
def walkBits (root : HuffmanNode) (size : Int) :
    List Nat → DecodeState → Except Failure DecodeState
  | [], st => .ok st
  | bit :: rest, st =>
    match st.node with
    | .nil => .error .nilDereference
    | .node _ _ l r =>
      let node := if bit = 0 then l else r
      match node with
      | .nil => .error .nilDereference
      | .node v _ l2 r2 =>
        if l2 = .nil ∧ r2 = .nil then
          let j := wrapInt64 (st.j + 1)
          let decoded := st.decoded ++ [v]
          if j = size then .ok ⟨root, j, decoded⟩
          else walkBits root size rest ⟨root, j, decoded⟩
        else walkBits root size rest ⟨node, st.j, st.decoded⟩

/-- The string `p` leads from the node `t` (`0` to the left, `1` to the right) to a leaf
that carries the value `k`. -/
inductive PathTo : HuffmanNode → List Char → Byte → Prop where
  | leaf (v : Byte) (f : Int) : PathTo (.node v f .nil .nil) [] v
  | left {l : HuffmanNode} {p : List Char} {k : Byte} (v : Byte) (f : Int) (r : HuffmanNode) :
      PathTo l p k → PathTo (.node v f l r) ('0' :: p) k
  | right {r : HuffmanNode} {p : List Char} {k : Byte} (v : Byte) (f : Int) (l : HuffmanNode) :
      PathTo r p k → PathTo (.node v f l r) ('1' :: p) k

/-- The values of the leaves below a node, from left to right. -/
def leafValues : HuffmanNode → List Byte
  | .nil => []
  | .node v _ l r => if l = .nil ∧ r = .nil then [v] else leafValues l ++ leafValues r

/-- A non-nil tree in which every node has no child or two children. -/
def Proper : HuffmanNode → Prop
  | .nil => False
  | .node _ _ l r => (l = .nil ∧ r = .nil) ∨ (Proper l ∧ Proper r)

/-- The invariant of the decoding loops: the walk stands at `st.node`, the unread part of the
bit string is `stream`, and the symbols decoded so far followed by those still encoded in
`stream` are `total`. -/
def DecodeInv (root : HuffmanNode) (code : Byte → List Char) (size : Int) (total : List Byte)
    (st : DecodeState) (stream : List Char) : Prop :=
  ∃ p v rest, PathTo st.node p v ∧ p ≠ [] ∧ stream = p ++ rest.flatMap code ∧
    (∀ s ∈ rest, PathTo root (code s) s) ∧ st.j + 1 + rest.length = size ∧
    st.decoded ++ v :: rest = total ∧ 0 ≤ st.j ∧ size < 2 ^ 63

/-- The shape of a tree and the values of its leaves: every `Frequency`, and the `Value` of
every node that is not a leaf, are set to zero. -/
def skeleton : HuffmanNode → HuffmanNode
  | .nil => .nil
  | .node v _ l r => .node (if l = .nil ∧ r = .nil then v else 0) 0 (skeleton l) (skeleton r)

/-- Every element of the list is a byte value. -/
def IsBytes (l : List Byte) : Prop := ∀ b ∈ l, b < 256

instance isBytes_decidable (l : List Byte) : Decidable (IsBytes l) :=
  inferInstanceAs (Decidable (∀ b ∈ l, b < 256))

/-- A tree as `BuildTree` makes them from a byte buffer: proper, with byte values at its
leaves, at most 256 of them. -/
def ByteTree (t : HuffmanNode) : Prop :=
  Proper t ∧ IsBytes (leafValues t) ∧ (leafValues t).length ≤ 256

/-- Tree deserialization inverts tree serialization: every tree of a byte buffer is encoded
without error into a byte slice the allocator can hold, and decoding that slice gives a tree
of the same shape with the same leaf values. -/
def Gob.Inverts (gob : Gob) (rt : Runtime) : Prop :=
  ∀ t, ByteTree t → ∃ bs t', gob.encode t = .ok bs ∧ IsBytes bs ∧ bs.length ≤ rt.maxAlloc ∧
    gob.decode bs = .ok t' ∧ skeleton t' = skeleton t

/-- The buffer holds at least two distinct byte values. -/
def TwoValues (data : List Byte) : Prop := ∃ a ∈ data, ∃ b ∈ data, a ≠ b

/-- The frames assembled by the successive passes of `EncodeLoop data i`, first pass first. -/
def encodeFrames (rt : Runtime) (gob : Gob) (data : List Byte) (i : Int) : List (List Byte) :=
  match assembleFrame rt gob data i with
  | .error _ => []
  | .ok binBuffer =>
    if binBuffer.length < data.length then
      binBuffer :: encodeFrames rt gob binBuffer (wrapInt8 (i + 1))
    else [binBuffer]
termination_by data.length

/-- The pass-depth field (`CompressAmount`) in the header at the front of a frame. -/
def passDepth (frame : List Byte) : Int := (getHeader (frame.take 17)).CompressAmount

/-- The buffers on which the successive rounds of the loop of `DecodeLargeFile` start. -/
def decodeBuffers (rt : Runtime) (gob : Gob) : Nat → List Byte → List (List Byte)
  | 0, _ => []
  | fuel + 1, binBuffer =>
    match decodeRound rt gob binBuffer with
    | .error _ => [binBuffer]
    | .ok (header, decoded) =>
      if header.CompressAmount = 0 then [binBuffer]
      else binBuffer :: decodeBuffers rt gob fuel decoded

/-- The buffers `EncodeLoop data i` is called on: `data` itself, then the frame handed to
each recursive call. -/
def encodeInputs (rt : Runtime) (gob : Gob) (data : List Byte) (i : Int) : List (List Byte) :=
  match assembleFrame rt gob data i with
  | .error _ => [data]
  | .ok binBuffer =>
    if binBuffer.length < data.length then
      data :: encodeInputs rt gob binBuffer (wrapInt8 (i + 1))
    else [data]
termination_by data.length

/-! ## A concrete runtime and the serializer of the specification -/

/-- Results of calls can be compared. -/
instance exceptDecidableEq {ε α : Type} [DecidableEq ε] [DecidableEq α] :
    DecidableEq (Except ε α)
  | .ok a, .ok b => if h : a = b then isTrue (by rw [h]) else isFalse (by intro h'; cases h'; exact h rfl)
  | .error a, .error b =>
    if h : a = b then isTrue (by rw [h]) else isFalse (by intro h'; cases h'; exact h rfl)
  | .ok _, .error _ => isFalse (by intro h; cases h)
  | .error _, .ok _ => isFalse (by intro h; cases h)

/-- The order `sort.Slice` is asked for in line 154: by `Frequency`. -/
def freqLE (a b : HuffmanNode) : Prop := a.freq ≤ b.freq

instance freqLE_decidable : DecidableRel freqLE := fun a b => Int.decLe a.freq b.freq

/-- One admissible runtime: maps are visited in insertion order, `sort.Slice` is a stable
insertion sort, and `make` accepts up to `2 ^ 48` bytes. -/
def stdRuntime : Runtime where
  maxAlloc := 2 ^ 48
  maxAlloc_le := le_refl _
  mapRange := id
  mapRange_perm := fun m => List.Perm.refl m
  sortSlice := List.insertionSort freqLE
  sortSlice_perm := fun l => List.perm_insertionSort freqLE l
  sortSlice_sorted := fun l => by
    haveI : IsTotal HuffmanNode freqLE := ⟨fun a b => le_total a.freq b.freq⟩
    haveI : IsTrans HuffmanNode freqLE := ⟨fun a b c h1 h2 => le_trans h1 h2⟩
    exact List.sorted_insertionSort freqLE l

/-- Modelled from the spec: the byte encoding written by `SerializeTree`, which the program
delegates to `encoding/gob` (not part of the repository). Section 4.6 of the specification:
a pre-order traversal with an internal/leaf tag per node (here 1 and 0) and the byte value
for leaves; a tree the data model of the specification does not have is an error. -/
def SerializeTree : HuffmanNode → Except Failure (List Byte)
  | .nil => .error .gobError
  | .node v _ l r =>
    if l = .nil ∧ r = .nil then .ok [0, v]
    else
      match SerializeTree l, SerializeTree r with
      | .ok a, .ok b => .ok (1 :: (a ++ b))
      | _, _ => .error .gobError

/-- Modelled from the spec: the parser behind `DeserializeTree`, reading one node in
pre-order and returning the unread bytes; an unrecognized tag or truncated input is the
malformed-tree error. Reading a node takes at least one byte, so `fuel = len(data)` is
never used up. -/
def parseNode : Nat → List Byte → Except Failure (HuffmanNode × List Byte)
  | 0, _ => .error .gobError
  | _ + 1, [] => .error .gobError
  | fuel + 1, tag :: rest =>
    if tag = 0 then
      match rest with
      | [] => .error .gobError
      | v :: rest1 => .ok (.node v 0 .nil .nil, rest1)
    else if tag = 1 then
      match parseNode fuel rest with
      | .error e => .error e
      | .ok (l, rest1) =>
        match parseNode fuel rest1 with
        | .error e => .error e
        | .ok (r, rest2) => .ok (.node 0 0 l r, rest2)
    else .error .gobError

/-- Modelled from the spec: `DeserializeTree`, the inverse of `SerializeTree` (Section 4.6);
bytes left over after the tree are inconsistent input. -/
def DeserializeTree (data : List Byte) : Except Failure HuffmanNode :=
  match parseNode data.length data with
  | .error e => .error e
  | .ok (t, []) => .ok t
  | .ok (_, _ :: _) => .error .gobError

/-- The serializer of the specification in the place of `encoding/gob`. -/
def specGob : Gob := ⟨SerializeTree, DeserializeTree⟩

/-- A 17-byte header that declares tree-size `2 ^ 63 - 1`, data-size 0 and pass-depth 0. -/
def hugeTreeHeader : List Byte :=
  [255, 255, 255, 255, 255, 255, 255, 127, 0, 0, 0, 0, 0, 0, 0, 0, 0]

/-- Forty zero bytes followed by a one: the first pass shrinks it, the second does not. -/
def twoPassInput : List Byte := List.replicate 40 0 ++ [1]

/-- The frame the first pass assembles from `twoPassInput` (with `stdRuntime`, `specGob`). -/
def twoPassFrame0 : List Byte :=
  [5, 0, 0, 0, 0, 0, 0, 0, 41, 0, 0, 0, 0, 0, 0, 0, 0, 1, 0, 1, 0, 0, 255, 255, 255, 255, 255, 0]

/-- The frame the second pass assembles, from `twoPassFrame0`. -/
def twoPassFrame1 : List Byte :=
  [14, 0, 0, 0, 0, 0, 0, 0, 28, 0, 0, 0, 0, 0, 0, 0, 1, 1, 1, 1, 0, 1, 1, 0, 5, 0, 41, 0,
    255, 0, 0, 47, 231, 254, 35, 85, 96]

/-! ## Auxiliary definitions for the later claims -/

/-- A two-leaf tree: `0` leads to the value `0x61`, `1` to the value `0x62`. -/
def twoLeafTree : HuffmanNode := .node 0 2 (.node 97 1 .nil .nil) (.node 98 1 .nil .nil)

/-- The frame one pass assembles from `[0x61, 0x62]` (with `stdRuntime`, `specGob`). -/
def abFrame : List Byte :=
  [5, 0, 0, 0, 0, 0, 0, 0, 2, 0, 0, 0, 0, 0, 0, 0, 0, 1, 0, 97, 0, 98, 64]

/-- The value and the frequency of the leaves below a node, from left to right. -/
def leafEntries : HuffmanNode → List (Byte × Int)
  | .nil => []
  | .node v f l r => if l = .nil ∧ r = .nil then [(v, f)] else leafEntries l ++ leafEntries r

/-- Every node with children carries the sum of the frequencies of its two children. -/
def SumsOK : HuffmanNode → Prop
  | .nil => True
  | .node _ f l r => (l = .nil ∧ r = .nil) ∨ (f = l.freq + r.freq ∧ SumsOK l ∧ SumsOK r)

/-- The expression `frequencies[b]`: zero when `b` is absent. -/
def freqAt : List (Byte × Int) → Byte → Int
  | [], _ => 0
  | (k, n) :: m, b => if k = b then n else freqAt m b

/-- The sum of the frequencies of the nodes with children: the total encoded bit length the
tree gives, computed bottom-up. -/
def treeCost : HuffmanNode → Int
  | .nil => 0
  | .node _ f l r => if l = .nil ∧ r = .nil then 0 else treeCost l + treeCost r + f

/-- The total encoded bit length of a frequency table under an assignment of codes: the sum
over the symbols of frequency times code length. -/
def codeCost (frequencies : List (Byte × Int)) (code : Byte → List Char) : Int :=
  (frequencies.map (fun e => e.2 * ((code e.1).length : Int))).sum

/-- The multiset of weights `W` is reduced to a single weight by replacing, again and again,
two smallest weights by their sum (any choice among equal weights); `c` is the sum of all
the sums formed on the way. -/
inductive Merges : Multiset Int → Int → Prop where
  | single (w : Int) : Merges {w} 0
  | step (a b : Int) (R : Multiset Int) (c : Int) : a ≤ b → (∀ x ∈ R, b ≤ x) →
      Merges ((a + b) ::ₘ R) c → Merges (a ::ₘ b ::ₘ R) (c + (a + b))

/-- The left side of Kraft's inequality for code lengths at most `L`, scaled by `2 ^ L`. -/
def kraftSum (L : Nat) (lengths : Multiset Nat) : Nat :=
  (lengths.map (fun l => 2 ^ (L - l))).sum

/-- The total length of an assignment of code lengths to weights, given as pairs. -/
def lengthCost (P : Multiset (Int × Nat)) : Int :=
  (P.map (fun p => p.1 * (p.2 : Int))).sum

/-- The rest of each string of `C` that starts with the character `h`. -/
def tailsOf (h : Char) (C : List (List Char)) : List (List Char) :=
  C.filterMap (fun s => match s with
    | [] => none
    | c :: t => if c = h then some t else none)

/-! ## Bit packing -/

theorem IsBits.byteLen {s : List Char} (h : IsBits s) : byteLen s = s.length := by
  induction s with
  | nil => rfl
  | cons c s ih =>
    have hc : c.utf8Size = 1 := by
      rcases h c (List.mem_cons_self _ _) with rfl | rfl <;> rfl
    have := ih (fun x hx => h x (List.mem_cons_of_mem _ hx))
    simp only [Compress.byteLen, List.map_cons, List.sum_cons, List.length_cons] at this ⊢
    omega

theorem packLoop_short (cs rest : List Char) : ∀ (i : Nat) (st : PackState),
    st.bitCount + cs.length < 8 →
    packLoop (cs ++ rest) i st =
      packLoop rest (i + byteLen cs)
        ⟨st.byteArray, accBits st.currentByte cs, st.bitCount + cs.length⟩ := by
  induction cs with
  | nil => intro i st _; simp [byteLen, accBits]
  | cons c cs ih =>
    intro i st h
    simp only [List.length_cons] at h
    have h8 : ¬ (st.bitCount + 1 = 8) := by omega
    simp only [List.cons_append, packLoop, h8, if_false, List.append_eq]
    rw [ih _ _ (by simp only; omega)]
    simp only [byteLen, accBits, List.map_cons, List.sum_cons, List.foldl_cons, List.length_cons]
    congr 1
    · omega
    · congr 1; omega

theorem packLoop_chunk (cs rest : List Char) (done zeros : List Byte)
    (hb : IsBits cs) (hl : cs.length = 8) :
    packLoop (cs ++ rest) (8 * done.length) ⟨done ++ 0 :: zeros, 0, 0⟩ =
      packLoop rest (8 * (done ++ [accBits 0 cs]).length)
        ⟨(done ++ [accBits 0 cs]) ++ zeros, 0, 0⟩ := by
  obtain ⟨c7, c, rfl⟩ : ∃ c7 c, cs = c7 ++ [c] := by
    refine ⟨cs.dropLast, cs.getLast (by intro h; simp [h] at hl), ?_⟩
    exact (List.dropLast_append_getLast _).symm
  have hl7 : c7.length = 7 := by simpa using hl
  have hb7 : IsBits c7 := fun x hx => hb x (List.mem_append_left _ hx)
  have hc : c.utf8Size = 1 := by
    rcases hb c (by simp) with rfl | rfl <;> rfl
  rw [List.append_assoc, packLoop_short c7 _ _ _ (by simp only; omega)]
  simp only [List.singleton_append, packLoop, hb7.byteLen, hl7, zero_add]
  have hidx : (8 * done.length + 7) / 8 = done.length := by omega
  simp only [hidx, List.length_append, List.length_cons, accBits, List.foldl_append,
    List.foldl_cons, List.foldl_nil, hc, List.length_nil]
  simp only [if_true]
  rw [if_pos (by omega)]
  have hset : ∀ x : Byte, (done ++ 0 :: zeros).set done.length x = done ++ [x] ++ zeros := by
    intro x
    rw [List.set_append_right _ _ (le_refl _)]
    simp
  rw [hset]
  simp only [List.append_eq, List.nil_append]
  congr 1

theorem chunkByte_full {c : List Char} (h : c.length = 8) : chunkByte c = accBits 0 c := by
  simp [chunkByte, h]

theorem packSpec_nil : packSpec [] = [] := by rw [packSpec]; simp

theorem packSpec_append {a : List Char} (b : List Char) (h : a.length = 8) :
    packSpec (a ++ b) = accBits 0 a :: packSpec b := by
  have hne : a ++ b ≠ [] := by
    intro h0
    have h1 := congrArg List.length h0
    rw [List.length_append, h] at h1
    simp at h1
  rw [packSpec, dif_neg hne, List.take_left' h, List.drop_left' h, chunkByte_full h]

theorem packSpec_short {s : List Char} (h : s.length < 8) (hs : s ≠ []) :
    packSpec s = [(accBits 0 s * 2 ^ (8 - s.length)) % 256] := by
  have ht : List.take 8 s = s := List.take_of_length_le (by omega)
  have hd : List.drop 8 s = [] := List.drop_of_length_le (by omega)
  have hne : ¬ s.length = 8 := by omega
  rw [packSpec, dif_neg hs, hd, packSpec_nil, ht, chunkByte, if_neg hne]

theorem packLoop_spec : ∀ (n : Nat) (s : List Char) (done : List Byte), s.length ≤ n →
    IsBits s →
    ∃ st, packLoop s (8 * done.length) ⟨done ++ List.replicate (s.length / 8) 0, 0, 0⟩ = .ok st ∧
      packFinish st = done ++ packSpec s := by
  intro n
  induction n with
  | zero =>
    intro s done h _
    have : s = [] := List.length_eq_zero.mp (by omega)
    subst this
    exact ⟨_, rfl, by simp [packFinish, packSpec_nil]⟩
  | succ n ih =>
    intro s done hn hb
    by_cases h8 : s.length < 8
    · have h := packLoop_short s [] (8 * done.length) ⟨done ++ List.replicate (s.length / 8) 0, 0, 0⟩
        (by simp only; omega)
      rw [List.append_nil] at h
      refine ⟨_, by rw [h]; rfl, ?_⟩
      have h0 : s.length / 8 = 0 := by omega
      simp only [packFinish, zero_add, h0, List.replicate_zero, List.append_nil]
      by_cases hs : s = []
      · subst hs; simp [packSpec_nil]
      · have hpos : s.length > 0 := List.length_pos.mpr hs
        rw [packSpec_short h8 hs, if_pos hpos]
    · obtain ⟨a, b, rfl, hla⟩ : ∃ a b, s = a ++ b ∧ a.length = 8 :=
        ⟨s.take 8, s.drop 8, (List.take_append_drop 8 s).symm, by simp; omega⟩
      have hba : IsBits a := fun x hx => hb x (List.mem_append_left _ hx)
      have hbb : IsBits b := fun x hx => hb x (List.mem_append_right _ hx)
      have hlen : (a ++ b).length = b.length + 8 := by simp [hla]; omega
      have hrep : List.replicate ((a ++ b).length / 8) 0 =
          0 :: List.replicate (b.length / 8) (0 : Byte) := by
        have : (a ++ b).length / 8 = b.length / 8 + 1 := by rw [hlen]; omega
        rw [this, List.replicate_succ]
      obtain ⟨st, hst, hfin⟩ := ih b (done ++ [accBits 0 a]) (by omega) hbb
      refine ⟨st, ?_, ?_⟩
      · rw [hrep, packLoop_chunk _ _ _ _ hba hla]
        exact hst
      · rw [hfin, packSpec_append b hla]
        simp

theorem StringToByteArray_eq {s : List Char} (hb : IsBits s) :
    StringToByteArray s = .ok (packSpec s) := by
  obtain ⟨st, hst, hfin⟩ := packLoop_spec s.length s [] (le_refl _) hb
  simp only [List.length_nil, Nat.mul_zero, List.nil_append] at hst hfin
  simp only [StringToByteArray, hb.byteLen, hst]
  simp only [packFinish] at hfin
  split <;> simp_all

theorem mem_bitStrings : ∀ (s : List Char), IsBits s → s ∈ bitStrings s.length := by
  intro s
  induction s with
  | nil => intro _; simp [bitStrings]
  | cons c s ih =>
    intro h
    have hs := ih (fun x hx => h x (List.mem_cons_of_mem _ hx))
    simp only [List.length_cons, bitStrings, List.mem_flatMap]
    refine ⟨s, hs, ?_⟩
    rcases h c (List.mem_cons_self _ _) with rfl | rfl <;> simp

set_option maxRecDepth 100000 in
theorem bitsOf_chunkByte_all : ∀ n, n ≤ 8 → ∀ s ∈ bitStrings n,
    bitsOf (chunkByte s) 8 = (s ++ List.replicate (8 - s.length) '0').map atoiChar := by
  decide

/-! ## Decoding a packed code string -/

theorem decodeByte_eq_walkBits (root : HuffmanNode) (size : Int) (b : Byte) :
    ∀ (n : Nat) (st : DecodeState),
      decodeByte root size b n st = walkBits root size (bitsOf b n) st := by
  intro n
  induction n with
  | zero => intro st; rfl
  | succ i ih =>
    intro st
    simp only [decodeByte, bitsOf, walkBits]
    cases st.node with
    | nil => rfl
    | node v f l r =>
      simp only
      cases (if b / 2 ^ i % 2 = 0 then l else r) with
      | nil => rfl
      | node v2 f2 l2 r2 =>
        simp only [ih]

theorem PathTo.isBits {t : HuffmanNode} {p : List Char} {k : Byte} (h : PathTo t p k) :
    IsBits p := by
  induction h with
  | leaf v f => intro c hc; simp at hc
  | left v f r _ ih =>
    intro c hc
    rcases List.mem_cons.mp hc with rfl | hc
    · exact Or.inl rfl
    · exact ih c hc
  | right v f l _ ih =>
    intro c hc
    rcases List.mem_cons.mp hc with rfl | hc
    · exact Or.inr rfl
    · exact ih c hc

theorem PathTo.ne_nil_of_not_leaf {t : HuffmanNode} {p : List Char} {k : Byte}
    (h : PathTo t p k) (hl : t.isLeaf = false) : p ≠ [] := by
  cases h with
  | leaf v f => simp [HuffmanNode.isLeaf] at hl
  | left v f r _ => simp
  | right v f l _ => simp

theorem wrapInt64_eq {x : Int} (h0 : -(2 ^ 63) ≤ x) (h1 : x < 2 ^ 63) : wrapInt64 x = x := by
  unfold wrapInt64
  omega

/-- One bit of the walk: either the stream goes on and the invariant is kept, or this was
the last bit and the loop stops with everything decoded. -/
theorem walkBits_step {root : HuffmanNode} {code : Byte → List Char} {size : Int}
    {total : List Byte} (hroot : root.isLeaf = false) {st : DecodeState} {b : Char}
    {stream : List Char} (hinv : DecodeInv root code size total st (b :: stream)) :
    (stream ≠ [] ∧ ∃ st', DecodeInv root code size total st' stream ∧
        ∀ bits, walkBits root size (atoiChar b :: bits) st = walkBits root size bits st') ∨
    (stream = [] ∧ ∃ st', st'.decoded = total ∧
        ∀ bits, walkBits root size (atoiChar b :: bits) st = .ok st') := by
  obtain ⟨p, v, rest, hp, hpne, hstream, hrest, hj, htot, hj0, hsz⟩ := hinv
  obtain ⟨node, j, decoded⟩ := st
  simp only at hp hj htot hj0
  -- the first character of the pending path is `b`
  obtain ⟨b', p', rfl⟩ := List.exists_cons_of_ne_nil hpne
  have hb : b = b' := by simpa using (List.cons.inj hstream).1
  subst hb
  have hstream' : stream = p' ++ rest.flatMap code := (List.cons.inj hstream).2
  have hwrap : wrapInt64 (j + 1) = j + 1 := wrapInt64_eq (by omega) (by omega)
  -- the child the walk moves to
  have key : ∀ (ch : HuffmanNode), PathTo ch p' v →
      (∀ bits, walkBits root size (atoiChar b :: bits) ⟨node, j, decoded⟩ =
        match ch with
        | .nil => .error .nilDereference
        | .node v2 _ l2 r2 =>
          if l2 = .nil ∧ r2 = .nil then
            if wrapInt64 (j + 1) = size then .ok ⟨root, wrapInt64 (j + 1), decoded ++ [v2]⟩
            else walkBits root size bits ⟨root, wrapInt64 (j + 1), decoded ++ [v2]⟩
          else walkBits root size bits ⟨ch, j, decoded⟩) →
      (stream ≠ [] ∧ ∃ st', DecodeInv root code size total st' stream ∧
        ∀ bits, walkBits root size (atoiChar b :: bits) ⟨node, j, decoded⟩ =
          walkBits root size bits st') ∨
      (stream = [] ∧ ∃ st', st'.decoded = total ∧
        ∀ bits, walkBits root size (atoiChar b :: bits) ⟨node, j, decoded⟩ = .ok st') := by
    intro ch hch hwalk
    cases hch with
    | leaf v f =>
      -- a leaf: the symbol `v` is emitted
      simp only [and_self, if_true, hwrap] at hwalk
      by_cases hlast : j + 1 = size
      · right
        have hr : rest = [] := List.length_eq_zero.mp (by omega)
        subst hr
        refine ⟨by simpa using hstream', ⟨root, j + 1, decoded ++ [v]⟩, by simpa using htot, ?_⟩
        intro bits
        rw [hwalk bits, if_pos hlast]
      · left
        obtain ⟨v2, rest2, rfl⟩ : ∃ v2 rest2, rest = v2 :: rest2 := by
          cases rest with
          | nil => simp at hj; omega
          | cons a l => exact ⟨a, l, rfl⟩
        have hp2 : PathTo root (code v2) v2 := hrest v2 (List.mem_cons_self _ _)
        have hne2 : code v2 ≠ [] := hp2.ne_nil_of_not_leaf hroot
        have hs2 : stream = code v2 ++ rest2.flatMap code := by simpa using hstream'
        refine ⟨?_, ⟨root, j + 1, decoded ++ [v]⟩, ?_, ?_⟩
        · rw [hs2]; simp [hne2]
        · refine ⟨code v2, v2, rest2, hp2, hne2, hs2,
            fun s hs => hrest s (List.mem_cons_of_mem _ hs), ?_, ?_, ?_, hsz⟩
          · simp only [List.length_cons] at hj ⊢; push_cast at hj ⊢; omega
          · simpa using htot
          · simp only; omega
        · intro bits
          rw [hwalk bits, if_neg hlast]
    | left v2 f2 r2 hl =>
      -- an inner node: the walk goes on below it
      left
      have hnl : ∀ {l2 : HuffmanNode} {q : List Char}, PathTo l2 q v → l2 ≠ .nil := by
        intro l2 q h; cases h <;> simp
      have hne := hnl hl
      simp only [hne, false_and, if_false] at hwalk
      refine ⟨by rw [hstream']; simp, ⟨_, j, decoded⟩, ?_, hwalk⟩
      exact ⟨_, v, rest, PathTo.left v2 f2 r2 hl, by simp, hstream', hrest, hj, htot, hj0, hsz⟩
    | right v2 f2 l2 hr =>
      left
      have hnl : ∀ {l2 : HuffmanNode} {q : List Char}, PathTo l2 q v → l2 ≠ .nil := by
        intro l2 q h; cases h <;> simp
      have hne := hnl hr
      simp only [hne, and_false, if_false] at hwalk
      refine ⟨by rw [hstream']; simp, ⟨_, j, decoded⟩, ?_, hwalk⟩
      exact ⟨_, v, rest, PathTo.right v2 f2 l2 hr, by simp, hstream', hrest, hj, htot, hj0, hsz⟩
  cases hp with
  | left v0 f0 r0 hl =>
    refine key _ hl ?_
    intro bits
    have h0 : atoiChar '0' = 0 := by decide
    simp only [walkBits, h0, if_true]
  | right v0 f0 l0 hr =>
    refine key _ hr ?_
    intro bits
    have h1 : atoiChar '1' = 1 := by decide
    simp only [walkBits, h1, one_ne_zero, if_false]

theorem DecodeInv.stream_ne_nil {root : HuffmanNode} {code : Byte → List Char} {size : Int}
    {total : List Byte} {st : DecodeState} {stream : List Char}
    (h : DecodeInv root code size total st stream) : stream ≠ [] := by
  obtain ⟨p, v, rest, _, hpne, hstream, _⟩ := h
  rw [hstream]
  simp [hpne]

/-- A group of bits that ends before the code string does is walked without a `break`. -/
theorem walkBits_inner {root : HuffmanNode} {code : Byte → List Char} {size : Int}
    {total : List Byte} (hroot : root.isLeaf = false) (c : List Char) :
    ∀ (st : DecodeState) (more : List Char), more ≠ [] →
      DecodeInv root code size total st (c ++ more) →
      ∃ st', walkBits root size (c.map atoiChar) st = .ok st' ∧
        DecodeInv root code size total st' more := by
  induction c with
  | nil => intro st more _ h; exact ⟨st, rfl, h⟩
  | cons b c ih =>
    intro st more hmore h
    rcases walkBits_step hroot h with ⟨_, st1, hinv1, hw⟩ | ⟨hnil, _⟩
    · obtain ⟨st', hst', hinv'⟩ := ih st1 more hmore hinv1
      exact ⟨st', by rw [List.map_cons, hw, hst'], hinv'⟩
    · exact absurd (List.append_eq_nil.mp hnil).2 hmore

/-- The group of bits that holds the end of the code string: the walk stops at the last
symbol, whatever padding follows in the group. -/
theorem walkBits_last {root : HuffmanNode} {code : Byte → List Char} {size : Int}
    {total : List Byte} (hroot : root.isLeaf = false) (stream : List Char) :
    ∀ (st : DecodeState) (pad : List Char),
      DecodeInv root code size total st stream →
      ∃ st', walkBits root size ((stream ++ pad).map atoiChar) st = .ok st' ∧
        st'.decoded = total := by
  induction stream with
  | nil => intro st pad h; exact absurd rfl h.stream_ne_nil
  | cons b stream ih =>
    intro st pad h
    rcases walkBits_step hroot h with ⟨_, st1, hinv1, hw⟩ | ⟨_, st1, hdec, hw⟩
    · obtain ⟨st', hst', hdec'⟩ := ih st1 pad hinv1
      exact ⟨st', by rw [List.cons_append, List.map_cons, hw, hst'], hdec'⟩
    · exact ⟨st1, by rw [List.cons_append, List.map_cons, hw], hdec⟩

theorem bitsOf_chunkByte {c : List Char} (hb : IsBits c) (hl : c.length ≤ 8) :
    bitsOf (chunkByte c) 8 = (c ++ List.replicate (8 - c.length) '0').map atoiChar :=
  bitsOf_chunkByte_all c.length hl c (mem_bitStrings c hb)

/-- The outer loop of `decodeData` on a packed code string decodes every symbol. -/
theorem decodeBytes_packSpec {root : HuffmanNode} {code : Byte → List Char} {size : Int}
    {total : List Byte} (hroot : root.isLeaf = false) :
    ∀ (n : Nat) (stream : List Char) (st : DecodeState), stream.length ≤ n →
      IsBits stream → DecodeInv root code size total st stream →
      ∃ st', decodeBytes root size (packSpec stream) st = .ok st' ∧ st'.decoded = total := by
  intro n
  induction n with
  | zero =>
    intro stream st hn _ h
    exact absurd (List.length_eq_zero.mp (by omega)) h.stream_ne_nil
  | succ n ih =>
    intro stream st hn hb h
    have hne := h.stream_ne_nil
    have hbt : IsBits (stream.take 8) := fun x hx => hb x (List.mem_of_mem_take hx)
    have hbd : IsBits (stream.drop 8) := fun x hx => hb x (List.mem_of_mem_drop hx)
    have hlt : (stream.take 8).length ≤ 8 := by simp
    rw [packSpec, dif_neg hne]
    simp only [decodeBytes, decodeByte_eq_walkBits, bitsOf_chunkByte hbt hlt]
    by_cases h8 : stream.length ≤ 8
    · have ht : stream.take 8 = stream := List.take_of_length_le h8
      have hd : stream.drop 8 = [] := List.drop_of_length_le h8
      obtain ⟨st', hst', hdec⟩ := walkBits_last hroot stream st
        (List.replicate (8 - stream.length) '0') h
      rw [ht, hd, hst', packSpec_nil]
      exact ⟨st', rfl, hdec⟩
    · have hl8 : (stream.take 8).length = 8 := by simp; omega
      have hdne : stream.drop 8 ≠ [] := by
        intro h0
        have := congrArg List.length h0
        simp at this
        omega
      have hsplit : stream.take 8 ++ stream.drop 8 = stream := List.take_append_drop 8 stream
      obtain ⟨st1, hst1, hinv1⟩ := walkBits_inner hroot (stream.take 8) st (stream.drop 8) hdne
        (by rw [hsplit]; exact h)
      rw [hl8, Nat.sub_self, List.replicate_zero, List.append_nil, hst1]
      have hlen : (stream.drop 8).length ≤ n := by simp; omega
      exact ih (stream.drop 8) st1 hlen hbd hinv1

theorem isBits_flatMap {code : Byte → List Char} {data : List Byte}
    (h : ∀ s ∈ data, IsBits (code s)) : IsBits (data.flatMap code) := by
  intro c hc
  obtain ⟨s, hs, hcs⟩ := List.mem_flatMap.mp hc
  exact h s hs c hcs

/-- Single-pass inverse on the closed form: when the root is not a leaf and every symbol's
code leads to a leaf with that symbol, unpacking the packed code string of `data` with
target count `len(data)` gives `data`. -/
theorem decodeData_packSpec {root : HuffmanNode} {code : Byte → List Char}
    (hroot : root.isLeaf = false) (data : List Byte) (hne : data ≠ [])
    (hlen : (data.length : Int) < 2 ^ 63)
    (hcode : ∀ s ∈ data, PathTo root (code s) s) :
    decodeData (packSpec (data.flatMap code)) root data.length = .ok data := by
  obtain ⟨v, rest, rfl⟩ := List.exists_cons_of_ne_nil hne
  have hp : PathTo root (code v) v := hcode v (List.mem_cons_self _ _)
  have hinv : DecodeInv root code ((v :: rest).length : Nat) (v :: rest) ⟨root, 0, []⟩
      ((v :: rest).flatMap code) := by
    refine ⟨code v, v, rest, hp, hp.ne_nil_of_not_leaf hroot, by simp,
      fun s hs => hcode s (List.mem_cons_of_mem _ hs), ?_, by simp, le_refl _, hlen⟩
    simp only [List.length_cons]
    push_cast
    omega
  have hbits : IsBits ((v :: rest).flatMap code) :=
    isBits_flatMap (fun s hs => (hcode s hs).isBits)
  obtain ⟨st', hst', hdec⟩ := decodeBytes_packSpec hroot _ _ _ (le_refl _) hbits hinv
  simp only [decodeData, hst', hdec]

/-! ## The code table -/

theorem CodeMap.get?_put (m : CodeMap) (k : Byte) (code : List Char) (k' : Byte) :
    (m.put k code).get? k' = if k = k' then some code else m.get? k' := by
  induction m with
  | nil => simp [CodeMap.put, CodeMap.get?]
  | cons e m ih =>
    obtain ⟨a, c⟩ := e
    by_cases ha : a = k
    · subst ha
      simp only [CodeMap.put, if_true, CodeMap.get?]
      split <;> rfl
    · simp only [CodeMap.put, ha, if_false, CodeMap.get?, ih]
      by_cases hk : a = k'
      · subst hk
        simp [Ne.symm ha]
      · simp [hk]

theorem PathTo.node_ne_nil {t : HuffmanNode} {p : List Char} {k : Byte} (h : PathTo t p k) :
    t ≠ .nil := by
  cases h <;> simp

theorem leafValues_nil : leafValues .nil = [] := rfl

/-- The table `buildHuffmanCodes` leaves behind: a value below `node` gets `code` followed
by a path from `node` to a leaf with that value, every other entry is untouched. -/
theorem buildHuffmanCodes_spec (node : HuffmanNode) :
    ∀ (code : List Char) (m : CodeMap), node ≠ .nil →
      ∃ m', buildHuffmanCodes node code m = .ok m' ∧
        ∀ k, (k ∈ leafValues node → ∃ p, m'.get? k = some (code ++ p) ∧ PathTo node p k) ∧
          (k ∉ leafValues node → m'.get? k = m.get? k) := by
  induction node with
  | nil => intro _ _ h; exact absurd rfl h
  | node v f l r ihl ihr =>
    intro code m _
    by_cases hl : l = .nil
    · by_cases hr : r = .nil
      · -- a leaf
        subst hl hr
        refine ⟨m.put v code, by simp [buildHuffmanCodes], ?_⟩
        intro k
        simp only [leafValues, and_self, if_true, List.mem_singleton, CodeMap.get?_put]
        constructor
        · intro hk
          subst hk
          exact ⟨[], by simp, PathTo.leaf _ _⟩
        · intro hk
          rw [if_neg (Ne.symm hk)]
      · -- only a right child
        subst hl
        obtain ⟨m', hm', hspec⟩ := ihr (code ++ ['1']) m hr
        refine ⟨m', by simp [buildHuffmanCodes, hr, hm'], ?_⟩
        intro k
        simp only [leafValues, hr, and_false, if_false, List.nil_append]
        constructor
        · intro hk
          obtain ⟨p, hp, hpath⟩ := (hspec k).1 hk
          exact ⟨'1' :: p, by simpa using hp, PathTo.right _ _ _ hpath⟩
        · exact (hspec k).2
    · obtain ⟨m1, hm1, hspec1⟩ := ihl (code ++ ['0']) m hl
      by_cases hr : r = .nil
      · subst hr
        refine ⟨m1, by simp [buildHuffmanCodes, hl, hm1], ?_⟩
        intro k
        simp only [leafValues, hl, false_and, if_false, List.append_nil]
        constructor
        · intro hk
          obtain ⟨p, hp, hpath⟩ := (hspec1 k).1 hk
          exact ⟨'0' :: p, by simpa using hp, PathTo.left _ _ _ hpath⟩
        · exact (hspec1 k).2
      · obtain ⟨m2, hm2, hspec2⟩ := ihr (code ++ ['1']) m1 hr
        refine ⟨m2, by simp [buildHuffmanCodes, hl, hr, hm1, hm2], ?_⟩
        intro k
        simp only [leafValues, hl, false_and, if_false, List.mem_append]
        constructor
        · intro hk
          by_cases hkr : k ∈ leafValues r
          · obtain ⟨p, hp, hpath⟩ := (hspec2 k).1 hkr
            exact ⟨'1' :: p, by simpa using hp, PathTo.right _ _ _ hpath⟩
          · have hkl : k ∈ leafValues l := hk.resolve_right hkr
            obtain ⟨p, hp, hpath⟩ := (hspec1 k).1 hkl
            refine ⟨'0' :: p, ?_, PathTo.left _ _ _ hpath⟩
            rw [(hspec2 k).2 hkr]
            simpa using hp
        · intro hk
          have hkl : k ∉ leafValues l := fun h => hk (Or.inl h)
          have hkr : k ∉ leafValues r := fun h => hk (Or.inr h)
          rw [(hspec2 k).2 hkr, (hspec1 k).2 hkl]

/-- The table of `generateHuffmanCodes`: its keys are the leaf values and each code is a
path from the root to a leaf with that value. -/
theorem generateHuffmanCodes_spec {root : HuffmanNode} (h : root ≠ .nil) :
    ∃ codes, generateHuffmanCodes root = .ok codes ∧
      (∀ k ∈ leafValues root, ∃ p, codes.get? k = some p ∧ PathTo root p k) ∧
      (∀ k p, codes.get? k = some p → PathTo root p k) := by
  obtain ⟨codes, hc, hspec⟩ := buildHuffmanCodes_spec root [] [] h
  refine ⟨codes, hc, fun k hk => ?_, fun k p hp => ?_⟩
  · obtain ⟨p, hp, hpath⟩ := (hspec k).1 hk
    exact ⟨p, by simpa using hp, hpath⟩
  · by_cases hk : k ∈ leafValues root
    · obtain ⟨q, hq, hpath⟩ := (hspec k).1 hk
      rw [hp] at hq
      have : p = q := by simpa using hq
      rw [this]
      exact hpath
    · rw [(hspec k).2 hk] at hp
      simp [CodeMap.get?] at hp

/-- Two paths to leaves, one a beginning of the other, are the same path to the same value. -/
theorem PathTo.eq_of_isPrefix {t : HuffmanNode} {p : List Char} {a : Byte}
    (hp : PathTo t p a) : ∀ {q : List Char} {b : Byte}, PathTo t q b → p <+: q → p = q ∧ a = b := by
  induction hp with
  | leaf v f =>
    intro q b hq _
    cases hq with
    | leaf _ _ => exact ⟨rfl, rfl⟩
    | left _ _ _ h => exact absurd rfl h.node_ne_nil
    | right _ _ _ h => exact absurd rfl h.node_ne_nil
  | left v f r hl ih =>
    intro q b hq hpre
    cases hq with
    | leaf _ _ => exact absurd rfl hl.node_ne_nil
    | left _ _ _ h =>
      obtain ⟨h1, h2⟩ := ih h (List.prefix_cons_inj _ |>.mp hpre)
      exact ⟨by rw [h1], h2⟩
    | right _ _ _ h =>
      have := List.cons_prefix_cons.mp hpre
      exact absurd this.1 (by decide)
  | right v f l hr ih =>
    intro q b hq hpre
    cases hq with
    | leaf _ _ => exact absurd rfl hr.node_ne_nil
    | left _ _ _ h =>
      have := List.cons_prefix_cons.mp hpre
      exact absurd this.1 (by decide)
    | right _ _ _ h =>
      obtain ⟨h1, h2⟩ := ih h (List.prefix_cons_inj _ |>.mp hpre)
      exact ⟨by rw [h1], h2⟩

/-! ## The tree builder -/

theorem Proper.tree_ne_nil {t : HuffmanNode} (h : Proper t) : t ≠ .nil := by
  intro h0
  rw [h0] at h
  exact h

theorem isLeaf_node_of_ne_nil {v : Byte} {f : Int} {l r : HuffmanNode} (h : l ≠ .nil) :
    (HuffmanNode.node v f l r).isLeaf = false := by
  cases l with
  | nil => exact absurd rfl h
  | node _ _ _ _ => rfl

theorem leafValues_of_isLeaf {t : HuffmanNode} (h : t.isLeaf = true) :
    ∃ v, leafValues t = [v] := by
  cases t with
  | nil => simp [HuffmanNode.isLeaf] at h
  | node v f l r =>
    cases l with
    | nil =>
      cases r with
      | nil => exact ⟨v, by simp [leafValues]⟩
      | node _ _ _ _ => simp [HuffmanNode.isLeaf] at h
    | node _ _ _ _ => simp [HuffmanNode.isLeaf] at h

theorem mem_keys_incrFreq (m : List (Byte × Int)) (b k : Byte) :
    k ∈ (incrFreq m b).map Prod.fst ↔ k = b ∨ k ∈ m.map Prod.fst := by
  induction m with
  | nil => simp [incrFreq]
  | cons e m ih =>
    obtain ⟨a, n⟩ := e
    by_cases ha : a = b
    · subst ha
      simp [incrFreq]
    · simp only [incrFreq, ha, if_false, List.map_cons, List.mem_cons, ih]
      tauto

theorem mem_keys_foldl_incrFreq (data : List Byte) : ∀ (m : List (Byte × Int)) (k : Byte),
    k ∈ (data.foldl incrFreq m).map Prod.fst ↔ k ∈ m.map Prod.fst ∨ k ∈ data := by
  induction data with
  | nil => intro m k; simp
  | cons b data ih =>
    intro m k
    rw [List.foldl_cons, ih, mem_keys_incrFreq, List.mem_cons]
    tauto

theorem mem_keys_countFrequencies (data : List Byte) (k : Byte) :
    k ∈ (countFrequencies data).map Prod.fst ↔ k ∈ data := by
  rw [countFrequencies, mem_keys_foldl_incrFreq]
  simp

/-- The merge loop ends with a single proper tree whose leaves are those of the nodes it
started from; its step budget is never used up. -/
theorem mergeLoop_spec (rt : Runtime) : ∀ (fuel : Nat) (nodes : List HuffmanNode),
    nodes.length ≤ fuel + 1 → nodes ≠ [] → (∀ n ∈ nodes, Proper n) →
    ∃ root, mergeLoop rt fuel nodes = .ok [root] ∧ Proper root ∧
      (∀ k, k ∈ leafValues root ↔ ∃ n ∈ nodes, k ∈ leafValues n) ∧
      (root.isLeaf = true → nodes = [root]) ∧
      (leafValues root).Perm (nodes.flatMap leafValues) := by
  intro fuel
  induction fuel with
  | zero =>
    intro nodes hlen hne hprop
    obtain ⟨root, rfl⟩ : ∃ root, nodes = [root] := by
      cases nodes with
      | nil => exact absurd rfl hne
      | cons a l =>
        cases l with
        | nil => exact ⟨a, rfl⟩
        | cons _ _ => simp at hlen
    exact ⟨root, by simp [mergeLoop], hprop root (List.mem_singleton_self _), by simp,
      fun _ => rfl, by simp⟩
  | succ fuel ih =>
    intro nodes hlen hne hprop
    by_cases h1 : nodes.length > 1
    · have hperm := rt.sortSlice_perm nodes
      obtain ⟨left, right, rest, hsorted⟩ :
          ∃ left right rest, rt.sortSlice nodes = left :: right :: rest := by
        have hl := hperm.length_eq
        cases hs : rt.sortSlice nodes with
        | nil => rw [hs] at hl; simp at hl; omega
        | cons a l =>
          cases l with
          | nil => rw [hs] at hl; simp at hl; omega
          | cons b l' => exact ⟨a, b, l', rfl⟩
      have hmem : ∀ n, n ∈ left :: right :: rest ↔ n ∈ nodes := by
        intro n; rw [← hsorted]; exact hperm.mem_iff
      have hleft : Proper left := hprop _ ((hmem _).1 (by simp))
      have hright : Proper right := hprop _ ((hmem _).1 (by simp))
      have hlen' : (left :: right :: rest).length = nodes.length := by
        rw [← hsorted]; exact hperm.length_eq
      have hpl : leafValues (.node 0 (wrapInt64 (left.freq + right.freq)) left right) =
          leafValues left ++ leafValues right := by
        simp [leafValues, hleft.tree_ne_nil]
      obtain ⟨root, hroot, hproper, hleaves, hleaf, hpermr⟩ :=
        ih (rest ++ [.node 0 (wrapInt64 (left.freq + right.freq)) left right])
          (by simp at hlen' ⊢; omega) (by simp)
          (by
            intro n hn
            rcases List.mem_append.mp hn with hn | hn
            · exact hprop _ ((hmem _).1 (by simp [hn]))
            · rw [List.mem_singleton.mp hn]
              exact Or.inr ⟨hleft, hright⟩)
      refine ⟨root, ?_, hproper, ?_, ?_, ?_⟩
      · simp only [mergeLoop, h1, if_true, hsorted, hroot]
      · intro k
        rw [hleaves k]
        constructor
        · rintro ⟨n, hn, hk⟩
          rcases List.mem_append.mp hn with hn | hn
          · exact ⟨n, (hmem _).1 (by simp [hn]), hk⟩
          · rw [List.mem_singleton.mp hn, hpl] at hk
            rcases List.mem_append.mp hk with hk | hk
            · exact ⟨left, (hmem _).1 (by simp), hk⟩
            · exact ⟨right, (hmem _).1 (by simp), hk⟩
        · rintro ⟨n, hn, hk⟩
          rcases List.mem_cons.mp ((hmem _).2 hn) with rfl | hn'
          · exact ⟨_, List.mem_append_right _ (List.mem_singleton_self _),
              by rw [hpl]; exact List.mem_append_left _ hk⟩
          · rcases List.mem_cons.mp hn' with rfl | hn''
            · exact ⟨_, List.mem_append_right _ (List.mem_singleton_self _),
                by rw [hpl]; exact List.mem_append_right _ hk⟩
            · exact ⟨n, List.mem_append_left _ hn'', hk⟩
      · intro hl
        have h := hleaf hl
        have hmemr : HuffmanNode.node 0 (wrapInt64 (left.freq + right.freq)) left right ∈
            [root] := by
          rw [← h]; simp
        rw [← List.mem_singleton.mp hmemr, isLeaf_node_of_ne_nil hleft.tree_ne_nil] at hl
        exact absurd hl (by simp)
      · refine hpermr.trans (List.Perm.trans ?_ (hperm.flatMap_right leafValues))
        rw [hsorted, List.flatMap_append]
        simp only [List.flatMap_cons, List.flatMap_nil, List.append_nil, hpl]
        exact List.perm_append_comm.trans (by rw [List.append_assoc])
    · obtain ⟨root, rfl⟩ : ∃ root, nodes = [root] := by
        cases nodes with
        | nil => exact absurd rfl hne
        | cons a l =>
          cases l with
          | nil => exact ⟨a, rfl⟩
          | cons _ _ => simp at h1
      exact ⟨root, by simp [mergeLoop], hprop root (List.mem_singleton_self _), by simp,
        fun _ => rfl, by simp⟩

theorem nodup_keys_incrFreq (m : List (Byte × Int)) (b : Byte)
    (h : (m.map Prod.fst).Nodup) : ((incrFreq m b).map Prod.fst).Nodup := by
  induction m with
  | nil => simp [incrFreq]
  | cons e m ih =>
    obtain ⟨a, n⟩ := e
    simp only [List.map_cons, List.nodup_cons] at h
    by_cases ha : a = b
    · subst ha
      simpa [incrFreq] using h
    · simp only [incrFreq, ha, if_false, List.map_cons, List.nodup_cons]
      refine ⟨?_, ih h.2⟩
      rw [mem_keys_incrFreq]
      rintro (hab | hmem)
      · exact ha hab
      · exact h.1 hmem

theorem nodup_keys_foldl_incrFreq (data : List Byte) : ∀ (m : List (Byte × Int)),
    (m.map Prod.fst).Nodup → ((data.foldl incrFreq m).map Prod.fst).Nodup := by
  induction data with
  | nil => intro m h; exact h
  | cons b data ih => intro m h; exact ih _ (nodup_keys_incrFreq m b h)

theorem length_le_of_nodup_isBytes {l : List Byte} (hn : l.Nodup) (hb : IsBytes l) :
    l.length ≤ 256 := by
  have hsub : l ⊆ List.range 256 := fun x hx => List.mem_range.mpr (hb x hx)
  have := (List.subperm_of_subset hn hsub).length_le
  simpa using this

/-- On a non-empty buffer `BuildTree` returns a proper tree whose leaf values are the bytes
of the buffer; with two different bytes in the buffer the root is not a leaf. -/
theorem BuildTree_spec (rt : Runtime) {data : List Byte} (hne : data ≠ []) :
    ∃ root, BuildTree rt data = .ok root ∧ Proper root ∧
      (∀ k, k ∈ leafValues root ↔ k ∈ data) ∧
      ((∃ a ∈ data, ∃ b ∈ data, a ≠ b) → root.isLeaf = false) ∧
      (leafValues root).Nodup := by
  have hkeys : ∀ k, k ∈ (rt.mapRange (countFrequencies data)).map Prod.fst ↔ k ∈ data := by
    intro k
    rw [((rt.mapRange_perm (countFrequencies data)).map Prod.fst).mem_iff,
      mem_keys_countFrequencies]
  have hnodes : ∀ k, (∃ n ∈ (rt.mapRange (countFrequencies data)).map
      (fun e => HuffmanNode.node e.1 e.2 .nil .nil), k ∈ leafValues n) ↔ k ∈ data := by
    intro k
    rw [← hkeys k]
    simp only [List.mem_map, exists_exists_and_eq_and, leafValues, and_self, if_true,
      List.mem_singleton]
    constructor
    · rintro ⟨e, he, rfl⟩; exact ⟨e, he, rfl⟩
    · rintro ⟨e, he, rfl⟩; exact ⟨e, he, rfl⟩
  obtain ⟨d, hd⟩ := List.exists_mem_of_ne_nil data hne
  obtain ⟨root, hroot, hproper, hleaves, hleaf, hpermr⟩ := mergeLoop_spec rt
    ((rt.mapRange (countFrequencies data)).map
      (fun e => HuffmanNode.node e.1 e.2 .nil .nil)).length
    ((rt.mapRange (countFrequencies data)).map (fun e => HuffmanNode.node e.1 e.2 .nil .nil))
    (by omega)
    (by
      obtain ⟨n, hn, _⟩ := (hnodes d).2 hd
      exact List.ne_nil_of_mem hn)
    (by
      intro n hn
      obtain ⟨e, _, rfl⟩ := List.mem_map.mp hn
      exact Or.inl ⟨rfl, rfl⟩)
  refine ⟨root, ?_, hproper, fun k => (hleaves k).trans (hnodes k), ?_, ?_⟩
  · simp only [BuildTree, buildHuffmanTree, hroot]
  · rintro ⟨a, ha, b, hb, hab⟩
    by_contra hl
    have hl' : root.isLeaf = true := by simpa using hl
    obtain ⟨v, hv⟩ := leafValues_of_isLeaf hl'
    have h1 := ((hleaves a).trans (hnodes a)).2 ha
    have h2 := ((hleaves b).trans (hnodes b)).2 hb
    rw [hv, List.mem_singleton] at h1 h2
    exact hab (h1.trans h2.symm)
  · rw [hpermr.nodup_iff]
    have hfm : ((rt.mapRange (countFrequencies data)).map
        (fun e => HuffmanNode.node e.1 e.2 .nil .nil)).flatMap leafValues =
        (rt.mapRange (countFrequencies data)).map Prod.fst := by
      induction rt.mapRange (countFrequencies data) with
      | nil => rfl
      | cons e l ih => simp [leafValues, ih]
    rw [hfm, ((rt.mapRange_perm (countFrequencies data)).map Prod.fst).nodup_iff]
    exact nodup_keys_foldl_incrFreq data [] (by simp)

/-- The tree of a non-empty byte buffer is a `ByteTree`. -/
theorem BuildTree_byteTree (rt : Runtime) {data : List Byte} {root : HuffmanNode}
    (hb : IsBytes data) (h : BuildTree rt data = .ok root) : ByteTree root := by
  have hne : data ≠ [] := by
    intro h0
    subst h0
    have hnil : rt.mapRange [] = [] := (rt.mapRange_perm []).eq_nil
    simp [BuildTree, buildHuffmanTree, countFrequencies, hnil, mergeLoop] at h
  obtain ⟨root', hroot', hproper, hleaves, _, hnodup⟩ := BuildTree_spec rt hne
  rw [hroot'] at h
  have hrr : root' = root := by simpa using h
  subst hrr
  have hbl : IsBytes (leafValues root') := fun k hk => hb k ((hleaves k).1 hk)
  exact ⟨hproper, hbl, length_le_of_nodup_isBytes hnodup hbl⟩

/-! ## Frames -/

theorem Runtime.maxAlloc_lt (rt : Runtime) : rt.maxAlloc < 2 ^ 63 :=
  lt_of_le_of_lt rt.maxAlloc_le (by norm_num)

theorem IsBytes.append {a b : List Byte} (ha : IsBytes a) (hb : IsBytes b) :
    IsBytes (a ++ b) := by
  intro x hx
  rcases List.mem_append.mp hx with h | h
  · exact ha x h
  · exact hb x h

theorem isBytes_putHeader (h : FileHeader) : IsBytes (putHeader h) := by
  intro b hb
  simp only [putHeader, putInt64LE, putInt8, List.mem_append, List.mem_map, List.mem_range,
    List.mem_singleton] at hb
  rcases hb with (⟨k, _, rfl⟩ | ⟨k, _, rfl⟩) | hb
  · exact Nat.mod_lt _ (by norm_num)
  · exact Nat.mod_lt _ (by norm_num)
  · rw [hb]
    show Int.toNat (h.CompressAmount % 256) < (256 : Nat)
    omega

theorem accBits_lt (cs : List Char) : ∀ acc, acc < 256 → accBits acc cs < 256 := by
  induction cs with
  | nil => intro acc h; exact h
  | cons c cs ih =>
    intro acc _
    rw [accBits, List.foldl_cons]
    exact ih _ (Nat.or_lt_two_pow (n := 8) (Nat.mod_lt _ (by norm_num))
      (Nat.mod_lt _ (by norm_num)))

theorem chunkByte_lt (c : List Char) : chunkByte c < 256 := by
  unfold chunkByte
  split
  · exact accBits_lt c 0 (by norm_num)
  · exact Nat.mod_lt _ (by norm_num)

theorem isBytes_packSpec : ∀ (n : Nat) (s : List Char), s.length ≤ n → IsBytes (packSpec s) := by
  intro n
  induction n with
  | zero =>
    intro s h
    have : s = [] := List.length_eq_zero.mp (by omega)
    subst this
    rw [packSpec_nil]
    intro b hb
    simp at hb
  | succ n ih =>
    intro s h
    by_cases hs : s = []
    · subst hs
      rw [packSpec_nil]
      intro b hb
      simp at hb
    · rw [packSpec, dif_neg hs]
      intro b hb
      rcases List.mem_cons.mp hb with rfl | hb
      · exact chunkByte_lt _
      · have hpos := List.length_pos.mpr hs
        exact ih (s.drop 8) (by simp only [List.length_drop]; omega) b hb

theorem range8 : List.range 8 = [0, 1, 2, 3, 4, 5, 6, 7] := by decide

theorem putInt64LE_length (x : Int) : (putInt64LE x).length = 8 := by
  simp [putInt64LE]

theorem putHeader_length (h : FileHeader) : (putHeader h).length = 17 := by
  simp [putHeader, putInt64LE_length, putInt8]

theorem getInt64LE_putInt64LE {x : Int} (h0 : -(2 ^ 63) ≤ x) (h1 : x < 2 ^ 63) :
    getInt64LE (putInt64LE x) = x := by
  simp only [getInt64LE, putInt64LE, range8, List.map_cons, List.map_nil, List.getD_cons_zero,
    List.getD_cons_succ, List.sum_cons, List.sum_nil, wrapInt64]
  norm_num
  omega

theorem getInt8_putInt8 {x : Int} (h0 : -128 ≤ x) (h1 : x < 128) :
    getInt8 (putInt8 x) = x := by
  simp only [getInt8, putInt8, List.getD_cons_zero, wrapInt8]
  omega

theorem getHeader_putHeader {h : FileHeader}
    (ht0 : -(2 ^ 63) ≤ h.TreeSize) (ht1 : h.TreeSize < 2 ^ 63)
    (hd0 : -(2 ^ 63) ≤ h.DataSize) (hd1 : h.DataSize < 2 ^ 63)
    (hc0 : -128 ≤ h.CompressAmount) (hc1 : h.CompressAmount < 128) :
    getHeader (putHeader h) = h := by
  have h8 := putInt64LE_length h.TreeSize
  have h8' := putInt64LE_length h.DataSize
  have e1 : (putHeader h).take 8 = putInt64LE h.TreeSize := by
    rw [putHeader, List.append_assoc, List.take_left' h8]
  have e2 : (putHeader h).drop 8 = putInt64LE h.DataSize ++ putInt8 h.CompressAmount := by
    rw [putHeader, List.append_assoc, List.drop_left' h8]
  have e3 : (putHeader h).drop 16 = putInt8 h.CompressAmount := by
    rw [putHeader, List.drop_left' (by rw [List.length_append, h8, h8'])]
  simp only [getHeader, e1, e2, e3, List.take_left' h8', getInt64LE_putInt64LE ht0 ht1,
    getInt64LE_putInt64LE hd0 hd1, getInt8_putInt8 hc0 hc1]

theorem readFull_append (a b : List Byte) : readFull (a ++ b) a.length = .ok (a, b) := by
  unfold readFull
  by_cases h0 : a.length = 0
  · have : a = [] := List.length_eq_zero.mp h0
    subst this
    simp
  · rw [if_neg h0, if_neg (by simp; intro h; simp [h] at h0), if_neg (by simp)]
    simp

theorem skeleton_eq_nil {t : HuffmanNode} : skeleton t = .nil ↔ t = .nil := by
  cases t <;> simp [skeleton]

theorem PathTo.skeleton {t : HuffmanNode} {p : List Char} {k : Byte} (h : PathTo t p k) :
    PathTo (skeleton t) p k := by
  induction h with
  | leaf v f => simp only [Compress.skeleton, and_self, if_true]; exact PathTo.leaf _ _
  | left v f r _ ih => simp only [Compress.skeleton]; exact PathTo.left _ _ _ ih
  | right v f l _ ih => simp only [Compress.skeleton]; exact PathTo.right _ _ _ ih

theorem PathTo.of_skeleton (t : HuffmanNode) : ∀ {p : List Char} {k : Byte},
    PathTo (Compress.skeleton t) p k → PathTo t p k := by
  induction t with
  | nil => intro p k h; exact absurd rfl h.node_ne_nil
  | node v f l r ihl ihr =>
    intro p k h
    simp only [Compress.skeleton] at h
    generalize hv : (if l = HuffmanNode.nil ∧ r = HuffmanNode.nil then v else 0) = v' at h
    generalize hsl : Compress.skeleton l = sl at h
    generalize hsr : Compress.skeleton r = sr at h
    cases h with
    | leaf _ _ =>
      have hl : l = .nil := skeleton_eq_nil.mp hsl
      have hr : r = .nil := skeleton_eq_nil.mp hsr
      subst hl hr
      simp only [and_self, if_true] at hv
      subst hv
      exact PathTo.leaf _ _
    | left _ _ _ h' => subst hsl; exact PathTo.left _ _ _ (ihl h')
    | right _ _ _ h' => subst hsr; exact PathTo.right _ _ _ (ihr h')

theorem isLeaf_skeleton (t : HuffmanNode) : (skeleton t).isLeaf = t.isLeaf := by
  cases t with
  | nil => rfl
  | node v f l r =>
    cases l with
    | nil => cases r <;> rfl
    | node _ _ _ _ => rfl

theorem PathTo.transfer {t t' : HuffmanNode} (hs : Compress.skeleton t' = Compress.skeleton t)
    {p : List Char} {k : Byte} (h : PathTo t p k) : PathTo t' p k :=
  PathTo.of_skeleton t' (hs ▸ h.skeleton)

theorem isLeaf_transfer {t t' : HuffmanNode} (hs : skeleton t' = skeleton t) :
    t'.isLeaf = t.isLeaf := by
  rw [← isLeaf_skeleton t', hs, isLeaf_skeleton]

theorem TwoValues.data_ne_nil {data : List Byte} (h : TwoValues data) : data ≠ [] := by
  obtain ⟨a, ha, _⟩ := h
  exact List.ne_nil_of_mem ha

theorem Except.ok_bind {ε α β : Type} (a : α) (f : α → Except ε β) :
    (Except.ok a).bind f = f a := rfl

theorem decodeFrame_eq (rt : Runtime) (gob : Gob) {header : FileHeader}
    {rest treeData payload : List Byte} {n : Nat} {root : HuffmanNode}
    (h2 : makeSlice rt header.TreeSize = .ok n)
    (h3 : readFull rest n = .ok (treeData, payload))
    (h4 : gob.decode treeData = .ok root) :
    decodeFrame rt gob header rest = decodeData payload root header.DataSize := by
  simp only [decodeFrame, h2, h3, h4]

theorem decodeRound_eq (rt : Runtime) (gob : Gob) {buf decoded : List Byte}
    {r : List Byte × List Byte}
    (h1 : readFull buf 17 = .ok r)
    (h2 : decodeFrame rt gob (getHeader r.1) r.2 = .ok decoded) :
    decodeRound rt gob buf = .ok (getHeader r.1, decoded) := by
  rw [decodeRound, h1, Except.ok_bind, h2, Except.ok_bind]

/-- One pass and one round: the frame assembled from `data` is the header, the encoded tree
and the packed payload, and one round of the decode loop gives `data` back. -/
theorem assembleFrame_decodeRound (rt : Runtime) (gob : Gob) (hinv : gob.Inverts rt)
    {data : List Byte} (hbytes : IsBytes data) (htwo : TwoValues data)
    (hlen : data.length ≤ rt.maxAlloc) {i : Int} (hi0 : -128 ≤ i) (hi1 : i < 128) :
    ∃ tree payload,
      assembleFrame rt gob data i =
        .ok (putHeader ⟨tree.length, data.length, i⟩ ++ tree ++ payload) ∧
      tree.length ≤ rt.maxAlloc ∧
      IsBytes (putHeader ⟨tree.length, data.length, i⟩ ++ tree ++ payload) ∧
      decodeRound rt gob (putHeader ⟨tree.length, data.length, i⟩ ++ tree ++ payload) =
        .ok (⟨tree.length, data.length, i⟩, data) := by
  have hmax := rt.maxAlloc_lt
  obtain ⟨root, hroot, hproper, hleaves, hleaf, _⟩ := BuildTree_spec rt htwo.data_ne_nil
  have hnl : root.isLeaf = false := hleaf htwo
  obtain ⟨codes, hcodes, hget, _⟩ := generateHuffmanCodes_spec hproper.tree_ne_nil
  have hpath : ∀ s ∈ data, PathTo root (codes.get s) s := by
    intro s hs
    obtain ⟨p, hp, hpath⟩ := hget s ((hleaves s).2 hs)
    simpa [CodeMap.get, hp] using hpath
  have hbits : IsBits (codeString data codes) :=
    isBits_flatMap (fun s hs => (hpath s hs).isBits)
  obtain ⟨bs, t', henc, hbb, hbl, hdec, hsk⟩ := hinv root (BuildTree_byteTree rt hbytes hroot)
  have hw1 : wrapInt64 (bs.length : Int) = bs.length := wrapInt64_eq (by omega) (by omega)
  have hw2 : wrapInt64 (data.length : Int) = data.length := wrapInt64_eq (by omega) (by omega)
  refine ⟨bs, packSpec (codeString data codes), ?_, hbl,
    ((isBytes_putHeader _).append hbb).append (isBytes_packSpec _ _ (le_refl _)), ?_⟩
  · simp only [assembleFrame, hroot, Encode, hcodes, compressData, StringToByteArray_eq hbits,
      henc, hw1, hw2]
  · have hh : getHeader (putHeader ⟨bs.length, data.length, i⟩) = ⟨bs.length, data.length, i⟩ :=
      getHeader_putHeader (by simp only; omega) (by simp only; omega) (by simp only; omega)
        (by simp only; omega) hi0 hi1
    have hr1 := readFull_append (putHeader ⟨bs.length, data.length, i⟩)
      (bs ++ packSpec (codeString data codes))
    rw [putHeader_length] at hr1
    have hms : makeSlice rt (bs.length : Int) = .ok bs.length := by
      unfold makeSlice
      rw [if_neg (by omega)]
      rfl
    have hdd : decodeData (packSpec (codeString data codes)) t' (data.length : Int) =
        .ok data :=
      decodeData_packSpec (by rw [isLeaf_transfer hsk]; exact hnl) data htwo.data_ne_nil
        (by omega) (fun s hs => (hpath s hs).transfer hsk)
    have hr2 := readFull_append bs (packSpec (codeString data codes))
    have hfr : decodeFrame rt gob ⟨bs.length, data.length, i⟩
        (bs ++ packSpec (codeString data codes)) = .ok data := by
      rw [decodeFrame_eq rt gob hms hr2 hdec]
      exact hdd
    rw [← hh] at hfr
    have hfin := decodeRound_eq rt gob hr1 hfr
    rw [hh] at hfin
    rw [List.append_assoc]
    exact hfin

/-! ## The pass controller -/

theorem EncodeLoop_shrink (rt : Runtime) (gob : Gob) {data frame : List Byte} (i : Int)
    (h : assembleFrame rt gob data i = .ok frame) (hlt : frame.length < data.length) :
    EncodeLoop rt gob data i = EncodeLoop rt gob frame (wrapInt8 (i + 1)) := by
  rw [EncodeLoop]
  simp only [h, hlt, if_true]

theorem EncodeLoop_stop (rt : Runtime) (gob : Gob) {data frame : List Byte} (i : Int)
    (h : assembleFrame rt gob data i = .ok frame) (hlt : ¬ frame.length < data.length) :
    EncodeLoop rt gob data i = .ok (frame, i) := by
  rw [EncodeLoop]
  simp only [h, hlt, if_false]

theorem EncodeLoop_error (rt : Runtime) (gob : Gob) {data : List Byte} (i : Int) {e : Failure}
    (h : assembleFrame rt gob data i = .error e) :
    EncodeLoop rt gob data i = .error e := by
  rw [EncodeLoop]
  simp only [h]

theorem encodeFrames_shrink (rt : Runtime) (gob : Gob) {data frame : List Byte} (i : Int)
    (h : assembleFrame rt gob data i = .ok frame) (hlt : frame.length < data.length) :
    encodeFrames rt gob data i = frame :: encodeFrames rt gob frame (wrapInt8 (i + 1)) := by
  rw [encodeFrames]
  simp only [h, hlt, if_true]

theorem encodeFrames_stop (rt : Runtime) (gob : Gob) {data frame : List Byte} (i : Int)
    (h : assembleFrame rt gob data i = .ok frame) (hlt : ¬ frame.length < data.length) :
    encodeFrames rt gob data i = [frame] := by
  rw [encodeFrames]
  simp only [h, hlt, if_false]

theorem encodeFrames_error (rt : Runtime) (gob : Gob) {data : List Byte} (i : Int)
    {e : Failure} (h : assembleFrame rt gob data i = .error e) :
    encodeFrames rt gob data i = [] := by
  rw [encodeFrames]
  simp only [h]

theorem wrapInt8_succ (m : Nat) : wrapInt8 (wrapInt8 (m : Int) + 1) = wrapInt8 ((m + 1 : Nat) : Int) := by
  simp only [wrapInt8]
  push_cast
  omega

theorem wrapInt8_range (x : Int) : -128 ≤ wrapInt8 x ∧ wrapInt8 x < 128 := by
  simp only [wrapInt8]
  omega

theorem wrapInt8_eq_zero {m : Nat} (h : m ≤ 255) : wrapInt8 (m : Int) = 0 ↔ m = 0 := by
  simp only [wrapInt8]
  omega

theorem TwoValues.append_right {a : List Byte} (h : TwoValues a) (b : List Byte) :
    TwoValues (a ++ b) := by
  obtain ⟨x, hx, y, hy, hxy⟩ := h
  exact ⟨x, List.mem_append_left _ hx, y, List.mem_append_left _ hy, hxy⟩

/-- Two different sizes below `2 ^ 63` never serialize to sixteen equal bytes. -/
theorem twoValues_sizes {t d : Nat} (htd : t < d) (hd : d < 2 ^ 63) :
    TwoValues (putInt64LE (t : Int) ++ putInt64LE (d : Int)) := by
  by_contra hcon
  have hall : ∀ a ∈ putInt64LE (t : Int) ++ putInt64LE (d : Int),
      ∀ b ∈ putInt64LE (t : Int) ++ putInt64LE (d : Int), a = b := by
    intro a ha b hb
    by_contra hab
    exact hcon ⟨a, ha, b, hb, hab⟩
  simp only [putInt64LE, range8, List.map_cons, List.map_nil, List.cons_append,
    List.nil_append] at hall
  have h0 := hall _ (List.mem_cons_self _ _)
  simp only [List.mem_cons, List.mem_singleton, forall_eq_or_imp, forall_eq] at h0
  have h64 : (2 : Int) ^ 64 = 18446744073709551616 := by norm_num
  have h63 : (2 : Nat) ^ 63 = 9223372036854775808 := by norm_num
  rw [h63] at hd
  have ht : ((t : Int) % 2 ^ 64).toNat = t := by rw [h64]; omega
  have hd' : ((d : Int) % 2 ^ 64).toNat = d := by rw [h64]; omega
  simp only [ht, hd', Nat.reducePow, List.not_mem_nil, false_implies, implies_true,
    and_true, true_and, Nat.div_one] at h0
  obtain ⟨t1, t2, t3, t4, t5, t6, t7, d0, d1, d2, d3, d4, d5, d6, d7⟩ := h0
  have et : t = t % 256 + 256 * (t / 256 % 256) + 65536 * (t / 65536 % 256) +
      16777216 * (t / 16777216 % 256) + 4294967296 * (t / 4294967296 % 256) +
      1099511627776 * (t / 1099511627776 % 256) +
      281474976710656 * (t / 281474976710656 % 256) +
      72057594037927936 * (t / 72057594037927936 % 256) := by omega
  have ed : d = d % 256 + 256 * (d / 256 % 256) + 65536 * (d / 65536 % 256) +
      16777216 * (d / 16777216 % 256) + 4294967296 * (d / 4294967296 % 256) +
      1099511627776 * (d / 1099511627776 % 256) +
      281474976710656 * (d / 281474976710656 % 256) +
      72057594037927936 * (d / 72057594037927936 % 256) := by omega
  rw [← t1, ← t2, ← t3, ← t4, ← t5, ← t6, ← t7] at et
  rw [← d0, ← d1, ← d2, ← d3, ← d4, ← d5, ← d6, ← d7] at ed
  clear ht hd' hall hcon
  omega

/-- A frame that is shorter than the buffer it was assembled from holds two distinct bytes. -/
theorem twoValues_frame {tree payload : List Byte} {n : Nat} {i : Int}
    (hlt : (putHeader ⟨tree.length, n, i⟩ ++ tree ++ payload).length < n) (hn : n < 2 ^ 63) :
    TwoValues (putHeader ⟨tree.length, n, i⟩ ++ tree ++ payload) := by
  have ht : tree.length < n := by
    simp only [List.length_append] at hlt
    omega
  have h := twoValues_sizes ht hn
  rw [putHeader]
  exact (((h.append_right _).append_right _).append_right _)

theorem passDepth_frame {tree payload : List Byte} {t d i : Int}
    (ht0 : -(2 ^ 63) ≤ t) (ht1 : t < 2 ^ 63) (hd0 : -(2 ^ 63) ≤ d) (hd1 : d < 2 ^ 63)
    (hi0 : -128 ≤ i) (hi1 : i < 128) :
    passDepth (putHeader ⟨t, d, i⟩ ++ tree ++ payload) = i := by
  rw [passDepth, List.append_assoc, List.take_left' (putHeader_length _),
    getHeader_putHeader ht0 ht1 hd0 hd1 hi0 hi1]

theorem DecodeLargeFile_succ (rt : Runtime) (gob : Gob) (fuel : Nat) {buf decoded : List Byte}
    {header : FileHeader} (h : decodeRound rt gob buf = .ok (header, decoded)) :
    DecodeLargeFile rt gob (fuel + 1) buf =
      if header.CompressAmount = 0 then .ok decoded else DecodeLargeFile rt gob fuel decoded := by
  rw [DecodeLargeFile]
  simp only [h]

theorem decodeBuffers_succ (rt : Runtime) (gob : Gob) (fuel : Nat) {buf decoded : List Byte}
    {header : FileHeader} (h : decodeRound rt gob buf = .ok (header, decoded)) :
    decodeBuffers rt gob (fuel + 1) buf =
      buf :: (if header.CompressAmount = 0 then [] else decodeBuffers rt gob fuel decoded) := by
  rw [decodeBuffers]
  simp only [h]
  split <;> rfl

/-- The multi-pass invariant. Started with `m` passes already counted, `EncodeLoop` returns
the last frame it assembles; every frame carries the wrapped number of the pass that made
it; and, as long as the pass counter does not come back to zero, the decode loop peels the
frames off in reverse order. -/
theorem EncodeLoop_spec (rt : Runtime) (gob : Gob) (hinv : gob.Inverts rt) :
    ∀ (n : Nat) (data : List Byte) (m : Nat), data.length ≤ n → IsBytes data →
      TwoValues data → data.length ≤ rt.maxAlloc →
      ∃ out,
        (encodeFrames rt gob data (wrapInt8 m)).getLast? = some out ∧
        EncodeLoop rt gob data (wrapInt8 m) =
          .ok (out, wrapInt8 ((m + ((encodeFrames rt gob data (wrapInt8 m)).length - 1) : Nat))) ∧
        (encodeFrames rt gob data (wrapInt8 m)).map passDepth =
          (List.range (encodeFrames rt gob data (wrapInt8 m)).length).map
            (fun k => wrapInt8 ((m + k : Nat) : Int)) ∧
        (m + (encodeFrames rt gob data (wrapInt8 m)).length ≤ 256 →
          (∀ fuel, DecodeLargeFile rt gob
              ((encodeFrames rt gob data (wrapInt8 m)).length + fuel) out =
            if m = 0 then .ok data else DecodeLargeFile rt gob fuel data) ∧
          (∀ fuel, decodeBuffers rt gob
              ((encodeFrames rt gob data (wrapInt8 m)).length + fuel) out =
            (encodeFrames rt gob data (wrapInt8 m)).reverse ++
              (if m = 0 then [] else decodeBuffers rt gob fuel data))) := by
  intro n
  induction n with
  | zero =>
    intro data m hn _ htwo _
    exact absurd (List.length_eq_zero.mp (by omega)) htwo.data_ne_nil
  | succ n ih =>
    intro data m hn hbytes htwo hmax
    have hlim := rt.maxAlloc_lt
    obtain ⟨hi0, hi1⟩ := wrapInt8_range (m : Int)
    obtain ⟨tree, payload, hframe, htree, hfb, hround⟩ :=
      assembleFrame_decodeRound rt gob hinv hbytes htwo hmax hi0 hi1
    have hdepth : passDepth (putHeader ⟨tree.length, data.length, wrapInt8 m⟩ ++ tree ++ payload)
        = wrapInt8 m :=
      passDepth_frame (by omega) (by omega) (by omega) (by omega) hi0 hi1
    generalize hf : putHeader ⟨tree.length, data.length, wrapInt8 m⟩ ++ tree ++ payload = frame
      at hframe hround hdepth hfb
    by_cases hlt : frame.length < data.length
    · -- the frame is shorter: the next pass works on it
      have htwo' : TwoValues frame := by
        rw [← hf]
        exact twoValues_frame (by rw [hf]; exact hlt) (by omega)
      obtain ⟨out, hlast, henc, hdepths, hdec⟩ :=
        ih frame (m + 1) (by omega) hfb htwo' (by omega)
      have hF := encodeFrames_shrink rt gob (wrapInt8 m) hframe hlt
      rw [wrapInt8_succ] at hF
      have hE := EncodeLoop_shrink rt gob (wrapInt8 m) hframe hlt
      rw [wrapInt8_succ] at hE
      generalize hF' : encodeFrames rt gob frame (wrapInt8 ((m + 1 : Nat) : Int)) = F'
        at hlast henc hdepths hdec hF
      have hne : F' ≠ [] := by
        intro h0
        rw [h0] at hlast
        simp at hlast
      have hpos : 0 < F'.length := List.length_pos.mpr hne
      rw [hF]
      refine ⟨out, ?_, ?_, ?_, ?_⟩
      · obtain ⟨a, l, rfl⟩ := List.exists_cons_of_ne_nil hne
        rw [List.getLast?_cons_cons]
        exact hlast
      · rw [hE, henc]
        congr 2
        simp only [List.length_cons]
        congr 1
        omega
      · rw [List.map_cons, hdepth, hdepths, List.length_cons, List.range_succ_eq_map,
          List.map_cons, List.map_map]
        simp only [Nat.add_zero, List.cons.injEq, true_and]
        apply List.map_congr_left
        intro k _
        simp only [Function.comp]
        congr 2
        omega
      · intro hbound
        simp only [List.length_cons] at hbound ⊢
        obtain ⟨hd1, hd2⟩ := hdec (by omega)
        have hm1 : ¬ (m + 1 = 0) := by omega
        have hz : (wrapInt8 (m : Int) = 0) ↔ m = 0 := wrapInt8_eq_zero (by omega)
        constructor
        · intro fuel
          have h1 := hd1 (fuel + 1)
          rw [if_neg hm1, DecodeLargeFile_succ rt gob fuel hround] at h1
          have e : F'.length + 1 + fuel = F'.length + (fuel + 1) := by omega
          rw [e, h1]
          simp only [hz]
        · intro fuel
          have h2 := hd2 (fuel + 1)
          rw [if_neg hm1, decodeBuffers_succ rt gob fuel hround] at h2
          have e : F'.length + 1 + fuel = F'.length + (fuel + 1) := by omega
          rw [e, h2]
          simp only [hz, List.reverse_cons, List.append_assoc, List.singleton_append]
    · -- the frame is not shorter: it is the output
      have hF := encodeFrames_stop rt gob (wrapInt8 m) hframe hlt
      have hE := EncodeLoop_stop rt gob (wrapInt8 m) hframe hlt
      rw [hF]
      refine ⟨frame, rfl, ?_, ?_, ?_⟩
      · rw [hE]; simp
      · simp [hdepth, List.range_succ]
      · intro hbound
        simp only [List.length_singleton] at hbound ⊢
        have hz : (wrapInt8 (m : Int) = 0) ↔ m = 0 := wrapInt8_eq_zero (by omega)
        constructor
        · intro fuel
          rw [Nat.add_comm, DecodeLargeFile_succ rt gob fuel hround]
          simp only [hz]
        · intro fuel
          rw [Nat.add_comm, decodeBuffers_succ rt gob fuel hround]
          simp only [hz, List.reverse_singleton, List.singleton_append]

/-! ## The serializer of the specification -/

theorem skeleton_skeleton (t : HuffmanNode) : skeleton (skeleton t) = skeleton t := by
  induction t with
  | nil => rfl
  | node v f l r ihl ihr =>
    simp only [skeleton, skeleton_eq_nil, ihl, ihr]
    congr 1
    split <;> simp_all

theorem SerializeTree_spec (t : HuffmanNode) : Proper t →
    ∃ bs, SerializeTree t = .ok bs ∧ bs.length + 1 = 3 * (leafValues t).length ∧
      (IsBytes (leafValues t) → IsBytes bs) ∧
      ∀ fuel rest, bs.length ≤ fuel → parseNode fuel (bs ++ rest) = .ok (skeleton t, rest) := by
  induction t with
  | nil => intro h; exact absurd h (by simp [Proper])
  | node v f l r ihl ihr =>
    intro h
    rcases h with ⟨hl, hr⟩ | ⟨hl, hr⟩
    · subst hl hr
      refine ⟨[0, v], by simp [SerializeTree], by simp [leafValues], ?_, ?_⟩
      · intro hb b hbm
        simp only [leafValues, and_self, if_true] at hb
        simp only [List.mem_cons, List.mem_singleton, List.not_mem_nil, or_false] at hbm
        rcases hbm with rfl | rfl
        · norm_num
        · exact hb _ (List.mem_singleton_self _)
      · intro fuel rest hf
        obtain ⟨k, rfl⟩ : ∃ k, fuel = k + 1 := ⟨fuel - 1, by simp at hf; omega⟩
        simp [parseNode, skeleton]
    · obtain ⟨a, ha, hla, hba, hpa⟩ := ihl hl
      obtain ⟨b, hb, hlb, hbb, hpb⟩ := ihr hr
      have hnl : l ≠ .nil := hl.tree_ne_nil
      refine ⟨1 :: (a ++ b), by simp [SerializeTree, hnl, ha, hb], ?_, ?_, ?_⟩
      · simp only [leafValues, hnl, false_and, if_false, List.length_cons, List.length_append]
        omega
      · intro hbytes x hx
        simp only [leafValues, hnl, false_and, if_false] at hbytes
        rcases List.mem_cons.mp hx with rfl | hx
        · norm_num
        · rcases List.mem_append.mp hx with hx | hx
          · exact hba (fun y hy => hbytes y (List.mem_append_left _ hy)) x hx
          · exact hbb (fun y hy => hbytes y (List.mem_append_right _ hy)) x hx
      · intro fuel rest hf
        simp only [List.length_cons, List.length_append] at hf
        obtain ⟨k, rfl⟩ : ∃ k, fuel = k + 1 := ⟨fuel - 1, by omega⟩
        have h1 := hpa k (b ++ rest) (by omega)
        have h2 := hpb k rest (by omega)
        simp only [List.cons_append, parseNode, one_ne_zero, if_false, if_true,
          List.append_eq, List.append_assoc, h1, h2, skeleton, hnl, false_and]

/-- The serializer of the specification satisfies the round-trip assumption. -/
theorem specGob_inverts : specGob.Inverts stdRuntime := by
  intro t ht
  obtain ⟨hproper, hbytes, hcount⟩ := ht
  obtain ⟨bs, hser, hlen, hb, hparse⟩ := SerializeTree_spec t hproper
  refine ⟨bs, skeleton t, hser, hb hbytes, ?_, ?_, skeleton_skeleton t⟩
  · have hmax : stdRuntime.maxAlloc = 2 ^ 48 := rfl
    rw [hmax]
    have : bs.length ≤ 768 := by omega
    exact le_trans this (by norm_num)
  · have h := hparse bs.length [] (le_refl _)
    rw [List.append_nil] at h
    show DeserializeTree bs = _
    simp only [DeserializeTree, h]

/-! ## Failing rounds, size bounds and the passes of `EncodeLoop` -/

theorem Except.error_bind {ε α β : Type} (e : ε) (f : α → Except ε β) :
    (Except.error e : Except ε α).bind f = .error e := rfl

theorem makeSlice_too_long (rt : Runtime) {n : Int} (h : (rt.maxAlloc : Int) < n) :
    makeSlice rt n = .error .makesliceLen := by
  unfold makeSlice
  rw [if_pos (Or.inr h)]

theorem decodeFrame_makeSlice_error (rt : Runtime) (gob : Gob) {header : FileHeader}
    (rest : List Byte) {e : Failure} (h : makeSlice rt header.TreeSize = .error e) :
    decodeFrame rt gob header rest = .error e := by
  simp only [decodeFrame, h]

theorem decodeRound_frame_error (rt : Runtime) (gob : Gob) {buf : List Byte}
    {r : List Byte × List Byte} {e : Failure} (h1 : readFull buf 17 = .ok r)
    (h2 : decodeFrame rt gob (getHeader r.1) r.2 = .error e) :
    decodeRound rt gob buf = .error e := by
  rw [decodeRound, h1, Except.ok_bind, h2, Except.error_bind]

theorem DecodeLargeFile_error (rt : Runtime) (gob : Gob) (fuel : Nat) {buf : List Byte}
    {e : Failure} (h : decodeRound rt gob buf = .error e) :
    DecodeLargeFile rt gob (fuel + 1) buf = .error e := by
  rw [DecodeLargeFile]
  simp only [h]

theorem decodeByte_length (root : HuffmanNode) (size : Int) (b : Byte) :
    ∀ (n : Nat) (st st' : DecodeState), decodeByte root size b n st = .ok st' →
      st'.decoded.length ≤ st.decoded.length + n := by
  intro n
  induction n with
  | zero =>
    intro st st' h
    simp only [decodeByte, Except.ok.injEq] at h
    rw [← h]
    omega
  | succ i ih =>
    intro st st' h
    rw [decodeByte] at h
    split at h
    · exact absurd h (by simp)
    · simp only at h
      split at h
      · exact absurd h (by simp)
      · split at h
        · split at h
          · simp only [Except.ok.injEq] at h
            rw [← h]
            simp
          · have := ih _ _ h
            simp only [List.length_append, List.length_singleton] at this
            omega
        · have := ih _ _ h
          simp only at this
          omega

theorem decodeBytes_length (root : HuffmanNode) (size : Int) :
    ∀ (data : List Byte) (st st' : DecodeState), decodeBytes root size data st = .ok st' →
      st'.decoded.length ≤ st.decoded.length + 8 * data.length := by
  intro data
  induction data with
  | nil =>
    intro st st' h
    simp only [decodeBytes, Except.ok.injEq] at h
    rw [← h]
    omega
  | cons b data ih =>
    intro st st' h
    rw [decodeBytes] at h
    split at h
    · exact absurd h (by simp)
    · rename_i st1 h1
      have hb := decodeByte_length root size b 8 st st1 h1
      have := ih _ _ h
      simp only [List.length_cons]
      omega

/-- A call of `decodeData` that returns gives at most eight symbols for each byte. -/
theorem decodeData_length {data : List Byte} {root : HuffmanNode} {size : Int}
    {out : List Byte} (h : decodeData data root size = .ok out) :
    out.length ≤ 8 * data.length := by
  rw [decodeData] at h
  split at h
  · exact absurd h (by simp)
  · rename_i st hst
    have := decodeBytes_length root size data _ st hst
    simp only [Except.ok.injEq] at h
    rw [← h]
    simpa using this

theorem readFull_length {buf : List Byte} {n : Nat} {r : List Byte × List Byte}
    (h : readFull buf n = .ok r) : r.2.length = buf.length - n := by
  unfold readFull at h
  split at h
  · rename_i h0
    simp only [Except.ok.injEq] at h
    rw [← h, h0]
    simp
  · split at h
    · exact absurd h (by simp)
    · split at h
      · exact absurd h (by simp)
      · simp only [Except.ok.injEq] at h
        rw [← h]
        simp

theorem decodeFrame_length (rt : Runtime) (gob : Gob) {header : FileHeader}
    {rest decoded : List Byte} (h : decodeFrame rt gob header rest = .ok decoded) :
    decoded.length ≤ 8 * rest.length := by
  rw [decodeFrame] at h
  split at h
  · exact absurd h (by simp)
  · split at h
    · exact absurd h (by simp)
    · rename_i r hr
      split at h
      · exact absurd h (by simp)
      · have h1 := decodeData_length h
        have h2 := readFull_length hr
        omega

/-- A round of the decode loop that ends without error unpacks at most eight bytes for each
byte behind the 17-byte header. -/
theorem decodeRound_length (rt : Runtime) (gob : Gob) {buf decoded : List Byte}
    {header : FileHeader} (h : decodeRound rt gob buf = .ok (header, decoded)) :
    decoded.length ≤ 8 * (buf.length - 17) := by
  rw [decodeRound] at h
  cases hr : readFull buf 17 with
  | error e =>
    rw [hr, Except.error_bind] at h
    exact absurd h (by simp)
  | ok r =>
    rw [hr, Except.ok_bind] at h
    generalize getHeader r.1 = hdr at h
    cases hf : decodeFrame rt gob hdr r.2 with
    | error e =>
      rw [hf, Except.error_bind] at h
      exact absurd h (by simp)
    | ok d =>
      rw [hf, Except.ok_bind] at h
      simp only [Except.ok.injEq, Prod.mk.injEq] at h
      have h1 := decodeFrame_length rt gob hf
      have h2 := readFull_length hr
      rw [← h.2, ← h2]
      exact h1

theorem buildHuffmanCodes_skeleton (t : HuffmanNode) : ∀ (code : List Char) (m : CodeMap),
    buildHuffmanCodes (skeleton t) code m = buildHuffmanCodes t code m := by
  induction t with
  | nil => intro code m; rfl
  | node v f l r ihl ihr =>
    intro code m
    simp only [skeleton, buildHuffmanCodes, ne_eq, skeleton_eq_nil, ihl, ihr]
    by_cases h : l = .nil ∧ r = .nil
    · simp only [h, and_self, if_true]
    · simp only [h, if_false]

theorem generateHuffmanCodes_skeleton (t : HuffmanNode) :
    generateHuffmanCodes (skeleton t) = generateHuffmanCodes t :=
  buildHuffmanCodes_skeleton t [] []

/-- A tree returned by `buildHuffmanTree` is proper. -/
theorem buildHuffmanTree_proper (rt : Runtime) {frequencies : List (Byte × Int)}
    {t : HuffmanNode} (h : buildHuffmanTree rt frequencies = .ok t) : Proper t := by
  by_cases hne : (rt.mapRange frequencies).map
      (fun e => HuffmanNode.node e.1 e.2 .nil .nil) = []
  · simp [buildHuffmanTree, hne, mergeLoop] at h
  · obtain ⟨root, hroot, hproper, _⟩ := mergeLoop_spec rt
      ((rt.mapRange frequencies).map (fun e => HuffmanNode.node e.1 e.2 .nil .nil)).length
      _ (by omega) hne
      (by
        intro n hn
        obtain ⟨e, _, rfl⟩ := List.mem_map.mp hn
        exact Or.inl ⟨rfl, rfl⟩)
    simp only [buildHuffmanTree, hroot, Except.ok.injEq] at h
    rw [← h]
    exact hproper

theorem encodeInputs_shrink (rt : Runtime) (gob : Gob) {data frame : List Byte} (i : Int)
    (h : assembleFrame rt gob data i = .ok frame) (hlt : frame.length < data.length) :
    encodeInputs rt gob data i = data :: encodeInputs rt gob frame (wrapInt8 (i + 1)) := by
  rw [encodeInputs]
  simp only [h, hlt, if_true]

theorem encodeInputs_stop (rt : Runtime) (gob : Gob) {data frame : List Byte} (i : Int)
    (h : assembleFrame rt gob data i = .ok frame) (hlt : ¬ frame.length < data.length) :
    encodeInputs rt gob data i = [data] := by
  rw [encodeInputs]
  simp only [h, hlt, if_false]

theorem encodeInputs_error (rt : Runtime) (gob : Gob) {data : List Byte} (i : Int)
    {e : Failure} (h : assembleFrame rt gob data i = .error e) :
    encodeInputs rt gob data i = [data] := by
  rw [encodeInputs]
  simp only [h]

/-- Every recursive call of `EncodeLoop` is on a strictly shorter buffer. -/
theorem encodeInputs_spec (rt : Runtime) (gob : Gob) :
    ∀ (n : Nat) (data : List Byte) (i : Int), data.length ≤ n →
      (encodeInputs rt gob data i).head? = some data ∧
      (encodeInputs rt gob data i).Chain' (fun a b => b.length < a.length) ∧
      (encodeInputs rt gob data i).length ≤ data.length + 1 := by
  intro n
  induction n with
  | zero =>
    intro data i hn
    have hstop : encodeInputs rt gob data i = [data] := by
      cases h : assembleFrame rt gob data i with
      | error e => exact encodeInputs_error rt gob i h
      | ok frame => exact encodeInputs_stop rt gob i h (by omega)
    rw [hstop]
    simp
  | succ n ih =>
    intro data i hn
    cases h : assembleFrame rt gob data i with
    | error e =>
      rw [encodeInputs_error rt gob i h]
      simp
    | ok frame =>
      by_cases hlt : frame.length < data.length
      · obtain ⟨hhead, hchain, hlen⟩ := ih frame (wrapInt8 (i + 1)) (by omega)
        rw [encodeInputs_shrink rt gob i h hlt]
        refine ⟨rfl, ?_, ?_⟩
        · rw [List.chain'_cons']
          refine ⟨?_, hchain⟩
          intro x hx
          rw [hhead] at hx
          simp only [Option.mem_def, Option.some.injEq] at hx
          rw [← hx]
          exact hlt
        · simp only [List.length_cons]
          omega
      · rw [encodeInputs_stop rt gob i h hlt]
        simp

/-- What `EncodeLoop` returns is the last frame it assembled. -/
theorem EncodeLoop_output_last (rt : Runtime) (gob : Gob) :
    ∀ (n : Nat) (data : List Byte) (i : Int) (out : List Byte) (i' : Int), data.length ≤ n →
      EncodeLoop rt gob data i = .ok (out, i') →
      (encodeFrames rt gob data i).getLast? = some out := by
  intro n
  induction n with
  | zero =>
    intro data i out i' hn h
    cases hf : assembleFrame rt gob data i with
    | error e =>
      rw [EncodeLoop_error rt gob i hf] at h
      exact absurd h (by simp)
    | ok frame =>
      have hlt : ¬ frame.length < data.length := by omega
      rw [EncodeLoop_stop rt gob i hf hlt] at h
      simp only [Except.ok.injEq, Prod.mk.injEq] at h
      rw [encodeFrames_stop rt gob i hf hlt, ← h.1]
      rfl
  | succ n ih =>
    intro data i out i' hn h
    cases hf : assembleFrame rt gob data i with
    | error e =>
      rw [EncodeLoop_error rt gob i hf] at h
      exact absurd h (by simp)
    | ok frame =>
      by_cases hlt : frame.length < data.length
      · rw [EncodeLoop_shrink rt gob i hf hlt] at h
        have hl := ih frame _ out i' (by omega) h
        rw [encodeFrames_shrink rt gob i hf hlt]
        cases hF : encodeFrames rt gob frame (wrapInt8 (i + 1)) with
        | nil => rw [hF] at hl; simp at hl
        | cons a l =>
          rw [hF] at hl
          rw [List.getLast?_cons_cons]
          exact hl
      · rw [EncodeLoop_stop rt gob i hf hlt] at h
        simp only [Except.ok.injEq, Prod.mk.injEq] at h
        rw [encodeFrames_stop rt gob i hf hlt, ← h.1]
        rfl

/-! ## Frame layout, code paths and bit positions -/

theorem putInt64LE_natCast {n : Nat} (h : n < 2 ^ 64) :
    putInt64LE (n : Int) = (List.range 8).map (fun k => (n / 256 ^ k) % 256) := by
  have h64 : (2 : Nat) ^ 64 = 18446744073709551616 := by norm_num
  have h64i : (2 : Int) ^ 64 = 18446744073709551616 := by norm_num
  have e : ((n : Int) % 2 ^ 64).toNat = n := by
    rw [h64i]
    rw [h64] at h
    omega
  unfold putInt64LE
  rw [e]

theorem makeSlice_natCast (rt : Runtime) {n : Nat} (h : n ≤ rt.maxAlloc) :
    makeSlice rt (n : Int) = .ok n := by
  unfold makeSlice
  rw [if_neg (by omega)]
  rfl

theorem PathTo.mem_leafValues {t : HuffmanNode} {p : List Char} {k : Byte}
    (h : PathTo t p k) : k ∈ leafValues t := by
  induction h with
  | leaf v f => simp [leafValues]
  | left v f r hp ih =>
    have hne := hp.node_ne_nil
    simp only [leafValues, hne, false_and, if_false, List.mem_append]
    exact Or.inl ih
  | right v f l hp ih =>
    have hne := hp.node_ne_nil
    simp only [leafValues, hne, and_false, if_false, List.mem_append]
    exact Or.inr ih

theorem PathTo.unique {t : HuffmanNode} {p : List Char} {k : Byte} (hp : PathTo t p k) :
    ∀ {q : List Char}, (leafValues t).Nodup → PathTo t q k → p = q := by
  induction hp with
  | leaf v f =>
    intro q _ hq
    cases hq with
    | leaf => rfl
    | left _ _ _ h => exact absurd rfl h.node_ne_nil
    | right _ _ _ h => exact absurd rfl h.node_ne_nil
  | left v f r hp ih =>
    intro q hnd hq
    have hne := hp.node_ne_nil
    simp only [leafValues, hne, false_and, if_false] at hnd
    cases hq with
    | leaf => exact absurd rfl hne
    | left _ _ _ h => rw [ih (List.Nodup.of_append_left hnd) h]
    | right _ _ _ h =>
      exact absurd h.mem_leafValues
        (fun hk => (List.disjoint_of_nodup_append hnd) hp.mem_leafValues hk)
  | right v f l hp ih =>
    intro q hnd hq
    have hne := hp.node_ne_nil
    simp only [leafValues, hne, and_false, if_false] at hnd
    cases hq with
    | leaf => exact absurd rfl hne
    | left _ _ _ h =>
      exact absurd hp.mem_leafValues
        (fun hk => (List.disjoint_of_nodup_append hnd) h.mem_leafValues hk)
    | right _ _ _ h => rw [ih (List.Nodup.of_append_right hnd) h]

theorem CodeMap.mem_keys_iff (m : CodeMap) (k : Byte) :
    k ∈ m.map Prod.fst ↔ ∃ p, m.get? k = some p := by
  induction m with
  | nil => simp [CodeMap.get?]
  | cons e m ih =>
    obtain ⟨k', c'⟩ := e
    simp only [List.map_cons, List.mem_cons, CodeMap.get?]
    by_cases h : k' = k
    · simp [h]
    · rw [if_neg h, ← ih]
      constructor
      · rintro (h1 | h1)
        · exact absurd h1.symm h
        · exact h1
      · exact Or.inr

theorem packSpec_length : ∀ (n : Nat) (s : List Char), s.length ≤ n →
    (packSpec s).length = (s.length + 7) / 8 := by
  intro n
  induction n with
  | zero =>
    intro s hs
    have : s = [] := List.length_eq_zero.mp (by omega)
    subst this
    rw [packSpec_nil]
    rfl
  | succ n ih =>
    intro s hs
    rw [packSpec]
    split
    · next h => subst h; rfl
    · next h =>
      have hpos := List.length_pos.mpr h
      rw [List.length_cons, ih (s.drop 8) (by rw [List.length_drop]; omega),
        List.length_drop]
      omega

theorem packSpec_getD : ∀ (n : Nat) (s : List Char), s.length ≤ n → ∀ k,
    k < (packSpec s).length →
      (packSpec s).getD k 0 = chunkByte ((s.drop (8 * k)).take 8) := by
  intro n
  induction n with
  | zero =>
    intro s hs k hk
    have : s = [] := List.length_eq_zero.mp (by omega)
    subst this
    rw [packSpec_nil] at hk
    simp at hk
  | succ n ih =>
    intro s hs k hk
    rw [packSpec] at hk ⊢
    split at hk
    · simp at hk
    · next h =>
      rw [dif_neg h]
      have hpos := List.length_pos.mpr h
      cases k with
      | zero => simp
      | succ k =>
        rw [List.length_cons] at hk
        rw [List.getD_cons_succ, ih (s.drop 8) (by rw [List.length_drop]; omega) k (by omega),
          List.drop_drop]
        have e : 8 + 8 * k = 8 * (k + 1) := by omega
        rw [e]

theorem bitsOf_getD (b : Byte) (j : Nat) (hj : j < 8) :
    (bitsOf b 8).getD j 0 = (b / 2 ^ (7 - j)) % 2 := by
  interval_cases j <;> rfl

theorem atoiChar_bit {c : Char} (h : c = '0' ∨ c = '1') :
    atoiChar c = if c = '1' then 1 else 0 := by
  rcases h with h | h <;> subst h <;> decide

theorem chunkByte_bit {cs : List Char} (hb : IsBits cs) (hl : cs.length ≤ 8) (j : Nat)
    (hj : j < 8) :
    (chunkByte cs / 2 ^ (7 - j)) % 2 = if cs[j]? = some '1' then 1 else 0 := by
  rw [← bitsOf_getD _ j hj, bitsOf_chunkByte hb hl, List.getD_eq_getElem?_getD,
    List.getElem?_map]
  by_cases hjc : j < cs.length
  · rw [List.getElem?_append_left hjc, List.getElem?_eq_getElem hjc]
    simp only [Option.map_some', Option.getD_some, Option.some.injEq]
    exact atoiChar_bit (hb _ (List.getElem_mem _))
  · rw [List.getElem?_append_right (by omega), List.getElem?_eq_none (l := cs) (by omega),
      List.getElem?_replicate, if_pos (by omega)]
    simp
    decide

/-! ## The bit-walk on trees with and without missing children -/

theorem decodeByte_leaf_root (root : HuffmanNode) (size : Int) (b : Byte) (n : Nat)
    (v : Byte) (f : Int) (j : Int) (decoded : List Byte) :
    decodeByte root size b (n + 1) ⟨.node v f .nil .nil, j, decoded⟩ =
      .error .nilDereference := by
  simp only [decodeByte, ite_self]

theorem decodeData_leaf_root (v : Byte) (f : Int) (b : Byte) (rest : List Byte) (size : Int) :
    decodeData (b :: rest) (.node v f .nil .nil) size = .error .nilDereference := by
  simp only [decodeData, decodeBytes, decodeByte_leaf_root]

theorem decodeRound_frame_fails (rt : Runtime) (gob : Gob) {bs payload : List Byte}
    {t' : HuffmanNode} {n : Nat} {i : Int} {e : Failure} (hbl : bs.length ≤ rt.maxAlloc)
    (hn : n < 2 ^ 63) (hi0 : -128 ≤ i) (hi1 : i < 128) (hdec : gob.decode bs = .ok t')
    (hdd : decodeData payload t' (n : Int) = .error e) :
    decodeRound rt gob (putHeader ⟨bs.length, n, i⟩ ++ bs ++ payload) = .error e := by
  have hmax := rt.maxAlloc_lt
  have hh : getHeader (putHeader ⟨bs.length, n, i⟩) = ⟨bs.length, n, i⟩ :=
    getHeader_putHeader (by simp only; omega) (by simp only; omega) (by simp only; omega)
      (by simp only; omega) hi0 hi1
  have hr1 := readFull_append (putHeader ⟨bs.length, n, i⟩) (bs ++ payload)
  rw [putHeader_length] at hr1
  have hms : makeSlice rt (bs.length : Int) = .ok bs.length := by
    unfold makeSlice
    rw [if_neg (by omega)]
    rfl
  have hr2 := readFull_append bs payload
  have hfr : decodeFrame rt gob ⟨bs.length, n, i⟩ (bs ++ payload) = .error e := by
    rw [decodeFrame_eq rt gob hms hr2 hdec]
    exact hdd
  rw [← hh] at hfr
  rw [List.append_assoc]
  exact decodeRound_frame_error rt gob hr1 hfr

theorem decodeByte_safe {root : HuffmanNode} (hroot : Proper root)
    (hl : root.isLeaf = false) (size : Int) (b : Byte) :
    ∀ (n : Nat) (st : DecodeState), Proper st.node → st.node.isLeaf = false →
      ∃ st', decodeByte root size b n st = .ok st' ∧ Proper st'.node ∧
        st'.node.isLeaf = false := by
  intro n
  induction n with
  | zero => intro st hp hn; exact ⟨st, rfl, hp, hn⟩
  | succ i ih =>
    intro st hp hn
    obtain ⟨node, j, decoded⟩ := st
    cases node with
    | nil => exact absurd hp (by simp [Proper])
    | node v f l r =>
      have hlr : Proper l ∧ Proper r := by
        rcases hp with ⟨h1, h2⟩ | h
        · subst h1; subst h2; simp [HuffmanNode.isLeaf] at hn
        · exact h
      have hchild : Proper (if (b / 2 ^ i) % 2 = 0 then l else r) := by
        split
        · exact hlr.1
        · exact hlr.2
      unfold decodeByte
      simp only
      generalize (if (b / 2 ^ i) % 2 = 0 then l else r) = child at hchild
      cases child with
      | nil => exact absurd hchild (by simp [Proper])
      | node v2 f2 l2 r2 =>
        simp only
        by_cases hleaf : l2 = .nil ∧ r2 = .nil
        · rw [if_pos hleaf]
          by_cases hj : wrapInt64 (j + 1) = size
          · rw [if_pos hj]
            exact ⟨_, rfl, hroot, hl⟩
          · rw [if_neg hj]
            exact ih _ hroot hl
        · rw [if_neg hleaf]
          refine ih _ hchild ?_
          rcases hchild with h | h
          · exact absurd h hleaf
          · exact isLeaf_node_of_ne_nil h.1.tree_ne_nil

theorem decodeBytes_safe {root : HuffmanNode} (hroot : Proper root)
    (hl : root.isLeaf = false) (size : Int) :
    ∀ (data : List Byte) (st : DecodeState), Proper st.node → st.node.isLeaf = false →
      ∃ st', decodeBytes root size data st = .ok st' := by
  intro data
  induction data with
  | nil => intro st _ _; exact ⟨st, rfl⟩
  | cons b rest ih =>
    intro st hp hn
    obtain ⟨st1, h1, hp1, hn1⟩ := decodeByte_safe hroot hl size b 8 st hp hn
    obtain ⟨st2, h2⟩ := ih st1 hp1 hn1
    refine ⟨st2, ?_⟩
    rw [decodeBytes, h1]
    exact h2

/-! ## Frequencies in the tree -/

theorem mergeLoop_induction (rt : Runtime) (P : List HuffmanNode → HuffmanNode → Prop)
    (hbase : ∀ root, P [root] root)
    (hstep : ∀ nodes left right rest root, rt.sortSlice nodes = left :: right :: rest →
      P (rest ++ [.node 0 (wrapInt64 (left.freq + right.freq)) left right]) root →
      P nodes root) :
    ∀ (fuel : Nat) (nodes : List HuffmanNode) (root : HuffmanNode),
      mergeLoop rt fuel nodes = .ok [root] → P nodes root := by
  intro fuel
  induction fuel with
  | zero =>
    intro nodes root h
    unfold mergeLoop at h
    split at h
    · cases h
    · cases h
      exact hbase root
  | succ fuel ih =>
    intro nodes root h
    unfold mergeLoop at h
    split at h
    · split at h
      · next left right rest hs => exact hstep nodes left right rest root hs (ih _ _ h)
      · cases h
    · cases h
      exact hbase root

theorem freq_node (v : Byte) (f : Int) (l r : HuffmanNode) :
    (HuffmanNode.node v f l r).freq = f := rfl

theorem leafEntries_parent {l : HuffmanNode} (hl : l ≠ .nil) (v : Byte) (f : Int)
    (r : HuffmanNode) :
    leafEntries (.node v f l r) = leafEntries l ++ leafEntries r := by
  simp [leafEntries, hl]

theorem leafEntries_fst (t : HuffmanNode) : (leafEntries t).map Prod.fst = leafValues t := by
  induction t with
  | nil => rfl
  | node v f l r ihl ihr =>
    unfold leafEntries leafValues
    split
    · rfl
    · rw [List.map_append, ihl, ihr]

theorem sum_freq_nonneg {l : List HuffmanNode} (h : ∀ n ∈ l, 0 ≤ n.freq) :
    0 ≤ (l.map HuffmanNode.freq).sum := by
  apply List.sum_nonneg
  intro x hx
  obtain ⟨n, hn, rfl⟩ := List.mem_map.mp hx
  exact h n hn

theorem mergeLoop_sums (rt : Runtime) (fuel : Nat) (nodes : List HuffmanNode)
    (root : HuffmanNode) (h : mergeLoop rt fuel nodes = .ok [root]) :
    (∀ n ∈ nodes, n ≠ .nil ∧ SumsOK n ∧ 0 ≤ n.freq) →
    (nodes.map HuffmanNode.freq).sum < 2 ^ 63 →
    SumsOK root ∧ root.freq = (nodes.map HuffmanNode.freq).sum ∧
      (leafEntries root).Perm (nodes.flatMap leafEntries) := by
  refine mergeLoop_induction rt
    (fun nodes root => (∀ n ∈ nodes, n ≠ .nil ∧ SumsOK n ∧ 0 ≤ n.freq) →
      (nodes.map HuffmanNode.freq).sum < 2 ^ 63 →
      SumsOK root ∧ root.freq = (nodes.map HuffmanNode.freq).sum ∧
        (leafEntries root).Perm (nodes.flatMap leafEntries)) ?_ ?_ fuel nodes root h
  · intro root hall _
    exact ⟨(hall root (List.mem_singleton_self _)).2.1, by simp, by simp⟩
  · intro nodes left right rest root hs ih hall hsum
    have hperm := rt.sortSlice_perm nodes
    rw [hs] at hperm
    have hall' : ∀ n ∈ left :: right :: rest, n ≠ .nil ∧ SumsOK n ∧ 0 ≤ n.freq :=
      fun n hn => hall n (hperm.mem_iff.1 hn)
    have hl := hall' left (by simp)
    have hr := hall' right (by simp)
    have hrest : ∀ n ∈ rest, n ≠ .nil ∧ SumsOK n ∧ 0 ≤ n.freq :=
      fun n hn => hall' n (by simp [hn])
    have hsumeq : (nodes.map HuffmanNode.freq).sum =
        left.freq + (right.freq + (rest.map HuffmanNode.freq).sum) := by
      rw [← (hperm.map HuffmanNode.freq).sum_eq]
      simp
    have hrs : 0 ≤ (rest.map HuffmanNode.freq).sum :=
      sum_freq_nonneg (fun n hn => (hrest n hn).2.2)
    have hw : wrapInt64 (left.freq + right.freq) = left.freq + right.freq := by
      have h63 : (2 : Int) ^ 63 = 9223372036854775808 := by norm_num
      rw [h63] at hsum
      apply wrapInt64_eq
      · rw [h63]; omega
      · rw [h63]; omega
    rw [hw] at ih
    obtain ⟨h1, h2, h3⟩ := ih
      (by
        intro n hn
        rcases List.mem_append.mp hn with hn | hn
        · exact hrest n hn
        · rw [List.mem_singleton.mp hn]
          exact ⟨by simp, Or.inr ⟨rfl, hl.2.1, hr.2.1⟩, by
            show 0 ≤ left.freq + right.freq
            omega⟩)
      (by
        rw [List.map_append, List.sum_append]
        simp only [List.map_cons, List.map_nil, List.sum_cons, List.sum_nil, freq_node]
        omega)
    refine ⟨h1, ?_, ?_⟩
    · rw [h2, List.map_append, List.sum_append, hsumeq]
      simp only [List.map_cons, List.map_nil, List.sum_cons, List.sum_nil, freq_node]
      omega
    · refine h3.trans (List.Perm.trans ?_ (hperm.flatMap_right leafEntries))
      rw [List.flatMap_append]
      simp only [List.flatMap_cons, List.flatMap_nil, List.append_nil,
        leafEntries_parent hl.1]
      exact List.perm_append_comm.trans (by rw [List.append_assoc])

theorem freqAt_incrFreq (m : List (Byte × Int)) (b k : Byte) :
    freqAt (incrFreq m b) k =
      if k = b then wrapInt64 (freqAt m b + 1) else freqAt m k := by
  induction m with
  | nil =>
    have h1 : wrapInt64 (0 + 1) = 1 := by decide
    simp only [incrFreq, freqAt, h1]
    by_cases h : b = k
    · rw [if_pos h, if_pos h.symm]
    · rw [if_neg h, if_neg (fun h' => h h'.symm)]
  | cons e m ih =>
    obtain ⟨k', n⟩ := e
    by_cases hb : k' = b
    · subst hb
      simp only [incrFreq, if_true, freqAt]
      by_cases hk : k' = k
      · rw [if_pos hk, if_pos hk.symm]
      · rw [if_neg hk, if_neg (fun h' => hk h'.symm), if_neg hk]
    · simp only [incrFreq, if_neg hb, freqAt, ih]
      by_cases hk : k' = k
      · rw [if_pos hk, if_neg (fun h' => hb (hk.trans h')), if_pos hk]
      · rw [if_neg hk, if_neg hk]

theorem freqAt_foldl (data : List Byte) : ∀ (m : List (Byte × Int)),
    (∀ k, 0 ≤ freqAt m k) → (∀ k, freqAt m k + data.length < 2 ^ 63) →
    ∀ k, freqAt (data.foldl incrFreq m) k = freqAt m k + data.count k := by
  have h63 : (2 : Int) ^ 63 = 9223372036854775808 := by norm_num
  induction data with
  | nil => intro m _ _ k; simp
  | cons b rest ih =>
    intro m h0 h1 k
    rw [h63] at h1
    have hb : wrapInt64 (freqAt m b + 1) = freqAt m b + 1 := by
      have := h0 b
      have := h1 b
      simp only [List.length_cons] at this
      apply wrapInt64_eq
      · rw [h63]; omega
      · rw [h63]; push_cast at this; omega
    have hm : ∀ k, freqAt (incrFreq m b) k = if k = b then freqAt m b + 1 else freqAt m k := by
      intro k
      rw [freqAt_incrFreq, hb]
    rw [List.foldl_cons, ih (incrFreq m b)
      (by
        intro k
        rw [hm]
        have := h0 b
        have := h0 k
        split <;> omega)
      (by
        intro k
        rw [hm, h63]
        have := h1 b
        have := h1 k
        simp only [List.length_cons] at *
        push_cast at *
        split <;> omega) k, hm, List.count_cons]
    by_cases hk : k = b
    · subst hk
      simp
      omega
    · rw [if_neg hk]
      have : (b == k) = false := by simpa using fun h => hk h.symm
      simp [this]

theorem mem_iff_freqAt (m : List (Byte × Int)) (h : (m.map Prod.fst).Nodup) (k : Byte)
    (n : Int) : (k, n) ∈ m ↔ k ∈ m.map Prod.fst ∧ n = freqAt m k := by
  induction m with
  | nil => simp
  | cons e m ih =>
    obtain ⟨k', n'⟩ := e
    rw [List.map_cons, List.nodup_cons] at h
    simp only [List.mem_cons, Prod.mk.injEq, List.map_cons, freqAt]
    by_cases hk : k' = k
    · subst hk
      rw [if_pos rfl]
      constructor
      · rintro (⟨_, rfl⟩ | hm)
        · exact ⟨Or.inl rfl, rfl⟩
        · exact absurd (List.mem_map_of_mem Prod.fst hm) h.1
      · rintro ⟨_, rfl⟩
        exact Or.inl ⟨rfl, rfl⟩
    · rw [if_neg hk, ih h.2]
      constructor
      · rintro (⟨h1, _⟩ | hm)
        · exact absurd h1.symm hk
        · exact ⟨Or.inr hm.1, hm.2⟩
      · rintro ⟨h1 | h1, h2⟩
        · exact absurd h1.symm hk
        · exact Or.inr ⟨h1, h2⟩

theorem mem_countFrequencies {data : List Byte} (hlen : (data.length : Int) < 2 ^ 63)
    (k : Byte) (n : Int) :
    (k, n) ∈ countFrequencies data ↔ k ∈ data ∧ n = data.count k := by
  have h1 := mem_iff_freqAt (countFrequencies data)
    (nodup_keys_foldl_incrFreq data [] (by simp)) k n
  have h2 := freqAt_foldl data [] (by simp [freqAt]) (by simpa [freqAt] using hlen) k
  rw [h1, mem_keys_countFrequencies]
  unfold countFrequencies
  rw [h2]
  simp [freqAt]

theorem countFrequencies_perm {data : List Byte} (hlen : (data.length : Int) < 2 ^ 63) :
    (countFrequencies data).Perm (data.dedup.map (fun v => (v, (data.count v : Int)))) := by
  rw [List.perm_ext_iff_of_nodup]
  · rintro ⟨k, n⟩
    rw [mem_countFrequencies hlen]
    simp only [List.mem_map, List.mem_dedup, Prod.mk.injEq]
    constructor
    · rintro ⟨h1, h2⟩; exact ⟨k, h1, rfl, h2.symm⟩
    · rintro ⟨v, h1, rfl, h2⟩; exact ⟨h1, h2.symm⟩
  · exact List.Nodup.of_map Prod.fst (nodup_keys_foldl_incrFreq data [] (by simp))
  · exact (List.nodup_dedup data).map (fun a b h => (Prod.mk.injEq _ _ _ _ ▸ h).1)

theorem leafEntries_ne_nil {t : HuffmanNode} (h : Proper t) : leafEntries t ≠ [] := by
  induction t with
  | nil => exact absurd h (by simp [Proper])
  | node v f l r ihl ihr =>
    unfold leafEntries
    split
    · simp
    · next hn =>
      rcases h with h | h
      · exact absurd h hn
      · intro he
        exact ihl h.1 (List.append_eq_nil.mp he).1

theorem Proper.eq_leaf_of_entries {t : HuffmanNode} (h : Proper t) {e : Byte × Int}
    (he : leafEntries t = [e]) : t = .node e.1 e.2 .nil .nil := by
  cases t with
  | nil => exact absurd h (by simp [Proper])
  | node v f l r =>
    rcases h with ⟨h1, h2⟩ | ⟨h1, h2⟩
    · subst h1; subst h2
      simp only [leafEntries, and_self, if_true, List.cons.injEq, and_true] at he
      rw [← he]
    · rw [leafEntries_parent h1.tree_ne_nil] at he
      have hl := List.length_pos.mpr (leafEntries_ne_nil h1)
      have hr := List.length_pos.mpr (leafEntries_ne_nil h2)
      have := congrArg List.length he
      simp only [List.length_append, List.length_singleton] at this
      omega

theorem flatMap_leafEntries_leaves (l : List (Byte × Int)) :
    (l.map (fun e => HuffmanNode.node e.1 e.2 .nil .nil)).flatMap leafEntries = l := by
  induction l with
  | nil => rfl
  | cons e l ih =>
    rw [List.map_cons, List.flatMap_cons, ih]
    simp [leafEntries]

theorem sum_count_dedup (D : List Byte) :
    ((D.dedup.map (fun v => (v, (D.count v : Int)))).map Prod.snd).sum = (D.length : Int) := by
  have h := List.sum_map_count_dedup_eq_length D
  rw [List.map_map]
  have e : ∀ l : List Byte,
      (l.map (Prod.snd ∘ fun v => (v, (D.count v : Int)))).sum =
        (((l.map fun v => D.count v).sum : Nat) : Int) := by
    intro l
    induction l with
    | nil => rfl
    | cons a l ih => simp only [List.map_cons, List.sum_cons, ih, Function.comp]; push_cast; rfl
  rw [e, h]

/-! ## Optimality of merging two smallest weights -/

theorem kraftSum_cons (L l : Nat) (s : Multiset Nat) :
    kraftSum L (l ::ₘ s) = 2 ^ (L - l) + kraftSum L s := by
  simp [kraftSum]

theorem lengthCost_cons (p : Int × Nat) (P : Multiset (Int × Nat)) :
    lengthCost (p ::ₘ P) = p.1 * (p.2 : Int) + lengthCost P := by
  simp [lengthCost]

theorem card_le_kraftSum (L : Nat) (s : Multiset Nat) : Multiset.card s ≤ kraftSum L s := by
  induction s using Multiset.induction_on with
  | empty => simp [kraftSum]
  | cons a s ih =>
    rw [kraftSum_cons, Multiset.card_cons]
    have := Nat.one_le_two_pow (n := L - a)
    omega

theorem kraftSum_succ (L : Nat) (s : Multiset Nat) (h : ∀ l ∈ s, l ≤ L) :
    kraftSum (L + 1) s = 2 * kraftSum L s := by
  induction s using Multiset.induction_on with
  | empty => simp [kraftSum]
  | cons a s ih =>
    rw [kraftSum_cons, kraftSum_cons, ih (fun l hl => h l (Multiset.mem_cons_of_mem hl))]
    have ha := h a (Multiset.mem_cons_self a s)
    have e : L + 1 - a = (L - a) + 1 := by omega
    rw [e, pow_succ]
    ring

theorem kraftSum_even (L : Nat) (s : Multiset Nat) (h : ∀ l ∈ s, l < L) :
    2 ∣ kraftSum L s := by
  induction s using Multiset.induction_on with
  | empty => simp [kraftSum]
  | cons a s ih =>
    rw [kraftSum_cons]
    have ha := h a (Multiset.mem_cons_self a s)
    have e : L - a = (L - a - 1) + 1 := by omega
    refine dvd_add ?_ (ih (fun l hl => h l (Multiset.mem_cons_of_mem hl)))
    rw [e, pow_succ]
    exact dvd_mul_left 2 _

theorem lengthCost_nonneg (P : Multiset (Int × Nat)) (h : ∀ w ∈ P.map Prod.fst, 0 ≤ w) :
    0 ≤ lengthCost P := by
  induction P using Multiset.induction_on with
  | empty => simp [lengthCost]
  | cons p P ih =>
    rw [lengthCost_cons]
    have h1 : 0 ≤ p.1 := h p.1 (by simp)
    have h2 := ih (fun w hw => h w (by
      rw [Multiset.map_cons]
      exact Multiset.mem_cons_of_mem hw))
    have h3 : (0 : Int) ≤ (p.2 : Int) := Int.natCast_nonneg _
    have := mul_nonneg h1 h3
    omega

theorem swap_min_max (P : Multiset (Int × Nat)) (a : Int) (L : Nat)
    (ha : a ∈ P.map Prod.fst) (hmin : ∀ w ∈ P.map Prod.fst, a ≤ w)
    (hL : L ∈ P.map Prod.snd) (hmax : ∀ l ∈ P.map Prod.snd, l ≤ L) :
    ∃ Q : Multiset (Int × Nat), P.map Prod.fst = a ::ₘ Q.map Prod.fst ∧
      P.map Prod.snd = L ::ₘ Q.map Prod.snd ∧ lengthCost Q + a * (L : Int) ≤ lengthCost P := by
  obtain ⟨⟨a', la⟩, hmem, rfl⟩ := Multiset.mem_map.mp ha
  obtain ⟨P0, rfl⟩ := Multiset.exists_cons_of_mem hmem
  rw [Multiset.map_cons, Multiset.mem_cons] at hL
  by_cases hla : L = la
  · subst hla
    exact ⟨P0, by simp, by simp, by rw [lengthCost_cons]; linarith⟩
  · obtain ⟨⟨w1, l1⟩, hmem1, rfl⟩ := Multiset.mem_map.mp (hL.resolve_left hla)
    obtain ⟨P00, rfl⟩ := Multiset.exists_cons_of_mem hmem1
    refine ⟨(w1, la) ::ₘ P00, by simp, ?_, ?_⟩
    · simp only [Multiset.map_cons]
      exact Multiset.cons_swap _ _ _
    · simp only [lengthCost_cons]
      have h1 : a' ≤ w1 := hmin w1 (by simp)
      have h2 : la ≤ l1 := hmax la (by simp)
      have h3 : (la : Int) ≤ (l1 : Int) := by exact_mod_cast h2
      nlinarith [mul_nonneg (sub_nonneg.mpr h1) (sub_nonneg.mpr h3)]

theorem Merges.le_lengthCost : ∀ (n L : Nat) (P : Multiset (Int × Nat)) (c : Int),
    L + (P.map Prod.snd).sum ≤ n → Merges (P.map Prod.fst) c →
    (∀ w ∈ P.map Prod.fst, 0 ≤ w) → (∀ l ∈ P.map Prod.snd, l ≤ L) →
    kraftSum L (P.map Prod.snd) ≤ 2 ^ L → c ≤ lengthCost P := by
  intro n
  induction n with
  | zero =>
    intro L P c hn hM h0 hmax hK
    have hL : L = 0 := by omega
    subst hL
    generalize hW : P.map Prod.fst = W at hM
    cases hM with
    | single w => exact lengthCost_nonneg P h0
    | step a b R c' hab hR hM' =>
      have hcard := congrArg Multiset.card hW
      simp only [Multiset.card_map, Multiset.card_cons] at hcard
      have := card_le_kraftSum 0 (P.map Prod.snd)
      simp only [Multiset.card_map, pow_zero] at this hK
      omega
  | succ n ih =>
    intro L P c hn hM h0 hmax hK
    have hM0 := hM
    generalize hW : P.map Prod.fst = W at hM
    cases hM with
    | single w => exact lengthCost_nonneg P h0
    | step a b R c' hab hR hM' =>
      have hcard := congrArg Multiset.card hW
      simp only [Multiset.card_map, Multiset.card_cons] at hcard
      cases L with
      | zero =>
        have := card_le_kraftSum 0 (P.map Prod.snd)
        simp only [Multiset.card_map, pow_zero] at this hK
        omega
      | succ L =>
        by_cases hmemL : (L + 1) ∈ P.map Prod.snd
        · obtain ⟨⟨w, l⟩, hmem, hl⟩ := Multiset.mem_map.mp hmemL
          simp only at hl
          subst hl
          obtain ⟨P1, hP1⟩ := Multiset.exists_cons_of_mem hmem
          have hsnd : P.map Prod.snd = (L + 1) ::ₘ P1.map Prod.snd := by rw [hP1]; simp
          have hfst : P.map Prod.fst = w ::ₘ P1.map Prod.fst := by rw [hP1]; simp
          by_cases hmem2 : (L + 1) ∈ P1.map Prod.snd
          · have ha0 : 0 ≤ a := h0 a (by rw [hW]; simp)
            have hb0 : 0 ≤ b := h0 b (by rw [hW]; simp)
            obtain ⟨Q1, hf1, hs1, hc1⟩ := swap_min_max P a (L + 1) (by rw [hW]; simp)
              (by
                intro x hx
                rw [hW] at hx
                simp only [Multiset.mem_cons] at hx
                rcases hx with rfl | rfl | hx
                · exact le_refl _
                · exact hab
                · exact le_trans hab (hR x hx))
              hmemL hmax
            have hf1' : Q1.map Prod.fst = b ::ₘ R := by
              rw [hW] at hf1
              exact ((Multiset.cons_inj_right a).1 hf1).symm
            have hs1' : P1.map Prod.snd = Q1.map Prod.snd := by
              rw [hsnd] at hs1
              exact (Multiset.cons_inj_right (L + 1)).1 hs1
            obtain ⟨Q2, hf2, hs2, hc2⟩ := swap_min_max Q1 b (L + 1) (by rw [hf1']; simp)
              (by
                intro x hx
                rw [hf1'] at hx
                simp only [Multiset.mem_cons] at hx
                rcases hx with rfl | hx
                · exact le_refl _
                · exact hR x hx)
              (by rw [← hs1']; exact hmem2)
              (by
                intro l hl
                exact hmax l (by rw [hs1]; exact Multiset.mem_cons_of_mem hl))
            have hf2' : Q2.map Prod.fst = R := by
              rw [hf1'] at hf2
              exact ((Multiset.cons_inj_right b).1 hf2).symm
            have hsP : P.map Prod.snd = (L + 1) ::ₘ (L + 1) ::ₘ Q2.map Prod.snd := by
              rw [hs1, hs2]
            have hrec := ih (L + 1) ((a + b, L) ::ₘ Q2) c'
              (by
                rw [hsP] at hn
                simp only [Multiset.map_cons, Multiset.sum_cons] at hn ⊢
                omega)
              (by
                simp only [Multiset.map_cons, hf2']
                exact hM')
              (by
                intro x hx
                simp only [Multiset.map_cons, hf2', Multiset.mem_cons] at hx
                rcases hx with rfl | hx
                · omega
                · exact h0 x (by rw [hW]; simp [hx]))
              (by
                intro l hl
                simp only [Multiset.map_cons, Multiset.mem_cons] at hl
                rcases hl with rfl | hl
                · omega
                · exact hmax l (by rw [hsP]; simp [hl]))
              (by
                rw [hsP] at hK
                simp only [Multiset.map_cons, kraftSum_cons] at hK ⊢
                have e1 : L + 1 - (L + 1) = 0 := by omega
                have e2 : L + 1 - L = 1 := by omega
                rw [e1] at hK
                rw [e2]
                simp only [pow_zero, pow_one] at hK ⊢
                omega)
            rw [lengthCost_cons] at hrec
            simp only at hrec
            have e3 : a * ((L + 1 : Nat) : Int) = a * (L : Int) + a := by push_cast; ring
            have e4 : b * ((L + 1 : Nat) : Int) = b * (L : Int) + b := by push_cast; ring
            have e5 : (a + b) * (L : Int) = a * (L : Int) + b * (L : Int) := by ring
            rw [e3] at hc1
            rw [e4] at hc2
            rw [e5] at hrec
            omega
          · have hw0 : 0 ≤ w := h0 w (by rw [hfst]; simp)
            have hlt : ∀ l ∈ P1.map Prod.snd, l < L + 1 := by
              intro l hl
              have h1 := hmax l (by rw [hsnd]; exact Multiset.mem_cons_of_mem hl)
              have h2 : l ≠ L + 1 := fun h => hmem2 (h ▸ hl)
              omega
            have heven := kraftSum_even (L + 1) _ hlt
            have hrec := ih (L + 1) ((w, L) ::ₘ P1) (c' + (a + b))
              (by
                rw [hsnd] at hn
                simp only [Multiset.map_cons, Multiset.sum_cons] at hn ⊢
                omega)
              (by
                simp only [Multiset.map_cons]
                rw [← hfst]
                exact hM0)
              (by
                intro x hx
                simp only [Multiset.map_cons] at hx
                exact h0 x (by rw [hfst]; exact hx))
              (by
                intro l hl
                simp only [Multiset.map_cons, Multiset.mem_cons] at hl
                rcases hl with rfl | hl
                · omega
                · exact le_of_lt (hlt l hl))
              (by
                rw [hsnd] at hK
                simp only [Multiset.map_cons, kraftSum_cons] at hK ⊢
                have e1 : L + 1 - (L + 1) = 0 := by omega
                have e2 : L + 1 - L = 1 := by omega
                rw [e1] at hK
                rw [e2]
                simp only [pow_zero, pow_one] at hK ⊢
                have h2 : 2 ∣ 2 ^ (L + 1) := by rw [pow_succ]; exact dvd_mul_left 2 _
                omega)
            rw [lengthCost_cons] at hrec
            simp only at hrec
            have hcost : lengthCost P = w * ((L + 1 : Nat) : Int) + lengthCost P1 := by
              rw [hP1, lengthCost_cons]
            have e3 : w * ((L + 1 : Nat) : Int) = w * (L : Int) + w := by push_cast; ring
            rw [hcost, e3]
            omega
        · have hle : ∀ l ∈ P.map Prod.snd, l ≤ L := by
            intro l hl
            have h1 := hmax l hl
            have h2 : l ≠ L + 1 := fun h => hmemL (h ▸ hl)
            omega
          have hKs := kraftSum_succ L _ hle
          exact ih L P (c' + (a + b)) (by omega) hM0 h0 hle (by
            rw [hKs, pow_succ] at hK
            omega)

/-! ## Kraft's inequality and the cost of the built tree -/

theorem mem_tailsOf (h : Char) (C : List (List Char)) (t : List Char) :
    t ∈ tailsOf h C ↔ (h :: t) ∈ C := by
  unfold tailsOf
  rw [List.mem_filterMap]
  constructor
  · rintro ⟨s, hs, hf⟩
    cases s with
    | nil => simp at hf
    | cons c t' =>
      simp only at hf
      split at hf
      · next hc => cases hf; rw [← hc]; exact hs
      · cases hf
  · intro hm
    exact ⟨h :: t, hm, by simp⟩

theorem tailsOf_pairwise (h : Char) {C : List (List Char)}
    (hp : C.Pairwise (fun x y => ¬ x <+: y ∧ ¬ y <+: x)) :
    (tailsOf h C).Pairwise (fun x y => ¬ x <+: y ∧ ¬ y <+: x) := by
  unfold tailsOf
  refine List.Pairwise.filterMap _ ?_ hp
  intro s s' hss t ht t' ht'
  cases s with
  | nil => simp at ht
  | cons c u =>
    cases s' with
    | nil => simp at ht'
    | cons c' u' =>
      simp only [Option.mem_def] at ht ht'
      split at ht
      · next hc =>
        split at ht'
        · next hc' =>
          cases ht; cases ht'
          subst hc; subst hc'
          simp only [List.cons_prefix_cons, true_and] at hss
          exact hss
        · cases ht'
      · cases ht

theorem eq_singleton_of_nil_mem {C : List (List Char)}
    (hp : C.Pairwise (fun x y => ¬ x <+: y ∧ ¬ y <+: x)) (h : [] ∈ C) : C = [[]] := by
  cases C with
  | nil => simp at h
  | cons x rest =>
    rw [List.pairwise_cons] at hp
    cases rest with
    | nil => simpa using h
    | cons y rest' =>
      exfalso
      rcases List.mem_cons.mp h with hx | hx
      · exact (hp.1 y (by simp)).1 (by rw [← hx]; exact List.nil_prefix)
      · exact (hp.1 [] hx).2 List.nil_prefix

theorem sum_split_tails (L : Nat) : ∀ (C : List (List Char)),
    (∀ s ∈ C, IsBits s) → [] ∉ C →
    (C.map (fun s => 2 ^ (L + 1 - s.length))).sum =
      ((tailsOf '0' C).map (fun s => 2 ^ (L - s.length))).sum +
        ((tailsOf '1' C).map (fun s => 2 ^ (L - s.length))).sum := by
  intro C
  induction C with
  | nil => intro _ _; rfl
  | cons s rest ih =>
    intro hb hn
    have ih' := ih (fun s hs => hb s (List.mem_cons_of_mem _ hs))
      (fun h => hn (List.mem_cons_of_mem _ h))
    cases s with
    | nil => exact absurd (List.mem_cons_self _ _) hn
    | cons c t =>
      have hc := hb (c :: t) (List.mem_cons_self _ _) c (List.mem_cons_self _ _)
      have e : L + 1 - (c :: t).length = L - t.length := by
        rw [List.length_cons]; omega
      rw [List.map_cons, List.sum_cons, e, ih']
      rcases hc with hc | hc
      · subst hc
        have h0 : tailsOf '0' (('0' :: t) :: rest) = t :: tailsOf '0' rest := by
          simp [tailsOf]
        have h1 : tailsOf '1' (('0' :: t) :: rest) = tailsOf '1' rest := by
          simp [tailsOf]
        rw [h0, h1, List.map_cons, List.sum_cons]
        omega
      · subst hc
        have h0 : tailsOf '0' (('1' :: t) :: rest) = tailsOf '0' rest := by
          simp [tailsOf]
        have h1 : tailsOf '1' (('1' :: t) :: rest) = t :: tailsOf '1' rest := by
          simp [tailsOf]
        rw [h0, h1, List.map_cons, List.sum_cons]
        omega

theorem kraft_of_pairwise : ∀ (L : Nat) (C : List (List Char)),
    (∀ s ∈ C, IsBits s ∧ s.length ≤ L) →
    C.Pairwise (fun x y => ¬ x <+: y ∧ ¬ y <+: x) →
    (C.map (fun s => 2 ^ (L - s.length))).sum ≤ 2 ^ L := by
  intro L
  induction L with
  | zero =>
    intro C hC hp
    cases C with
    | nil => simp
    | cons s rest =>
      have hs : s = [] := List.length_eq_zero.mp (by
        have := (hC s (List.mem_cons_self _ _)).2
        omega)
      have := eq_singleton_of_nil_mem hp (by rw [hs]; exact List.mem_cons_self _ _)
      rw [this]
      simp
  | succ L ih =>
    intro C hC hp
    by_cases hn : [] ∈ C
    · rw [eq_singleton_of_nil_mem hp hn]
      simp
    · rw [sum_split_tails L C (fun s hs => (hC s hs).1) hn]
      have hsub : ∀ h : Char, ∀ t ∈ tailsOf h C, IsBits t ∧ t.length ≤ L := by
        intro h t ht
        have hm := (mem_tailsOf h C t).1 ht
        obtain ⟨h1, h2⟩ := hC _ hm
        refine ⟨fun c hc => h1 c (List.mem_cons_of_mem _ hc), ?_⟩
        rw [List.length_cons] at h2
        omega
      have h0 := ih (tailsOf '0' C) (hsub '0') (tailsOf_pairwise '0' hp)
      have h1 := ih (tailsOf '1' C) (hsub '1') (tailsOf_pairwise '1' hp)
      rw [pow_succ]
      omega

theorem treeCost_parent {l : HuffmanNode} (hl : l ≠ .nil) (v : Byte) (f : Int)
    (r : HuffmanNode) :
    treeCost (.node v f l r) = treeCost l + treeCost r + f := by
  simp [treeCost, hl]

theorem mergeLoop_cost (rt : Runtime) (fuel : Nat) (nodes : List HuffmanNode)
    (root : HuffmanNode) (h : mergeLoop rt fuel nodes = .ok [root]) :
    (∀ n ∈ nodes, n ≠ .nil ∧ 0 ≤ n.freq) →
    (nodes.map HuffmanNode.freq).sum < 2 ^ 63 →
    ∃ c, Merges ((nodes.map HuffmanNode.freq : List Int) : Multiset Int) c ∧
      treeCost root = c + (nodes.map treeCost).sum := by
  refine mergeLoop_induction rt
    (fun nodes root => (∀ n ∈ nodes, n ≠ .nil ∧ 0 ≤ n.freq) →
      (nodes.map HuffmanNode.freq).sum < 2 ^ 63 →
      ∃ c, Merges ((nodes.map HuffmanNode.freq : List Int) : Multiset Int) c ∧
        treeCost root = c + (nodes.map treeCost).sum) ?_ ?_ fuel nodes root h
  · intro root _ _
    exact ⟨0, Merges.single root.freq, by simp⟩
  · intro nodes left right rest root hs ih hall hsum
    have hperm := rt.sortSlice_perm nodes
    have hsorted := rt.sortSlice_sorted nodes
    rw [hs] at hperm hsorted
    have hall' : ∀ n ∈ left :: right :: rest, n ≠ .nil ∧ 0 ≤ n.freq :=
      fun n hn => hall n (hperm.mem_iff.1 hn)
    have hl := hall' left (by simp)
    have hr := hall' right (by simp)
    have hrest : ∀ n ∈ rest, n ≠ .nil ∧ 0 ≤ n.freq := fun n hn => hall' n (by simp [hn])
    have hsumeq : (nodes.map HuffmanNode.freq).sum =
        left.freq + (right.freq + (rest.map HuffmanNode.freq).sum) := by
      rw [← (hperm.map HuffmanNode.freq).sum_eq]
      simp
    have hcosteq : (nodes.map treeCost).sum =
        treeCost left + (treeCost right + (rest.map treeCost).sum) := by
      rw [← (hperm.map treeCost).sum_eq]
      simp
    have hrs : 0 ≤ (rest.map HuffmanNode.freq).sum :=
      sum_freq_nonneg (fun n hn => (hrest n hn).2)
    have hw : wrapInt64 (left.freq + right.freq) = left.freq + right.freq := by
      have h63 : (2 : Int) ^ 63 = 9223372036854775808 := by norm_num
      rw [h63] at hsum
      apply wrapInt64_eq
      · rw [h63]; omega
      · rw [h63]; omega
    rw [hw] at ih
    obtain ⟨c, hc1, hc2⟩ := ih
      (by
        intro n hn
        rcases List.mem_append.mp hn with hn | hn
        · exact hrest n hn
        · rw [List.mem_singleton.mp hn]
          exact ⟨by simp, by
            show 0 ≤ left.freq + right.freq
            omega⟩)
      (by
        rw [List.map_append, List.sum_append]
        simp only [List.map_cons, List.map_nil, List.sum_cons, List.sum_nil, freq_node]
        omega)
    rw [List.pairwise_cons, List.pairwise_cons] at hsorted
    have hnew : (((rest ++ [HuffmanNode.node 0 (left.freq + right.freq) left right]).map
        HuffmanNode.freq : List Int) : Multiset Int) =
        (left.freq + right.freq) ::ₘ ((rest.map HuffmanNode.freq : List Int) : Multiset Int) := by
      rw [List.map_append, Multiset.cons_coe]
      exact Multiset.coe_eq_coe.2 List.perm_append_comm
    have hold : ((nodes.map HuffmanNode.freq : List Int) : Multiset Int) =
        left.freq ::ₘ right.freq ::ₘ ((rest.map HuffmanNode.freq : List Int) : Multiset Int) := by
      rw [Multiset.cons_coe, Multiset.cons_coe]
      exact Multiset.coe_eq_coe.2 (hperm.map HuffmanNode.freq).symm
    rw [hnew] at hc1
    refine ⟨c + (left.freq + right.freq), ?_, ?_⟩
    · rw [hold]
      refine Merges.step _ _ _ c (hsorted.1 right (by simp)) ?_ hc1
      intro x hx
      obtain ⟨n, hn, rfl⟩ := List.mem_map.mp (Multiset.mem_coe.1 hx)
      exact hsorted.2.1 n hn
    · rw [hc2, hcosteq, List.map_append, List.sum_append]
      simp only [List.map_cons, List.map_nil, List.sum_cons, List.sum_nil,
        treeCost_parent hl.1]
      omega

theorem entries_cost (t : HuffmanNode) : Proper t → SumsOK t →
    ∀ (code : Byte → List Char) (pre : List Char),
      (∀ p k, PathTo t p k → code k = pre ++ p) →
      ((leafEntries t).map (fun e => e.2 * ((code e.1).length : Int))).sum =
        treeCost t + t.freq * (pre.length : Int) := by
  induction t with
  | nil => intro h; exact absurd h (by simp [Proper])
  | node v f l r ihl ihr =>
    intro hp hs code pre hcode
    rcases hp with ⟨h1, h2⟩ | ⟨h1, h2⟩
    · subst h1; subst h2
      have := hcode [] v (PathTo.leaf v f)
      simp [leafEntries, treeCost, this, freq_node]
    · rcases hs with ⟨h3, _⟩ | ⟨hf, hs1, hs2⟩
      · exact absurd h3 h1.tree_ne_nil
      · have e1 := ihl h1 hs1 code (pre ++ ['0']) (by
          intro p k hpk
          rw [hcode _ k (PathTo.left v f r hpk)]
          simp)
        have e2 := ihr h2 hs2 code (pre ++ ['1']) (by
          intro p k hpk
          rw [hcode _ k (PathTo.right v f l hpk)]
          simp)
        rw [leafEntries_parent h1.tree_ne_nil, List.map_append, List.sum_append, e1, e2,
          treeCost_parent h1.tree_ne_nil, freq_node, hf]
        simp only [List.length_append, List.length_singleton]
        push_cast
        ring

theorem mem_le_sum : ∀ (l : List Nat) (x : Nat), x ∈ l → x ≤ l.sum := by
  intro l
  induction l with
  | nil => intro x hx; simp at hx
  | cons a l ih =>
    intro x hx
    rw [List.sum_cons]
    rcases List.mem_cons.mp hx with rfl | hx
    · omega
    · have := ih x hx
      omega

/-! ## The claims -/

set_option maxRecDepth 1000000

theorem decodeRound_frame (rt : Runtime) (gob : Gob) {bs payload decoded : List Byte}
    {t' : HuffmanNode} {n : Nat} {i : Int} (hbl : bs.length ≤ rt.maxAlloc)
    (hn : n < 2 ^ 63) (hi0 : -128 ≤ i) (hi1 : i < 128) (hdec : gob.decode bs = .ok t')
    (hdd : decodeData payload t' (n : Int) = .ok decoded) :
    decodeRound rt gob (putHeader ⟨bs.length, n, i⟩ ++ bs ++ payload) =
      .ok (⟨bs.length, n, i⟩, decoded) := by
  have hmax := rt.maxAlloc_lt
  have hh : getHeader (putHeader ⟨bs.length, n, i⟩) = ⟨bs.length, n, i⟩ :=
    getHeader_putHeader (by simp only; omega) (by simp only; omega) (by simp only; omega)
      (by simp only; omega) hi0 hi1
  have hr1 := readFull_append (putHeader ⟨bs.length, n, i⟩) (bs ++ payload)
  rw [putHeader_length] at hr1
  have hms : makeSlice rt (bs.length : Int) = .ok bs.length := by
    unfold makeSlice
    rw [if_neg (by omega)]
    rfl
  have hr2 := readFull_append bs payload
  have hfr : decodeFrame rt gob ⟨bs.length, n, i⟩ (bs ++ payload) = .ok decoded := by
    rw [decodeFrame_eq rt gob hms hr2 hdec]
    exact hdd
  rw [← hh] at hfr
  have hfin := decodeRound_eq rt gob hr1 hfr
  rw [hh] at hfin
  rw [List.append_assoc]
  exact hfin

theorem BuildTree_single (rt : Runtime) :
    BuildTree rt [65, 65, 65] = .ok (.node 65 3 .nil .nil) := by
  have hcount : countFrequencies [65, 65, 65] = [(65, 3)] := by decide
  have hmap : rt.mapRange [(65, 3)] = [(65, 3)] :=
    List.perm_singleton.mp (rt.mapRange_perm [(65, 3)])
  simp [BuildTree, buildHuffmanTree, hcount, hmap, mergeLoop]

theorem proper_skeleton (t : HuffmanNode) : Proper (skeleton t) ↔ Proper t := by
  induction t with
  | nil => simp [skeleton, Proper]
  | node v f l r ihl ihr =>
    simp only [skeleton, Proper, skeleton_eq_nil, ihl, ihr]

theorem Proper.of_skeleton_eq {t t' : HuffmanNode} (hs : skeleton t' = skeleton t)
    (h : Proper t) : Proper t' := by
  rw [← proper_skeleton, hs, proper_skeleton]
  exact h

theorem decodeFrame_decode_error (rt : Runtime) (gob : Gob) {header : FileHeader}
    {rest treeData payload : List Byte} {n : Nat} {e : Failure}
    (h2 : makeSlice rt header.TreeSize = .ok n)
    (h3 : readFull rest n = .ok (treeData, payload))
    (h4 : gob.decode treeData = .error e) :
    decodeFrame rt gob header rest = .error e := by
  simp only [decodeFrame, h2, h3, h4]

/-- One round of the decode loop on a header followed by `bs` and `payload`: the header is
parsed into its three fields, the deserializer is handed exactly `bs`, and `decodeData`
exactly `payload` with the data-size as target count. -/
theorem decodeRound_layout (rt : Runtime) (gob : Gob) {bs : List Byte} (payload : List Byte)
    {n : Nat} {i : Int} (hbl : bs.length ≤ rt.maxAlloc) (hn : n < 2 ^ 63)
    (hi0 : -128 ≤ i) (hi1 : i < 128) :
    decodeRound rt gob (putHeader ⟨bs.length, n, i⟩ ++ bs ++ payload) =
      match gob.decode bs with
      | .error e => .error e
      | .ok t =>
        match decodeData payload t (n : Int) with
        | .error e => .error e
        | .ok decoded => .ok (⟨bs.length, n, i⟩, decoded) := by
  cases hdec : gob.decode bs with
  | ok t =>
    show decodeRound rt gob (putHeader ⟨bs.length, n, i⟩ ++ bs ++ payload) =
      match decodeData payload t (n : Int) with
      | .error e => .error e
      | .ok decoded => .ok (⟨bs.length, n, i⟩, decoded)
    cases hdd : decodeData payload t (n : Int) with
    | ok decoded => exact decodeRound_frame rt gob hbl hn hi0 hi1 hdec hdd
    | error e => exact decodeRound_frame_fails rt gob hbl hn hi0 hi1 hdec hdd
  | error e =>
    have hmax := rt.maxAlloc_lt
    have hh : getHeader (putHeader ⟨bs.length, n, i⟩) = ⟨bs.length, n, i⟩ :=
      getHeader_putHeader (by simp only; omega) (by simp only; omega) (by simp only; omega)
        (by simp only; omega) hi0 hi1
    have hr1 := readFull_append (putHeader ⟨bs.length, n, i⟩) (bs ++ payload)
    rw [putHeader_length] at hr1
    have hms : makeSlice rt (bs.length : Int) = .ok bs.length := makeSlice_natCast rt hbl
    have hr2 := readFull_append bs payload
    have hfr : decodeFrame rt gob ⟨bs.length, n, i⟩ (bs ++ payload) = .error e :=
      decodeFrame_decode_error rt gob hms hr2 hdec
    rw [← hh] at hfr
    rw [List.append_assoc]
    exact decodeRound_frame_error rt gob hr1 hfr

/-- One pass and a round on any payload: behind the header and the tree of the frame of a
buffer with two distinct values, every payload is decoded without error, to `data` when
it is the packed payload and to at most eight bytes per payload byte otherwise. -/
theorem assembleFrame_decodeRound_cut (rt : Runtime) (gob : Gob) (hinv : gob.Inverts rt)
    (data : List Byte) (i : Int) (hbytes : IsBytes data) (htwo : TwoValues data)
    (hlen : data.length < 2 ^ 63) (hi0 : -128 ≤ i) (hi1 : i < 128) :
    ∃ tree payload,
      assembleFrame rt gob data i =
        .ok (putHeader ⟨tree.length, data.length, i⟩ ++ tree ++ payload) ∧
      decodeRound rt gob (putHeader ⟨tree.length, data.length, i⟩ ++ tree ++ payload) =
        .ok (⟨tree.length, data.length, i⟩, data) ∧
      ∀ cut : List Byte, ∃ decoded,
        decodeRound rt gob (putHeader ⟨tree.length, data.length, i⟩ ++ tree ++ cut) =
          .ok (⟨tree.length, data.length, i⟩, decoded) ∧
        decoded.length ≤ 8 * cut.length := by
  have hmax := rt.maxAlloc_lt
  obtain ⟨root, hroot, hproper, hleaves, hleaf, _⟩ := BuildTree_spec rt htwo.data_ne_nil
  have hnl : root.isLeaf = false := hleaf htwo
  obtain ⟨codes, hcodes, hget, _⟩ := generateHuffmanCodes_spec hproper.tree_ne_nil
  have hpath : ∀ s ∈ data, PathTo root (codes.get s) s := by
    intro s hs
    obtain ⟨p, hp, hpath⟩ := hget s ((hleaves s).2 hs)
    simpa [CodeMap.get, hp] using hpath
  have hbits : IsBits (codeString data codes) :=
    isBits_flatMap (fun s hs => (hpath s hs).isBits)
  obtain ⟨bs, t', henc, _, hbl, hdec, hsk⟩ := hinv root (BuildTree_byteTree rt hbytes hroot)
  have hw1 : wrapInt64 (bs.length : Int) = bs.length := wrapInt64_eq (by omega) (by omega)
  have hw2 : wrapInt64 (data.length : Int) = data.length := wrapInt64_eq (by omega) (by omega)
  have hnl' : t'.isLeaf = false := by rw [isLeaf_transfer hsk]; exact hnl
  have hproper' : Proper t' := hproper.of_skeleton_eq hsk
  refine ⟨bs, packSpec (codeString data codes), ?_, ?_, ?_⟩
  · simp only [assembleFrame, hroot, Encode, hcodes, compressData, StringToByteArray_eq hbits,
      henc, hw1, hw2]
  · exact decodeRound_frame rt gob hbl hlen hi0 hi1 hdec
      (decodeData_packSpec hnl' data htwo.data_ne_nil (by omega)
        (fun s hs => (hpath s hs).transfer hsk))
  · intro cut
    obtain ⟨st, hst⟩ := decodeBytes_safe hproper' hnl' (data.length : Int) cut ⟨t', 0, []⟩
      hproper' hnl'
    have hdd : decodeData cut t' (data.length : Int) = .ok st.decoded := by
      rw [decodeData, hst]
    exact ⟨st.decoded, decodeRound_frame rt gob hbl hlen hi0 hi1 hdec hdd,
      decodeData_length hdd⟩

theorem assembleFrame_shape (rt : Runtime) (gob : Gob) {data frame : List Byte} {i : Int}
    (h : assembleFrame rt gob data i = .ok frame) :
    ∃ (t d : Int) (tree payload : List Byte),
      frame = putHeader ⟨t, d, i⟩ ++ tree ++ payload := by
  unfold assembleFrame at h
  split at h
  · cases h
  · split at h
    · cases h
    · split at h
      · cases h
      · cases h
        exact ⟨_, _, _, _, rfl⟩

theorem putHeader_getD_16 (t d i : Int) (tree payload : List Byte) :
    (putHeader ⟨t, d, i⟩ ++ tree ++ payload).getD 16 0 = (i % 256).toNat := by
  have h17 := putHeader_length ⟨t, d, i⟩
  rw [List.getD_eq_getElem?_getD, List.append_assoc,
    List.getElem?_append_left (by rw [h17]; norm_num)]
  unfold putHeader putInt8
  rw [List.getElem?_append_right (by
    rw [List.length_append, putInt64LE_length, putInt64LE_length])]
  rw [List.length_append, putInt64LE_length, putInt64LE_length]
  rfl

theorem assembleFrame_length_ge (rt : Runtime) (gob : Gob) {data frame : List Byte} {i : Int}
    (h : assembleFrame rt gob data i = .ok frame) : 17 ≤ frame.length := by
  obtain ⟨t, d, tree, payload, rfl⟩ := assembleFrame_shape rt gob h
  rw [List.length_append, List.length_append, putHeader_length]
  omega

theorem assembleFrame_depth_byte (rt : Runtime) (gob : Gob) {data frame : List Byte}
    {i : Int} (h : assembleFrame rt gob data i = .ok frame) :
    frame.getD 16 0 = (i % 256).toNat := by
  obtain ⟨t, d, tree, payload, rfl⟩ := assembleFrame_shape rt gob h
  exact putHeader_getD_16 t d i tree payload

/-- C2 (single-symbol round trip): for the buffer `[0x41, 0x41, 0x41]`, with any runtime and
any serializer that satisfies the round-trip assumption, `EncodeLoop` returns a frame with
pass-depth 0 and the decode loop turns that frame into the empty buffer, not into the three
bytes: the only code is the empty string, so the payload is empty. -/
theorem single_symbol_decodes_to_empty (rt : Runtime) (gob : Gob) (hinv : gob.Inverts rt) :
    ∃ out, EncodeLoop rt gob [65, 65, 65] 0 = .ok (out, 0) ∧
      ∀ fuel, DecodeLargeFile rt gob (fuel + 1) out = .ok [] := by
  have hmax := rt.maxAlloc_lt
  have hbt := BuildTree_single rt
  have hbyte : ByteTree (.node 65 3 .nil .nil) := by
    refine ⟨Or.inl ⟨rfl, rfl⟩, ?_, ?_⟩
    · intro b hb
      simp only [leafValues, and_self, if_true, List.mem_singleton] at hb
      rw [hb]
      norm_num
    · simp [leafValues]
  obtain ⟨bs, t', henc, _, hbl, hdec, _⟩ := hinv _ hbyte
  have hEnc : Encode (.node 65 3 .nil .nil) [65, 65, 65] = .ok [] := by decide
  have hw1 : wrapInt64 (bs.length : Int) = bs.length := wrapInt64_eq (by omega) (by omega)
  have hw2 : wrapInt64 (([65, 65, 65] : List Byte).length : Int) = (3 : Nat) := by decide
  have hframe : assembleFrame rt gob [65, 65, 65] 0 =
      .ok (putHeader ⟨bs.length, (3 : Nat), 0⟩ ++ bs ++ []) := by
    simp only [assembleFrame, hbt, hEnc, henc, hw1, hw2]
  have hstop : ¬ (putHeader ⟨bs.length, (3 : Nat), 0⟩ ++ bs ++ []).length <
      ([65, 65, 65] : List Byte).length := by
    simp only [List.length_append, putHeader_length, List.length_cons, List.length_nil]
    omega
  refine ⟨_, EncodeLoop_stop rt gob 0 hframe hstop, ?_⟩
  intro fuel
  have hdd : decodeData [] t' ((3 : Nat) : Int) = .ok [] := rfl
  have hround := decodeRound_frame rt gob (i := 0) hbl (by norm_num) (by norm_num)
    (by norm_num) hdec hdd
  rw [DecodeLargeFile_succ rt gob fuel hround]
  simp

/-- Witness of C2 with the standard runtime and the serializer of the specification. -/
theorem single_symbol_decodes_to_empty_witness :
    ∃ out, EncodeLoop stdRuntime specGob [65, 65, 65] 0 = .ok (out, 0) ∧
      ∀ fuel, DecodeLargeFile stdRuntime specGob (fuel + 1) out = .ok [] :=
  single_symbol_decodes_to_empty stdRuntime specGob specGob_inverts

/-- C3 (empty input): on the empty buffer `EncodeLoop` returns no framed result. The
frequency table is empty, the node list of `buildHuffmanTree` stays empty and `nodes[0]` in
line 175 stops the program with an index-out-of-range panic, for every runtime, serializer
and pass counter. -/
theorem EncodeLoop_empty_panics (rt : Runtime) (gob : Gob) (i : Int) :
    EncodeLoop rt gob [] i = .error .indexOutOfRange ∧
      Failure.isPanic .indexOutOfRange = true := by
  have hnil : rt.mapRange [] = [] := (rt.mapRange_perm []).eq_nil
  have hframe : assembleFrame rt gob [] i = .error .indexOutOfRange := by
    simp [assembleFrame, BuildTree, buildHuffmanTree, countFrequencies, hnil, mergeLoop]
  exact ⟨EncodeLoop_error rt gob i hframe, rfl⟩

/-- C4 (malformed frame): a buffer that starts with a header declaring tree-size
`2 ^ 63 - 1`, far more than the bytes that follow, makes `make([]byte, header.TreeSize)` in
line 293 panic (`makeslice: len out of range`) in the first round; no error is returned. -/
theorem DecodeLargeFile_huge_treeSize_panics (rt : Runtime) (gob : Gob) (fuel : Nat)
    (rest : List Byte) :
    DecodeLargeFile rt gob (fuel + 1) (hugeTreeHeader ++ rest) = .error .makesliceLen ∧
      Failure.isPanic .makesliceLen = true ∧
      (getHeader hugeTreeHeader).TreeSize = 2 ^ 63 - 1 := by
  have hle := rt.maxAlloc_le
  have hr1 : readFull (hugeTreeHeader ++ rest) 17 = .ok (hugeTreeHeader, rest) :=
    readFull_append hugeTreeHeader rest
  have hh : getHeader hugeTreeHeader = ⟨9223372036854775807, 0, 0⟩ := by decide
  have h48 : (2 : Nat) ^ 48 = 281474976710656 := by norm_num
  have hms : makeSlice rt (getHeader ((hugeTreeHeader, rest) : List Byte × List Byte).1).TreeSize
      = .error .makesliceLen := by
    rw [hh]
    apply makeSlice_too_long
    simp only
    omega
  have hround := decodeRound_frame_error rt gob hr1
    (decodeFrame_makeSlice_error rt gob rest hms)
  refine ⟨DecodeLargeFile_error rt gob fuel hround, rfl, ?_⟩
  rw [hh]
  norm_num

/-- C5, as stated, fails: with target count 3 and an empty payload `decodeData` returns the
empty buffer and no error. For every runtime and every serializer that satisfies the
round-trip assumption, take the frame one pass assembles for `[0x61, 0x62]` and cut it after
the tree: the header declares data-size 2, the round of the decode loop finishes without
error with no byte unpacked, and the loop ends with the empty buffer, while the whole frame
gives the two bytes. -/
theorem short_payload_not_reported :
    decodeData [] twoLeafTree 3 = .ok [] ∧
    ∀ (rt : Runtime) (gob : Gob), gob.Inverts rt →
      ∃ tree payload,
        assembleFrame rt gob [97, 98] 0 =
          .ok (putHeader ⟨tree.length, 2, 0⟩ ++ tree ++ payload) ∧
        decodeRound rt gob (putHeader ⟨tree.length, 2, 0⟩ ++ tree ++ payload) =
          .ok (⟨tree.length, 2, 0⟩, [97, 98]) ∧
        decodeRound rt gob (putHeader ⟨tree.length, 2, 0⟩ ++ tree) =
          .ok (⟨tree.length, 2, 0⟩, []) ∧
        ∀ fuel, DecodeLargeFile rt gob (fuel + 1) (putHeader ⟨tree.length, 2, 0⟩ ++ tree) =
          .ok [] := by
  refine ⟨by decide, ?_⟩
  intro rt gob hinv
  obtain ⟨tree, payload, hframe, hfull, hcut⟩ :=
    assembleFrame_decodeRound_cut rt gob hinv [97, 98] 0 (by decide)
      ⟨97, by decide, 98, by decide, by decide⟩ (by norm_num) (by norm_num) (by norm_num)
  obtain ⟨decoded, hround, hlen⟩ := hcut []
  have hnil : decoded = [] := List.length_eq_zero.mp (by simpa using hlen)
  subst hnil
  rw [List.append_nil] at hround
  refine ⟨tree, payload, hframe, hfull, hround, ?_⟩
  intro fuel
  exact (DecodeLargeFile_succ rt gob fuel hround).trans rfl

/-- C5, amended: a round of the decode loop that finishes without error has unpacked at most
eight bytes for each byte behind the 17-byte header, whatever data-size the header declares.
On the frame a pass of `EncodeLoop` assembles from a byte buffer with two distinct values
the round finishes without error and unpacks exactly the buffer, data-size bytes. When the
payload of that frame is replaced by one too short for data-size symbols (fewer than
data-size / 8 bytes, as after a truncation), the round still finishes without error and
gives a buffer shorter than data-size. -/
theorem decodeRound_unpacked_count (rt : Runtime) (gob : Gob) :
    (∀ (buf decoded : List Byte) (header : FileHeader),
      decodeRound rt gob buf = .ok (header, decoded) →
        decoded.length ≤ 8 * (buf.length - 17)) ∧
    (gob.Inverts rt → ∀ (data : List Byte) (i : Int), IsBytes data → TwoValues data →
      data.length ≤ rt.maxAlloc → -128 ≤ i → i < 128 →
      ∃ tree payload,
        assembleFrame rt gob data i =
          .ok (putHeader ⟨tree.length, data.length, i⟩ ++ tree ++ payload) ∧
        decodeRound rt gob (putHeader ⟨tree.length, data.length, i⟩ ++ tree ++ payload) =
          .ok (⟨tree.length, data.length, i⟩, data) ∧
        ∀ cut : List Byte, 8 * cut.length < data.length →
          ∃ decoded,
            decodeRound rt gob (putHeader ⟨tree.length, data.length, i⟩ ++ tree ++ cut) =
              .ok (⟨tree.length, data.length, i⟩, decoded) ∧
            decoded.length < data.length) := by
  refine ⟨fun buf decoded header h => decodeRound_length rt gob h, ?_⟩
  intro hinv data i hbytes htwo hlen hi0 hi1
  have hmax := rt.maxAlloc_lt
  obtain ⟨tree, payload, hframe, hfull, hcut⟩ :=
    assembleFrame_decodeRound_cut rt gob hinv data i hbytes htwo (by omega) hi0 hi1
  refine ⟨tree, payload, hframe, hfull, ?_⟩
  intro cut hshort
  obtain ⟨decoded, hround, hlen'⟩ := hcut cut
  exact ⟨decoded, hround, by omega⟩

/-- Witness of the amended C5 on the frame of `[1, 2, 2, 3, 3, 3]`. -/
theorem decodeRound_unpacked_count_witness :
    (([1, 2, 2, 3, 3, 3] : List Byte).length ≤ 8 * (27 - 17)) ∧
    ∃ tree payload,
      assembleFrame stdRuntime specGob [1, 2, 2, 3, 3, 3] 0 =
        .ok (putHeader ⟨tree.length, ([1, 2, 2, 3, 3, 3] : List Byte).length, 0⟩ ++ tree ++
          payload) ∧
      decodeRound stdRuntime specGob
          (putHeader ⟨tree.length, ([1, 2, 2, 3, 3, 3] : List Byte).length, 0⟩ ++ tree ++
            payload) =
        .ok (⟨tree.length, ([1, 2, 2, 3, 3, 3] : List Byte).length, 0⟩, [1, 2, 2, 3, 3, 3]) ∧
      ∀ cut : List Byte, 8 * cut.length < ([1, 2, 2, 3, 3, 3] : List Byte).length →
        ∃ decoded,
          decodeRound stdRuntime specGob
              (putHeader ⟨tree.length, ([1, 2, 2, 3, 3, 3] : List Byte).length, 0⟩ ++ tree ++
                cut) =
            .ok (⟨tree.length, ([1, 2, 2, 3, 3, 3] : List Byte).length, 0⟩, decoded) ∧
          decoded.length < ([1, 2, 2, 3, 3, 3] : List Byte).length :=
  ⟨(decodeRound_unpacked_count stdRuntime specGob).1
      [8, 0, 0, 0, 0, 0, 0, 0, 6, 0, 0, 0, 0, 0, 0, 0, 0, 1, 0, 3, 1, 0, 1, 0, 2, 188, 0]
      [1, 2, 2, 3, 3, 3] ⟨8, 6, 0⟩ (by decide),
    (decodeRound_unpacked_count stdRuntime specGob).2 specGob_inverts [1, 2, 2, 3, 3, 3] 0
      (by decide) ⟨1, by decide, 2, by decide, by decide⟩ (by decide) (by decide) (by decide)⟩

/-- C6 (tree serialization round trip, for the serializer of the specification): every tree
`buildHuffmanTree` returns is serialized without error, the bytes are deserialized without
error, and the tree read back has the same `generateHuffmanCodes` table. -/
theorem tree_serialization_round_trip (rt : Runtime) (frequencies : List (Byte × Int))
    (t : HuffmanNode) (h : buildHuffmanTree rt frequencies = .ok t) :
    ∃ bs t', SerializeTree t = .ok bs ∧ DeserializeTree bs = .ok t' ∧
      generateHuffmanCodes t' = generateHuffmanCodes t := by
  obtain ⟨bs, hser, _, _, hparse⟩ := SerializeTree_spec t (buildHuffmanTree_proper rt h)
  refine ⟨bs, skeleton t, hser, ?_, generateHuffmanCodes_skeleton t⟩
  have hp := hparse bs.length [] (le_refl _)
  rw [List.append_nil] at hp
  simp only [DeserializeTree, hp]

/-- Witness of C6 on the frequency table of `[1, 2, 2, 3, 3, 3]`. -/
theorem tree_serialization_round_trip_witness :
    ∃ bs t',
      SerializeTree (.node 0 6 (.node 3 3 .nil .nil)
        (.node 0 3 (.node 1 1 .nil .nil) (.node 2 2 .nil .nil))) = .ok bs ∧
      DeserializeTree bs = .ok t' ∧
      generateHuffmanCodes t' = generateHuffmanCodes (.node 0 6 (.node 3 3 .nil .nil)
        (.node 0 3 (.node 1 1 .nil .nil) (.node 2 2 .nil .nil))) :=
  tree_serialization_round_trip stdRuntime [(1, 1), (2, 2), (3, 3)] _ (by decide)

/-- C7 (code prefix-freedom): for every non-empty buffer and every runtime, `BuildTree`
returns a tree, `generateHuffmanCodes` returns its table, and for two distinct byte values
in the table the code of the first is not a beginning of (and not equal to) the code of the
second. -/
theorem codes_have_no_common_beginning (rt : Runtime) (data : List Byte) (hne : data ≠ []) :
    ∃ root codes, BuildTree rt data = .ok root ∧ generateHuffmanCodes root = .ok codes ∧
      ∀ (a b : Byte) (ca cb : List Char), a ≠ b → codes.get? a = some ca →
        codes.get? b = some cb → ¬ ca <+: cb := by
  obtain ⟨root, hroot, hproper, _⟩ := BuildTree_spec rt hne
  obtain ⟨codes, hcodes, _, hpath⟩ := generateHuffmanCodes_spec hproper.tree_ne_nil
  refine ⟨root, codes, hroot, hcodes, ?_⟩
  intro a b ca cb hab ha hb hpre
  exact hab ((hpath a ca ha).eq_of_isPrefix (hpath b cb hb) hpre).2

/-- Witness of C7 on the buffer `[1, 2, 2, 3, 3, 3]`. -/
theorem codes_have_no_common_beginning_witness :
    ∃ root codes, BuildTree stdRuntime [1, 2, 2, 3, 3, 3] = .ok root ∧
      generateHuffmanCodes root = .ok codes ∧
      ∀ (a b : Byte) (ca cb : List Char), a ≠ b → codes.get? a = some ca →
        codes.get? b = some cb → ¬ ca <+: cb :=
  codes_have_no_common_beginning stdRuntime [1, 2, 2, 3, 3, 3] (by decide)

/-- C8 (compression terminates): `EncodeLoop` is a total function, defined by recursion on
`len(data)`. For a non-empty buffer `B` the merge loop of the tree builder ends with a tree;
the buffers of the successive calls of `EncodeLoop` get strictly shorter, so there are at
most `len(B)` recursive calls; and when the first frame is not strictly shorter than `B`,
there is no recursive call and `EncodeLoop` returns that frame. -/
theorem EncodeLoop_passes_shrink (rt : Runtime) (gob : Gob) (B : List Byte) (i : Int)
    (hne : B ≠ []) :
    (∃ root, BuildTree rt B = .ok root) ∧
    (encodeInputs rt gob B i).Chain' (fun a b => b.length < a.length) ∧
    (encodeInputs rt gob B i).length - 1 ≤ B.length ∧
    (∀ frame, assembleFrame rt gob B i = .ok frame → ¬ frame.length < B.length →
      encodeInputs rt gob B i = [B] ∧ EncodeLoop rt gob B i = .ok (frame, i)) := by
  obtain ⟨root, hroot, _⟩ := BuildTree_spec rt hne
  obtain ⟨_, hchain, hlen⟩ := encodeInputs_spec rt gob B.length B i (le_refl _)
  refine ⟨⟨root, hroot⟩, hchain, by omega, ?_⟩
  intro frame hframe hstop
  exact ⟨encodeInputs_stop rt gob i hframe hstop, EncodeLoop_stop rt gob i hframe hstop⟩

/-- Witness of C8 on the buffer `[0, 1]`, whose first frame has 23 bytes. -/
theorem EncodeLoop_passes_shrink_witness :
    encodeInputs stdRuntime specGob [0, 1] 0 = [[0, 1]] ∧
      EncodeLoop stdRuntime specGob [0, 1] 0 =
        .ok ([5, 0, 0, 0, 0, 0, 0, 0, 2, 0, 0, 0, 0, 0, 0, 0, 0, 1, 0, 0, 0, 1, 64], 0) :=
  (EncodeLoop_passes_shrink stdRuntime specGob [0, 1] 0 (by decide)).2.2.2 _
    (by decide) (by decide)

/-- The multi-pass invariant for a call that starts with pass counter 0. -/
theorem EncodeLoop_spec_zero (rt : Runtime) (gob : Gob) (hinv : gob.Inverts rt)
    (B : List Byte) (hbytes : IsBytes B) (htwo : TwoValues B) (hlen : B.length ≤ rt.maxAlloc) :
    ∃ out,
      (encodeFrames rt gob B 0).getLast? = some out ∧
      EncodeLoop rt gob B 0 =
        .ok (out, wrapInt8 (((encodeFrames rt gob B 0).length - 1 : Nat) : Int)) ∧
      (encodeFrames rt gob B 0).map passDepth =
        (List.range (encodeFrames rt gob B 0).length).map (fun (k : Nat) => wrapInt8 (k : Int)) ∧
      ((encodeFrames rt gob B 0).length ≤ 256 →
        (∀ fuel, DecodeLargeFile rt gob ((encodeFrames rt gob B 0).length + fuel) out = .ok B) ∧
        (∀ fuel, decodeBuffers rt gob ((encodeFrames rt gob B 0).length + fuel) out =
          (encodeFrames rt gob B 0).reverse)) := by
  have h := EncodeLoop_spec rt gob hinv B.length B 0 (le_refl _) hbytes htwo hlen
  have hw : wrapInt8 ((0 : Nat) : Int) = 0 := by decide
  rw [hw] at h
  simpa only [Nat.zero_add, if_true, List.append_nil] using h

/-- C9 (pass-depth symmetry): for a byte buffer with two distinct values on which
`EncodeLoop(B, 0)` makes fewer than 128 passes, the decode loop makes exactly as many rounds
as there were passes, on the frames of the passes in reverse order; the pass-depth field of
the frame of each round is the number of rounds still to come, so the last one has
pass-depth 0; and the loop ends with `B`. -/
theorem passDepth_counts_remaining_rounds (rt : Runtime) (gob : Gob) (hinv : gob.Inverts rt)
    (B : List Byte) (hbytes : IsBytes B) (htwo : TwoValues B) (hlen : B.length ≤ rt.maxAlloc)
    (hpass : (encodeFrames rt gob B 0).length < 128) :
    ∃ out i', EncodeLoop rt gob B 0 = .ok (out, i') ∧ ∀ fuel,
      decodeBuffers rt gob ((encodeFrames rt gob B 0).length + fuel) out =
        (encodeFrames rt gob B 0).reverse ∧
      (decodeBuffers rt gob ((encodeFrames rt gob B 0).length + fuel) out).map passDepth =
        ((List.range (encodeFrames rt gob B 0).length).map (fun (k : Nat) => (k : Int))).reverse ∧
      DecodeLargeFile rt gob ((encodeFrames rt gob B 0).length + fuel) out = .ok B := by
  obtain ⟨out, _, henc, hdepth, hdec⟩ := EncodeLoop_spec_zero rt gob hinv B hbytes htwo hlen
  obtain ⟨hd1, hd2⟩ := hdec (by omega)
  refine ⟨out, _, henc, fun fuel => ⟨hd2 fuel, ?_, hd1 fuel⟩⟩
  rw [hd2 fuel, List.map_reverse, hdepth]
  congr 1
  apply List.map_congr_left
  intro k hk
  have hk' := List.mem_range.mp hk
  simp only [wrapInt8]
  omega

/-- Witness of C9 on the buffer `twoPassInput`, which takes two passes. -/
theorem passDepth_counts_remaining_rounds_witness :
    ∃ out i', EncodeLoop stdRuntime specGob twoPassInput 0 = .ok (out, i') ∧ ∀ fuel,
      decodeBuffers stdRuntime specGob
          ((encodeFrames stdRuntime specGob twoPassInput 0).length + fuel) out =
        (encodeFrames stdRuntime specGob twoPassInput 0).reverse ∧
      (decodeBuffers stdRuntime specGob
          ((encodeFrames stdRuntime specGob twoPassInput 0).length + fuel) out).map passDepth =
        ((List.range (encodeFrames stdRuntime specGob twoPassInput 0).length).map
          (fun (k : Nat) => (k : Int))).reverse ∧
      DecodeLargeFile stdRuntime specGob
          ((encodeFrames stdRuntime specGob twoPassInput 0).length + fuel) out =
        .ok twoPassInput :=
  passDepth_counts_remaining_rounds stdRuntime specGob specGob_inverts twoPassInput
    (by decide) ⟨0, by decide, 1, by decide, by decide⟩ (by decide)
    (by
      have h0 : assembleFrame stdRuntime specGob twoPassInput 0 = .ok twoPassFrame0 := by
        decide
      have h1 : assembleFrame stdRuntime specGob twoPassFrame0 (wrapInt8 (0 + 1)) =
          .ok twoPassFrame1 := by decide
      rw [encodeFrames_shrink stdRuntime specGob 0 h0 (by decide),
        encodeFrames_stop stdRuntime specGob _ h1 (by decide)]
      decide)

/-- C10, as stated, fails, whatever the serializer. On the buffer `[0, 1]` the first pass
does not shrink (its frame has at least 17 bytes), and `EncodeLoop` returns that frame, not
the buffer that was the input of the non-shrinking pass; a serializer with the round-trip
assumption does give such a frame. And when the first pass shrinks and the second does not,
`EncodeLoop` returns the second frame, whose pass-depth byte is 1, not the previous frame,
whose pass-depth byte is 0. -/
theorem EncodeLoop_emits_last_frame :
    (∀ (rt : Runtime) (gob : Gob) (frame : List Byte),
      assembleFrame rt gob [0, 1] 0 = .ok frame →
        EncodeLoop rt gob [0, 1] 0 = .ok (frame, 0) ∧ 17 ≤ frame.length ∧ frame ≠ [0, 1]) ∧
    (∀ (rt : Runtime) (gob : Gob), gob.Inverts rt →
      ∃ frame, assembleFrame rt gob [0, 1] 0 = .ok frame) ∧
    (∀ (rt : Runtime) (gob : Gob) (data f1 f2 : List Byte),
      assembleFrame rt gob data 0 = .ok f1 → f1.length < data.length →
      assembleFrame rt gob f1 1 = .ok f2 → ¬ f2.length < f1.length →
        EncodeLoop rt gob data 0 = .ok (f2, 1) ∧ f2 ≠ f1 ∧
          f1.getD 16 0 = 0 ∧ f2.getD 16 0 = 1) := by
  refine ⟨?_, ?_, ?_⟩
  · intro rt gob frame h
    have hlen := assembleFrame_length_ge rt gob h
    refine ⟨EncodeLoop_stop rt gob 0 h (by simp only [List.length_cons, List.length_nil]; omega),
      hlen, ?_⟩
    intro he
    rw [he] at hlen
    simp at hlen
  · intro rt gob hinv
    obtain ⟨tree, payload, hframe, _⟩ :=
      assembleFrame_decodeRound_cut rt gob hinv [0, 1] 0 (by decide)
        ⟨0, by decide, 1, by decide, by decide⟩ (by norm_num) (by norm_num) (by norm_num)
    exact ⟨_, hframe⟩
  · intro rt gob data f1 f2 h1 hlt h2 hstop
    have hw : wrapInt8 (0 + 1) = 1 := by decide
    have hb1 : f1.getD 16 0 = 0 := by
      rw [assembleFrame_depth_byte rt gob h1]
      decide
    have hb2 : f2.getD 16 0 = 1 := by
      rw [assembleFrame_depth_byte rt gob h2]
      decide
    refine ⟨?_, ?_, hb1, hb2⟩
    · rw [EncodeLoop_shrink rt gob 0 h1 hlt, hw]
      exact EncodeLoop_stop rt gob 1 h2 hstop
    · intro he
      rw [he, hb1] at hb2
      exact absurd hb2 (by decide)

/-- C10, amended: when the frame a pass assembles is strictly shorter than its input, the
frame is the input of the next pass, with the pass counter incremented (as an `int8`);
otherwise `EncodeLoop` stops and returns that frame itself, which is at least as long as the
input of the pass. So whatever `EncodeLoop` returns is the last frame it assembled. -/
theorem EncodeLoop_stop_rule (rt : Runtime) (gob : Gob) (data frame : List Byte) (i : Int)
    (h : assembleFrame rt gob data i = .ok frame) :
    (frame.length < data.length →
      EncodeLoop rt gob data i = EncodeLoop rt gob frame (wrapInt8 (i + 1))) ∧
    (¬ frame.length < data.length →
      EncodeLoop rt gob data i = .ok (frame, i) ∧ data.length ≤ frame.length) ∧
    (∀ out i', EncodeLoop rt gob data i = .ok (out, i') →
      (encodeFrames rt gob data i).getLast? = some out) := by
  refine ⟨fun hlt => EncodeLoop_shrink rt gob i h hlt, fun hlt => ?_, fun out i' hout => ?_⟩
  · exact ⟨EncodeLoop_stop rt gob i h hlt, by omega⟩
  · exact EncodeLoop_output_last rt gob data.length data i out i' (le_refl _) hout

/-- Witness of the amended C10 on the buffer `[0, 1]`, whose only pass does not shrink. -/
theorem EncodeLoop_stop_rule_witness :
    EncodeLoop stdRuntime specGob [0, 1] 0 =
        .ok ([5, 0, 0, 0, 0, 0, 0, 0, 2, 0, 0, 0, 0, 0, 0, 0, 0, 1, 0, 0, 0, 1, 64], 0) ∧
      ([0, 1] : List Byte).length ≤
        ([5, 0, 0, 0, 0, 0, 0, 0, 2, 0, 0, 0, 0, 0, 0, 0, 0, 1, 0, 0, 0, 1, 64] :
          List Byte).length :=
  (EncodeLoop_stop_rule stdRuntime specGob [0, 1] _ 0 (by decide)).2.1 (by decide)

/-- Multi-pass round trip while the pass counter does not wrap: for every byte buffer `B`
with at least two distinct values, every runtime (so every tree the builder may return) and
every serializer that satisfies the round-trip assumption, provided `EncodeLoop(B, 0)` makes
at most 256 passes, `EncodeLoop` returns a buffer and the decode loop, given a budget of at
least as many rounds as there were passes, ends without error with exactly `B`. With more
passes the `int8` counter is back at 0 in the header of pass 257, where the loop would stop. -/
theorem round_trip_of_bounded_passes (rt : Runtime) (gob : Gob) (hinv : gob.Inverts rt)
    (B : List Byte) (hbytes : IsBytes B) (htwo : TwoValues B) (hlen : B.length ≤ rt.maxAlloc)
    (hpass : (encodeFrames rt gob B 0).length ≤ 256) :
    ∃ out i', EncodeLoop rt gob B 0 = .ok (out, i') ∧
      ∀ fuel, (encodeFrames rt gob B 0).length ≤ fuel →
        DecodeLargeFile rt gob fuel out = .ok B := by
  obtain ⟨out, _, henc, _, hdec⟩ := EncodeLoop_spec_zero rt gob hinv B hbytes htwo hlen
  refine ⟨out, _, henc, fun fuel hfuel => ?_⟩
  have h := (hdec hpass).1 (fuel - (encodeFrames rt gob B 0).length)
  rwa [Nat.add_sub_cancel' hfuel] at h

/-- The multi-pass round trip on the buffer `[1, 2, 2, 3, 3, 3]`. -/
theorem round_trip_of_bounded_passes_witness :
    ∃ out i', EncodeLoop stdRuntime specGob [1, 2, 2, 3, 3, 3] 0 = .ok (out, i') ∧
      ∀ fuel, (encodeFrames stdRuntime specGob [1, 2, 2, 3, 3, 3] 0).length ≤ fuel →
        DecodeLargeFile stdRuntime specGob fuel out = .ok [1, 2, 2, 3, 3, 3] :=
  round_trip_of_bounded_passes stdRuntime specGob specGob_inverts [1, 2, 2, 3, 3, 3]
    (by decide) ⟨1, by decide, 2, by decide, by decide⟩ (by decide)
    (by
      have h0 : assembleFrame stdRuntime specGob [1, 2, 2, 3, 3, 3] 0 =
          .ok [8, 0, 0, 0, 0, 0, 0, 0, 6, 0, 0, 0, 0, 0, 0, 0, 0, 1, 0, 3, 1, 0, 1, 0, 2,
            188, 0] := by decide
      rw [encodeFrames_stop stdRuntime specGob 0 h0 (by decide)]
      decide)

/-! ## The claims on frames, decoding, the tree and the code table -/

/-- C11 (frame layout): for a buffer with two distinct byte values, one pass builds a tree
and packs a payload, and with the bytes `tree` the serializer gives for that tree the frame
is the 17-byte header, then `tree`, then the payload. The header is tree-size `len(tree)`
and data-size `len(data)` as 8 little-endian bytes each and pass-depth as one byte. The
read of 17 bytes, `getHeader`, `make` and the second read recover the three fields and split
the rest into `tree` and the payload; so one round of the decode loop on the frame hands
exactly `tree` to the deserializer and exactly the payload, with target count `len(data)`,
to `decodeData`, and reports the three fields as its header. With a serializer that
satisfies the round-trip assumption the round gives `data` back, and the decode loop ends
with `data` when the pass-depth is 0 and goes on with `data` otherwise. -/
theorem assembleFrame_layout (rt : Runtime) (gob : Gob) (data : List Byte) (i : Int)
    (htwo : TwoValues data) (hlen : data.length ≤ rt.maxAlloc)
    (hi0 : -128 ≤ i) (hi1 : i < 128) :
    ∃ root payload, BuildTree rt data = .ok root ∧ Encode root data = .ok payload ∧
      ∀ tree, gob.encode root = .ok tree → tree.length ≤ rt.maxAlloc →
        assembleFrame rt gob data i =
          .ok (putHeader ⟨tree.length, data.length, i⟩ ++ tree ++ payload) ∧
        putHeader ⟨tree.length, data.length, i⟩ =
          (List.range 8).map (fun k => (tree.length / 256 ^ k) % 256) ++
            (List.range 8).map (fun k => (data.length / 256 ^ k) % 256) ++ [((i : Int) % 256).toNat] ∧
        (putHeader ⟨tree.length, data.length, i⟩).length = 17 ∧
        readFull (putHeader ⟨tree.length, data.length, i⟩ ++ tree ++ payload) 17 =
          .ok (putHeader ⟨tree.length, data.length, i⟩, tree ++ payload) ∧
        getHeader (putHeader ⟨tree.length, data.length, i⟩) =
          ⟨tree.length, data.length, i⟩ ∧
        makeSlice rt (getHeader (putHeader ⟨tree.length, data.length, i⟩)).TreeSize =
          .ok tree.length ∧
        readFull (tree ++ payload) tree.length = .ok (tree, payload) ∧
        decodeRound rt gob (putHeader ⟨tree.length, data.length, i⟩ ++ tree ++ payload) =
          (match gob.decode tree with
          | .error e => .error e
          | .ok t =>
            match decodeData payload t (data.length : Int) with
            | .error e => .error e
            | .ok decoded => .ok (⟨tree.length, data.length, i⟩, decoded)) ∧
        (gob.Inverts rt → IsBytes data →
          decodeRound rt gob (putHeader ⟨tree.length, data.length, i⟩ ++ tree ++ payload) =
            .ok (⟨tree.length, data.length, i⟩, data) ∧
          ∀ fuel, DecodeLargeFile rt gob (fuel + 1)
              (putHeader ⟨tree.length, data.length, i⟩ ++ tree ++ payload) =
            if (i : Int) = 0 then .ok data else DecodeLargeFile rt gob fuel data) := by
  have hmax := rt.maxAlloc_lt
  obtain ⟨root, hroot, hproper, hleaves, hleaf, _⟩ := BuildTree_spec rt htwo.data_ne_nil
  have hnl : root.isLeaf = false := hleaf htwo
  obtain ⟨codes, hcodes, hget, _⟩ := generateHuffmanCodes_spec hproper.tree_ne_nil
  have hpath : ∀ s ∈ data, PathTo root (codes.get s) s := by
    intro s hs
    obtain ⟨p, hp, hpath⟩ := hget s ((hleaves s).2 hs)
    simpa [CodeMap.get, hp] using hpath
  have hbits : IsBits (codeString data codes) :=
    isBits_flatMap (fun s hs => (hpath s hs).isBits)
  have hw2 : wrapInt64 (data.length : Int) = data.length := wrapInt64_eq (by omega) (by omega)
  have henc : Encode root data = .ok (packSpec (codeString data codes)) := by
    simp only [Encode, hcodes, compressData, StringToByteArray_eq hbits]
  refine ⟨root, packSpec (codeString data codes), hroot, henc, ?_⟩
  intro tree htree hbl
  have hw1 : wrapInt64 (tree.length : Int) = tree.length := wrapInt64_eq (by omega) (by omega)
  have hh : getHeader (putHeader ⟨tree.length, data.length, i⟩) =
      ⟨tree.length, data.length, i⟩ :=
    getHeader_putHeader (by simp only; omega) (by simp only; omega) (by simp only; omega)
      (by simp only; omega) hi0 hi1
  have h64 : (2 : Nat) ^ 63 < 2 ^ 64 := by norm_num
  have hdn : data.length < 2 ^ 63 := by omega
  refine ⟨?_, ?_, putHeader_length _, ?_, hh, ?_, readFull_append tree _,
    decodeRound_layout rt gob _ hbl hdn hi0 hi1, ?_⟩
  · simp only [assembleFrame, hroot, henc, htree, hw1, hw2]
  · unfold putHeader
    rw [putInt64LE_natCast (by omega), putInt64LE_natCast (by omega)]
    rfl
  · have hr1 := readFull_append (putHeader ⟨tree.length, data.length, i⟩)
      (tree ++ packSpec (codeString data codes))
    rw [putHeader_length] at hr1
    rw [List.append_assoc]
    exact hr1
  · rw [hh]
    exact makeSlice_natCast rt hbl
  · intro hinv hbytes
    obtain ⟨bs, t', henc', _, _, hdec, hsk⟩ := hinv root (BuildTree_byteTree rt hbytes hroot)
    have hbs : bs = tree := Except.ok.inj (henc'.symm.trans htree)
    subst hbs
    have hdd : decodeData (packSpec (codeString data codes)) t' (data.length : Int) =
        .ok data :=
      decodeData_packSpec (by rw [isLeaf_transfer hsk]; exact hnl) data htwo.data_ne_nil
        (by omega) (fun s hs => (hpath s hs).transfer hsk)
    have hround := decodeRound_frame rt gob hbl hdn hi0 hi1 hdec hdd
    exact ⟨hround, fun fuel => DecodeLargeFile_succ rt gob fuel hround⟩

/-- Witness of C11 on the buffer `[0, 1]` with pass counter 0. -/
theorem assembleFrame_layout_witness :
    ∃ root payload, BuildTree stdRuntime ([0, 1] : List Byte) = .ok root ∧ Encode root ([0, 1] : List Byte) = .ok payload ∧
      ∀ tree, specGob.encode root = .ok tree → tree.length ≤ stdRuntime.maxAlloc →
        assembleFrame stdRuntime specGob ([0, 1] : List Byte) 0 =
          .ok (putHeader ⟨tree.length, ([0, 1] : List Byte).length, 0⟩ ++ tree ++ payload) ∧
        putHeader ⟨tree.length, ([0, 1] : List Byte).length, 0⟩ =
          (List.range 8).map (fun k => (tree.length / 256 ^ k) % 256) ++
            (List.range 8).map (fun k => (([0, 1] : List Byte).length / 256 ^ k) % 256) ++ [((0 : Int) % 256).toNat] ∧
        (putHeader ⟨tree.length, ([0, 1] : List Byte).length, 0⟩).length = 17 ∧
        readFull (putHeader ⟨tree.length, ([0, 1] : List Byte).length, 0⟩ ++ tree ++ payload) 17 =
          .ok (putHeader ⟨tree.length, ([0, 1] : List Byte).length, 0⟩, tree ++ payload) ∧
        getHeader (putHeader ⟨tree.length, ([0, 1] : List Byte).length, 0⟩) =
          ⟨tree.length, ([0, 1] : List Byte).length, 0⟩ ∧
        makeSlice stdRuntime (getHeader (putHeader ⟨tree.length, ([0, 1] : List Byte).length, 0⟩)).TreeSize =
          .ok tree.length ∧
        readFull (tree ++ payload) tree.length = .ok (tree, payload) ∧
        decodeRound stdRuntime specGob (putHeader ⟨tree.length, ([0, 1] : List Byte).length, 0⟩ ++ tree ++ payload) =
          (match specGob.decode tree with
          | .error e => .error e
          | .ok t =>
            match decodeData payload t (([0, 1] : List Byte).length : Int) with
            | .error e => .error e
            | .ok decoded => .ok (⟨tree.length, ([0, 1] : List Byte).length, 0⟩, decoded)) ∧
        (specGob.Inverts stdRuntime → IsBytes ([0, 1] : List Byte) →
          decodeRound stdRuntime specGob (putHeader ⟨tree.length, ([0, 1] : List Byte).length, 0⟩ ++ tree ++ payload) =
            .ok (⟨tree.length, ([0, 1] : List Byte).length, 0⟩, ([0, 1] : List Byte)) ∧
          ∀ fuel, DecodeLargeFile stdRuntime specGob (fuel + 1)
              (putHeader ⟨tree.length, ([0, 1] : List Byte).length, 0⟩ ++ tree ++ payload) =
            if (0 : Int) = 0 then .ok ([0, 1] : List Byte) else DecodeLargeFile stdRuntime specGob fuel ([0, 1] : List Byte)) :=
  assembleFrame_layout stdRuntime specGob [0, 1] 0 ⟨0, by decide, 1, by decide, by decide⟩
    (by decide) (by decide) (by decide)

/-- C12 (single-pass inverse): for a tree in which every node has no child or two children
and whose root is not a leaf, and a buffer `D` whose bytes are all leaf values of the tree,
the code table is generated, `compressData` packs `D`, and `decodeData` on the packed bytes
with target count `len(D)` returns exactly `D`: the padding bits of the last byte give no
further symbol. Distinct leaf values are not needed for this. -/
theorem decodeData_compressData (root : HuffmanNode) (D : List Byte)
    (hproper : Proper root) (hroot : root.isLeaf = false)
    (hD : ∀ b ∈ D, b ∈ leafValues root) (hlen : (D.length : Int) < 2 ^ 63) :
    ∃ codes packed, generateHuffmanCodes root = .ok codes ∧
      compressData D codes = .ok packed ∧ decodeData packed root D.length = .ok D := by
  obtain ⟨codes, hcodes, hget, _⟩ := generateHuffmanCodes_spec hproper.tree_ne_nil
  have hpath : ∀ s ∈ D, PathTo root (codes.get s) s := by
    intro s hs
    obtain ⟨p, hp, hpath⟩ := hget s (hD s hs)
    simpa [CodeMap.get, hp] using hpath
  have hbits : IsBits (codeString D codes) :=
    isBits_flatMap (fun s hs => (hpath s hs).isBits)
  refine ⟨codes, packSpec (codeString D codes), hcodes, ?_, ?_⟩
  · simp only [compressData, StringToByteArray_eq hbits]
  · by_cases hne : D = []
    · subst hne
      simp [codeString, packSpec_nil, decodeData, decodeBytes]
    · exact decodeData_packSpec hroot D hne hlen hpath

/-- Witness of C12 on `twoLeafTree` and the buffer `[0x61, 0x62, 0x62]`. -/
theorem decodeData_compressData_witness :
    ∃ codes packed, generateHuffmanCodes twoLeafTree = .ok codes ∧
      compressData [97, 98, 98] codes = .ok packed ∧
      decodeData packed twoLeafTree ([97, 98, 98] : List Byte).length = .ok [97, 98, 98] :=
  decodeData_compressData twoLeafTree [97, 98, 98]
    (Or.inr ⟨Or.inl ⟨rfl, rfl⟩, Or.inl ⟨rfl, rfl⟩⟩) rfl (by decide) (by decide)

/-- C13 (decoding stops at the target count): the `break` of line 346 leaves only the loop
over the bits of one byte. With target count 1 and two bytes `0x00`, the first symbol is
decoded from the first bit, the rest of the first byte is skipped, and the second byte gives
eight more symbols; with target count 0 the counter is never equal to the target and every
bit is decoded. The file written for `[0x61, 0x62]` followed by one more byte `0x00` decodes
to ten bytes although its header declares data-size 2. -/
theorem decodeData_passes_target_count :
    decodeData [0, 0] twoLeafTree 1 = .ok [97, 97, 97, 97, 97, 97, 97, 97, 97] ∧
    decodeData [0] twoLeafTree 0 = .ok [97, 97, 97, 97, 97, 97, 97, 97] ∧
    EncodeLoop stdRuntime specGob [97, 98] 0 = .ok (abFrame, 0) ∧
    (getHeader (abFrame.take 17)).DataSize = 2 ∧
    DecodeLargeFile stdRuntime specGob 1 (abFrame ++ [0]) =
      .ok [97, 98, 97, 97, 97, 97, 97, 97, 97, 97] := by
  have h0 : assembleFrame stdRuntime specGob [97, 98] 0 = .ok abFrame := by decide
  refine ⟨by decide, by decide, ?_, by decide, by decide⟩
  exact EncodeLoop_stop stdRuntime specGob 0 h0 (by decide)

/-- C14, as stated, fails: the byte 7 has no code in the table of `twoLeafTree`, yet
`Encode` returns a packed buffer for `[0x61, 7, 0x62]`, the one it returns for
`[0x61, 0x62]`; and `compressData` with an empty table packs `[7]` into the empty buffer. -/
theorem Encode_missing_code_not_reported :
    generateHuffmanCodes twoLeafTree = .ok [(97, ['0']), (98, ['1'])] ∧
    Encode twoLeafTree [97, 7, 98] = .ok [64] ∧
    Encode twoLeafTree [97, 98] = .ok [64] ∧
    compressData [7] [] = .ok [] := by
  decide

/-- C14, amended: a byte of the buffer that has no entry in the code table contributes the
empty string (`codes[b]` of line 104), so with a table of bit strings packing returns a
buffer without error, the same buffer as for the input with those bytes left out. -/
theorem compressData_skips_missing (data : List Byte) (codes : CodeMap)
    (hbits : ∀ k p, codes.get? k = some p → IsBits p) :
    ∃ packed, compressData data codes = .ok packed ∧
      compressData (data.filter (fun b => (codes.get? b).isSome)) codes = .ok packed := by
  have hcode : ∀ s, IsBits (codes.get s) := by
    intro s
    unfold CodeMap.get
    cases h : codes.get? s with
    | none => intro c hc; simp at hc
    | some p => exact hbits s p h
  have heq : codeString (data.filter (fun b => (codes.get? b).isSome)) codes =
      codeString data codes := by
    unfold codeString
    induction data with
    | nil => rfl
    | cons b rest ih =>
      cases h : codes.get? b with
      | none =>
        rw [List.filter_cons_of_neg (by simp [h]), List.flatMap_cons, ih]
        simp [CodeMap.get, h]
      | some p =>
        rw [List.filter_cons_of_pos (by simp [h]), List.flatMap_cons, List.flatMap_cons, ih]
  have hb : IsBits (codeString data codes) := isBits_flatMap (fun s _ => hcode s)
  refine ⟨packSpec (codeString data codes), ?_, ?_⟩
  · simp only [compressData, StringToByteArray_eq hb]
  · simp only [compressData, heq, StringToByteArray_eq hb]

/-- Witness of the amended C14 on the table of `twoLeafTree`. -/
theorem compressData_skips_missing_witness :
    ∃ packed, compressData [97, 7, 98] [(97, ['0']), (98, ['1'])] = .ok packed ∧
      compressData ([97, 7, 98].filter
        (fun b => (CodeMap.get? [(97, ['0']), (98, ['1'])] b).isSome))
        [(97, ['0']), (98, ['1'])] = .ok packed :=
  compressData_skips_missing [97, 7, 98] [(97, ['0']), (98, ['1'])] (by
    intro k p h
    simp only [CodeMap.get?] at h
    split at h
    · cases h; intro c hc; simp at hc; exact Or.inl hc
    · split at h
      · cases h; intro c hc; simp at hc; exact Or.inr hc
      · cases h)

/-- C15 (invalid stream): when the bit-walk of `decodeData` steps onto a missing child, the
test `node.LeftChild == nil` of line 340 dereferences `nil` and the program stops with a
run-time panic; no error is returned. This happens on every non-empty payload under a
single-leaf root, on a node with one child, and in the decode loop on the file written for
`[0x41, 0x41, 0x41]` followed by one more byte, for every runtime and every serializer that
satisfies the round-trip assumption. -/
theorem decodeData_missing_child_panics (rt : Runtime) (gob : Gob) (hinv : gob.Inverts rt) :
    (∀ (v : Byte) (f : Int) (b : Byte) (rest : List Byte) (size : Int),
      decodeData (b :: rest) (.node v f .nil .nil) size = .error .nilDereference) ∧
    decodeData [128] (.node 0 1 (.node 1 1 .nil .nil) .nil) 1 = .error .nilDereference ∧
    Failure.isPanic .nilDereference = true ∧ Failure.isError .nilDereference = false ∧
    ∃ out, EncodeLoop rt gob [65, 65, 65] 0 = .ok (out, 0) ∧
      ∀ (fuel : Nat) (b : Byte),
        DecodeLargeFile rt gob (fuel + 1) (out ++ [b]) = .error .nilDereference := by
  refine ⟨decodeData_leaf_root, by decide, rfl, rfl, ?_⟩
  have hmax := rt.maxAlloc_lt
  have hbt := BuildTree_single rt
  have hbyte : ByteTree (.node 65 3 .nil .nil) := by
    refine ⟨Or.inl ⟨rfl, rfl⟩, ?_, ?_⟩
    · intro b hb
      simp only [leafValues, and_self, if_true, List.mem_singleton] at hb
      rw [hb]
      norm_num
    · simp [leafValues]
  obtain ⟨bs, t', henc, _, hbl, hdec, hsk⟩ := hinv _ hbyte
  have hEnc : Encode (.node 65 3 .nil .nil) [65, 65, 65] = .ok [] := by decide
  have hw1 : wrapInt64 (bs.length : Int) = bs.length := wrapInt64_eq (by omega) (by omega)
  have hw2 : wrapInt64 (([65, 65, 65] : List Byte).length : Int) = (3 : Nat) := by decide
  have hframe : assembleFrame rt gob [65, 65, 65] 0 =
      .ok (putHeader ⟨bs.length, (3 : Nat), 0⟩ ++ bs ++ []) := by
    simp only [assembleFrame, hbt, hEnc, henc, hw1, hw2]
  have hstop : ¬ (putHeader ⟨bs.length, (3 : Nat), 0⟩ ++ bs ++ []).length <
      ([65, 65, 65] : List Byte).length := by
    simp only [List.length_append, putHeader_length, List.length_cons, List.length_nil]
    omega
  refine ⟨_, EncodeLoop_stop rt gob 0 hframe hstop, ?_⟩
  intro fuel b
  obtain ⟨v, f, rfl⟩ : ∃ v f, t' = .node v f .nil .nil := by
    cases t' with
    | nil => simp [skeleton] at hsk
    | node v f l r =>
      simp only [skeleton, HuffmanNode.node.injEq, skeleton_eq_nil] at hsk
      obtain ⟨_, _, hl, hr⟩ := hsk
      exact ⟨v, f, by rw [hl, hr]⟩
  have hdd : decodeData [b] (.node v f .nil .nil) ((3 : Nat) : Int) =
      .error .nilDereference := decodeData_leaf_root v f b [] _
  have hround := decodeRound_frame_fails rt gob (i := 0) hbl (by norm_num) (by norm_num)
    (by norm_num) hdec hdd
  rw [List.append_nil]
  exact DecodeLargeFile_error rt gob fuel hround

/-- Witness of C15 with the standard runtime and the serializer of the specification. -/
theorem decodeData_missing_child_panics_witness :
    ∃ out, EncodeLoop stdRuntime specGob [65, 65, 65] 0 = .ok (out, 0) ∧
      ∀ (fuel : Nat) (b : Byte),
        DecodeLargeFile stdRuntime specGob (fuel + 1) (out ++ [b]) =
          .error .nilDereference :=
  (decodeData_missing_child_panics stdRuntime specGob specGob_inverts).2.2.2.2

/-- C16 (tree well-formedness): for a non-empty buffer `D` and every runtime, `BuildTree`
returns a tree in which every node has no child or two children and every node with
children carries the sum of the frequencies of its two children; its leaves, with their
frequencies, are a rearrangement of the distinct byte values of `D`, each with its number of
occurrences; the frequency of the root is `len(D)`; and when `D` holds one distinct value
the tree is the single leaf with that value and frequency `len(D)`. -/
theorem BuildTree_wellFormed (rt : Runtime) (D : List Byte) (hne : D ≠ [])
    (hlen : D.length < 2 ^ 63) :
    ∃ root, BuildTree rt D = .ok root ∧ Proper root ∧ SumsOK root ∧
      (leafEntries root).Perm (D.dedup.map (fun v => (v, (D.count v : Int)))) ∧
      root.freq = D.length ∧
      ∀ v, (∀ b ∈ D, b = v) → root = .node v D.length .nil .nil := by
  have hlen' : (D.length : Int) < 2 ^ 63 := by exact_mod_cast hlen
  have hp1 := rt.mapRange_perm (countFrequencies D)
  have hp2 := countFrequencies_perm hlen'
  obtain ⟨d, hd⟩ := List.exists_mem_of_ne_nil D hne
  have hnn : (rt.mapRange (countFrequencies D)).map
      (fun e => HuffmanNode.node e.1 e.2 .nil .nil) ≠ [] := by
    have h1 : (d, (D.count d : Int)) ∈ rt.mapRange (countFrequencies D) :=
      hp1.mem_iff.2 ((mem_countFrequencies hlen' d _).2 ⟨hd, rfl⟩)
    exact List.ne_nil_of_mem (List.mem_map_of_mem _ h1)
  obtain ⟨root, hml, hproper, _⟩ := mergeLoop_spec rt
    ((rt.mapRange (countFrequencies D)).map
      (fun e => HuffmanNode.node e.1 e.2 .nil .nil)).length
    ((rt.mapRange (countFrequencies D)).map (fun e => HuffmanNode.node e.1 e.2 .nil .nil))
    (by omega) hnn
    (by
      intro n hn
      obtain ⟨e, _, rfl⟩ := List.mem_map.mp hn
      exact Or.inl ⟨rfl, rfl⟩)
  have hfreq : ((rt.mapRange (countFrequencies D)).map
      (fun e => HuffmanNode.node e.1 e.2 .nil .nil)).map HuffmanNode.freq =
      (rt.mapRange (countFrequencies D)).map Prod.snd := by
    rw [List.map_map]
    rfl
  have hsum : (((rt.mapRange (countFrequencies D)).map
      (fun e => HuffmanNode.node e.1 e.2 .nil .nil)).map HuffmanNode.freq).sum =
      (D.length : Int) := by
    rw [hfreq, ((hp1.trans hp2).map Prod.snd).sum_eq, sum_count_dedup]
  obtain ⟨hs1, hs2, hs3⟩ := mergeLoop_sums rt _ _ root hml
    (by
      intro n hn
      obtain ⟨e, he, rfl⟩ := List.mem_map.mp hn
      refine ⟨by simp, Or.inl ⟨rfl, rfl⟩, ?_⟩
      obtain ⟨k, c⟩ := e
      have := ((mem_countFrequencies hlen' k c).1 (hp1.mem_iff.1 he)).2
      show 0 ≤ c
      rw [this]
      exact Int.natCast_nonneg _)
    (by rw [hsum]; exact hlen')
  rw [flatMap_leafEntries_leaves] at hs3
  have hentries := hs3.trans (hp1.trans hp2)
  refine ⟨root, ?_, hproper, hs1, hentries, by rw [hs2, hsum], ?_⟩
  · simp only [BuildTree, buildHuffmanTree, hml]
  · intro v hv
    have hdd : D.dedup = [v] := by
      have hmem : ∀ x, x ∈ D.dedup ↔ x ∈ [v] := by
        intro x
        rw [List.mem_dedup, List.mem_singleton]
        refine ⟨hv x, ?_⟩
        rintro rfl
        rw [← hv d hd]
        exact hd
      exact (List.perm_ext_iff_of_nodup (List.nodup_dedup D) (List.nodup_singleton v)).2 hmem
        |> List.perm_singleton.mp
    have hcount : D.count v = D.length := List.count_eq_length.2 (fun b hb => (hv b hb).symm)
    rw [hdd, List.map_singleton, hcount] at hentries
    exact hproper.eq_leaf_of_entries (List.perm_singleton.mp hentries)

/-- Witness of C16 on the buffer `[1, 2, 2, 3, 3, 3]`. -/
theorem BuildTree_wellFormed_witness :
    ∃ root, BuildTree stdRuntime [1, 2, 2, 3, 3, 3] = .ok root ∧ Proper root ∧ SumsOK root ∧
      (leafEntries root).Perm (([1, 2, 2, 3, 3, 3] : List Byte).dedup.map
        (fun v => (v, (([1, 2, 2, 3, 3, 3] : List Byte).count v : Int)))) ∧
      root.freq = ([1, 2, 2, 3, 3, 3] : List Byte).length ∧
      ∀ v, (∀ b ∈ ([1, 2, 2, 3, 3, 3] : List Byte), b = v) →
        root = .node v ([1, 2, 2, 3, 3, 3] : List Byte).length .nil .nil :=
  BuildTree_wellFormed stdRuntime [1, 2, 2, 3, 3, 3] (by decide) (by decide)

/-- C17 (code table coverage): for a non-empty buffer `D` and every runtime, the keys of the
table `generateHuffmanCodes` returns for the tree built from `D` are exactly the byte values
that occur in `D`; a string is the code of a key exactly when it is a path (left = `0`,
right = `1`) from the root to a leaf with that value, and for each value of `D` there is
only one such path. -/
theorem generateHuffmanCodes_covers (rt : Runtime) (D : List Byte) (hne : D ≠ []) :
    ∃ root codes, BuildTree rt D = .ok root ∧ generateHuffmanCodes root = .ok codes ∧
      (∀ k, k ∈ codes.map Prod.fst ↔ k ∈ D) ∧
      (∀ k p, codes.get? k = some p ↔ PathTo root p k) ∧
      (∀ k ∈ D, ∃ p, codes.get? k = some p ∧ PathTo root p k ∧
        ∀ q, PathTo root q k → q = p) := by
  obtain ⟨root, hroot, hproper, hleaves, _, hnd⟩ := BuildTree_spec rt hne
  obtain ⟨codes, hcodes, hget, hpath⟩ := generateHuffmanCodes_spec hproper.tree_ne_nil
  have hiff : ∀ k p, codes.get? k = some p ↔ PathTo root p k := by
    intro k p
    refine ⟨hpath k p, fun h => ?_⟩
    obtain ⟨p', hp', hpath'⟩ := hget k h.mem_leafValues
    rw [hp', hpath'.unique hnd h]
  refine ⟨root, codes, hroot, hcodes, ?_, hiff, ?_⟩
  · intro k
    rw [CodeMap.mem_keys_iff, ← hleaves]
    constructor
    · rintro ⟨p, hp⟩
      exact (hpath k p hp).mem_leafValues
    · intro hk
      obtain ⟨p, hp, _⟩ := hget k hk
      exact ⟨p, hp⟩
  · intro k hk
    obtain ⟨p, hp, hpp⟩ := hget k ((hleaves k).2 hk)
    exact ⟨p, hp, hpp, fun q hq => hq.unique hnd hpp⟩

/-- Witness of C17 on the buffer `[1, 2, 2, 3, 3, 3]`. -/
theorem generateHuffmanCodes_covers_witness :
    ∃ root codes, BuildTree stdRuntime [1, 2, 2, 3, 3, 3] = .ok root ∧
      generateHuffmanCodes root = .ok codes ∧
      (∀ k, k ∈ codes.map Prod.fst ↔ k ∈ ([1, 2, 2, 3, 3, 3] : List Byte)) ∧
      (∀ k p, codes.get? k = some p ↔ PathTo root p k) ∧
      (∀ k ∈ ([1, 2, 2, 3, 3, 3] : List Byte), ∃ p, codes.get? k = some p ∧
        PathTo root p k ∧ ∀ q, PathTo root q k → q = p) :=
  generateHuffmanCodes_covers stdRuntime [1, 2, 2, 3, 3, 3] (by decide)

/-- C18 (bit packing): for a string `s` of `n` characters `0` and `1`, `StringToByteArray`
returns `ceil(n / 8)` bytes, each below 256, and for every byte `k` and every `j` in `0..7`
the bit of weight `2 ^ (7 - j)` of byte `k` is 1 when character `8 k + j` of `s` exists and
is `1`, and 0 otherwise: most-significant bit first, the last byte filled with zeros. -/
theorem StringToByteArray_bits (s : List Char) (hs : IsBits s) :
    ∃ out, StringToByteArray s = .ok out ∧ out.length = (s.length + 7) / 8 ∧
      IsBytes out ∧
      ∀ k j, k < out.length → j < 8 →
        (out.getD k 0 / 2 ^ (7 - j)) % 2 = if s[8 * k + j]? = some '1' then 1 else 0 := by
  refine ⟨packSpec s, StringToByteArray_eq hs, packSpec_length _ s (le_refl _),
    isBytes_packSpec _ s (le_refl _), ?_⟩
  intro k j hk hj
  have hc : IsBits ((s.drop (8 * k)).take 8) := fun c hc =>
    hs c (List.mem_of_mem_drop (List.mem_of_mem_take hc))
  rw [packSpec_getD _ s (le_refl _) k hk,
    chunkByte_bit hc (by rw [List.length_take]; omega) j hj,
    List.getElem?_take_of_lt hj, List.getElem?_drop]

/-- Witness of C18 on the string `101100111`. -/
theorem StringToByteArray_bits_witness :
    ∃ out, StringToByteArray ['1', '0', '1', '1', '0', '0', '1', '1', '1'] = .ok out ∧
      out.length = (['1', '0', '1', '1', '0', '0', '1', '1', '1'].length + 7) / 8 ∧
      IsBytes out ∧
      ∀ k j, k < out.length → j < 8 →
        (out.getD k 0 / 2 ^ (7 - j)) % 2 =
          if ['1', '0', '1', '1', '0', '0', '1', '1', '1'][8 * k + j]? = some '1' then 1
          else 0 :=
  StringToByteArray_bits ['1', '0', '1', '1', '0', '0', '1', '1', '1'] (by
    intro c hc
    simp only [List.mem_cons, List.mem_singleton, List.not_mem_nil, or_false] at hc
    rcases hc with h | h | h | h | h | h | h | h | h <;> simp [h])

/-- C19 (decoder safety): on a tree in which every node has no child or two children and
whose root is not a leaf, `decodeData` returns a buffer for every byte buffer and every
target count: the walk never stands on `nil`, so there is no nil dereference. -/
theorem decodeData_safe (root : HuffmanNode) (hroot : Proper root)
    (hl : root.isLeaf = false) (data : List Byte) (size : Int) :
    ∃ out, decodeData data root size = .ok out := by
  obtain ⟨st, h⟩ := decodeBytes_safe hroot hl size data ⟨root, 0, []⟩ hroot hl
  refine ⟨st.decoded, ?_⟩
  rw [decodeData, h]

/-- Witness of C19 on `twoLeafTree`, two arbitrary bytes and the target count 5. -/
theorem decodeData_safe_witness :
    ∃ out, decodeData [201, 17] twoLeafTree 5 = .ok out :=
  decodeData_safe twoLeafTree
    (Or.inr ⟨Or.inl ⟨rfl, rfl⟩, Or.inl ⟨rfl, rfl⟩⟩) rfl [201, 17] 5

/-- C20 (Huffman optimality): for a frequency table with distinct keys, non-negative counts
whose total fits an `int`, and at least one symbol (so also with two or more), and for every
runtime (any order of the map, any tie-break of the sort), `buildHuffmanTree` returns a tree
and `generateHuffmanCodes` its table, and the total encoded bit length, the sum over the
symbols of frequency times code length, is at most the same sum under any assignment of bit
strings to the symbols in which no code is a beginning of the code of another symbol. -/
theorem buildHuffmanTree_optimal (rt : Runtime) (frequencies : List (Byte × Int))
    (hkeys : (frequencies.map Prod.fst).Nodup) (hpos : ∀ e ∈ frequencies, 0 ≤ e.2)
    (hsum : (frequencies.map Prod.snd).sum < 2 ^ 63) (hne : frequencies ≠ []) :
    ∃ root codes, buildHuffmanTree rt frequencies = .ok root ∧
      generateHuffmanCodes root = .ok codes ∧
      ∀ other : Byte → List Char,
        (∀ e ∈ frequencies, IsBits (other e.1)) →
        (∀ a ∈ frequencies, ∀ b ∈ frequencies, a.1 ≠ b.1 → ¬ other a.1 <+: other b.1) →
        codeCost frequencies codes.get ≤ codeCost frequencies other := by
  have hp1 := rt.mapRange_perm frequencies
  have hnn : (rt.mapRange frequencies).map
      (fun e => HuffmanNode.node e.1 e.2 .nil .nil) ≠ [] := by
    intro h
    have := congrArg List.length h
    rw [List.length_map, hp1.length_eq] at this
    exact hne (List.length_eq_zero.mp this)
  obtain ⟨root, hml, hproper, _⟩ := mergeLoop_spec rt
    ((rt.mapRange frequencies).map (fun e => HuffmanNode.node e.1 e.2 .nil .nil)).length
    ((rt.mapRange frequencies).map (fun e => HuffmanNode.node e.1 e.2 .nil .nil))
    (by omega) hnn
    (by
      intro n hn
      obtain ⟨e, _, rfl⟩ := List.mem_map.mp hn
      exact Or.inl ⟨rfl, rfl⟩)
  have hfreq : ((rt.mapRange frequencies).map
      (fun e => HuffmanNode.node e.1 e.2 .nil .nil)).map HuffmanNode.freq =
      (rt.mapRange frequencies).map Prod.snd := by
    rw [List.map_map]
    rfl
  have hcost0 : (((rt.mapRange frequencies).map
      (fun e => HuffmanNode.node e.1 e.2 .nil .nil)).map treeCost).sum = 0 := by
    rw [List.map_map]
    apply List.sum_eq_zero
    intro x hx
    obtain ⟨e, _, rfl⟩ := List.mem_map.mp hx
    simp [treeCost]
  have hsum' : (((rt.mapRange frequencies).map
      (fun e => HuffmanNode.node e.1 e.2 .nil .nil)).map HuffmanNode.freq).sum < 2 ^ 63 := by
    rw [hfreq, (hp1.map Prod.snd).sum_eq]
    exact hsum
  have hnodes0 : ∀ n ∈ (rt.mapRange frequencies).map
      (fun e => HuffmanNode.node e.1 e.2 .nil .nil), n ≠ .nil ∧ SumsOK n ∧ 0 ≤ n.freq := by
    intro n hn
    obtain ⟨e, he, rfl⟩ := List.mem_map.mp hn
    exact ⟨by simp, Or.inl ⟨rfl, rfl⟩, hpos e (hp1.mem_iff.1 he)⟩
  obtain ⟨hs1, _, hs3⟩ := mergeLoop_sums rt _ _ root hml hnodes0 hsum'
  rw [flatMap_leafEntries_leaves] at hs3
  have hentries := hs3.trans hp1
  obtain ⟨c, hc1, hc2⟩ := mergeLoop_cost rt _ _ root hml
    (fun n hn => ⟨(hnodes0 n hn).1, (hnodes0 n hn).2.2⟩) hsum'
  rw [hcost0, add_zero] at hc2
  rw [hfreq] at hc1
  have hnd : (leafValues root).Nodup := by
    rw [← leafEntries_fst, (hentries.map Prod.fst).nodup_iff]
    exact hkeys
  obtain ⟨codes, hcodes, hget, _⟩ := generateHuffmanCodes_spec hproper.tree_ne_nil
  have hcode : ∀ p k, PathTo root p k → codes.get k = [] ++ p := by
    intro p k hpk
    obtain ⟨p', hp', hpath'⟩ := hget k hpk.mem_leafValues
    rw [List.nil_append, ← hpath'.unique hnd hpk]
    simp [CodeMap.get, hp']
  have hhuff : codeCost frequencies codes.get = c := by
    have := entries_cost root hproper hs1 codes.get [] hcode
    rw [List.length_nil] at this
    simp only [Nat.cast_zero, mul_zero, add_zero] at this
    unfold codeCost
    rw [← (hentries.map (fun e => e.2 * ((codes.get e.1).length : Int))).sum_eq, this, hc2]
  refine ⟨root, codes, by simp only [buildHuffmanTree, hml], hcodes, ?_⟩
  intro other hbits hfree
  rw [hhuff]
  have hpair : (frequencies.map (fun e => other e.1)).Pairwise
      (fun x y => ¬ x <+: y ∧ ¬ y <+: x) := by
    rw [List.pairwise_map]
    have h1 : frequencies.Pairwise (fun a b => a.1 ≠ b.1) := List.pairwise_map.1 hkeys
    exact h1.imp_of_mem (fun {a b} ha hb hab =>
      ⟨hfree a ha b hb hab, hfree b hb a ha (fun h => hab h.symm)⟩)
  have hlen : ∀ s ∈ frequencies.map (fun e => other e.1),
      IsBits s ∧ s.length ≤ ((frequencies.map (fun e => other e.1)).map List.length).sum := by
    intro s hs
    refine ⟨?_, mem_le_sum _ _ (List.mem_map_of_mem _ hs)⟩
    obtain ⟨e, he, rfl⟩ := List.mem_map.mp hs
    exact hbits e he
  have hkraft := kraft_of_pairwise _ _ hlen hpair
  generalize ((frequencies.map (fun e => other e.1)).map List.length).sum = L at hlen hkraft
  have hmain := Merges.le_lengthCost _ L
    ((frequencies.map (fun e => (e.2, (other e.1).length)) : List (Int × Nat)) :
      Multiset (Int × Nat)) c (le_refl _)
    (by
      rw [Multiset.map_coe, List.map_map]
      have e : (Prod.fst ∘ fun e : Byte × Int => (e.2, (other e.1).length)) = Prod.snd := rfl
      rw [e, ← Multiset.coe_eq_coe.2 (hp1.map Prod.snd)]
      exact hc1)
    (by
      intro w hw
      rw [Multiset.map_coe, List.map_map, Multiset.mem_coe] at hw
      obtain ⟨e, he, rfl⟩ := List.mem_map.mp hw
      exact hpos e he)
    (by
      intro l hl
      rw [Multiset.map_coe, List.map_map, Multiset.mem_coe] at hl
      obtain ⟨e, he, rfl⟩ := List.mem_map.mp hl
      exact (hlen _ (List.mem_map_of_mem _ he)).2)
    (by
      unfold kraftSum
      rw [Multiset.map_coe, Multiset.map_coe, Multiset.sum_coe, List.map_map, List.map_map]
      rw [List.map_map] at hkraft
      exact hkraft)
  unfold lengthCost at hmain
  rw [Multiset.map_coe, Multiset.sum_coe, List.map_map] at hmain
  exact hmain

/-- Witness of C20 on the frequency table of `[1, 2, 2, 3, 3, 3]`. -/
theorem buildHuffmanTree_optimal_witness :
    ∃ root codes, buildHuffmanTree stdRuntime [(1, 1), (2, 2), (3, 3)] = .ok root ∧
      generateHuffmanCodes root = .ok codes ∧
      ∀ other : Byte → List Char,
        (∀ e ∈ ([(1, 1), (2, 2), (3, 3)] : List (Byte × Int)), IsBits (other e.1)) →
        (∀ a ∈ ([(1, 1), (2, 2), (3, 3)] : List (Byte × Int)),
          ∀ b ∈ ([(1, 1), (2, 2), (3, 3)] : List (Byte × Int)),
            a.1 ≠ b.1 → ¬ other a.1 <+: other b.1) →
        codeCost [(1, 1), (2, 2), (3, 3)] codes.get ≤
          codeCost [(1, 1), (2, 2), (3, 3)] other :=
  buildHuffmanTree_optimal stdRuntime [(1, 1), (2, 2), (3, 3)] (by decide) (by decide)
    (by decide) (by decide)

end Compress
